import Mathlib

/-!
# Verification of `arraymap` (PeeterO/Arraymap, src/arraymap.h)

Shallow embedding of the radix-trie ordered map `arraymap::arraymap` and its
ordering transform `arraymap::ordering_default`, together with proofs and
refutations of the specification claims.

Machine integers are modelled as `Nat` bit patterns (`b < 2 ^ w`); bytes are
`Nat` values `< 256`; the trie is an inductive tree whose `empty`
constructor stands for a slot holding the shared sentinel `empty_node`.
-/

namespace Arraymap

/-! ## Nat xor toolkit (helper lemmas used to reason about the bit tricks) -/

theorem two_pow_split {w : Nat} (hw : 0 < w) : 2 ^ w = 2 ^ (w - 1) + 2 ^ (w - 1) := by
  rw [show w = w - 1 + 1 from by omega, pow_succ, Nat.add_sub_cancel]
  omega

theorem xor_two_pow_of_lt {k x : Nat} (h : x < 2 ^ k) : x ^^^ 2 ^ k = x + 2 ^ k := by
  apply Nat.eq_of_testBit_eq
  intro i
  have hx : x + 2 ^ k = 2 ^ k * 1 + x := by ring
  rw [hx, Nat.testBit_mul_pow_two_add 1 h, Nat.testBit_xor]
  rcases lt_trichotomy i k with hik | hik | hik
  · simp [Nat.testBit_two_pow_of_ne (Nat.ne_of_gt hik), hik]
  · subst hik
    simp [Nat.testBit_two_pow_self, Nat.testBit_lt_two_pow h]
  · have h1 : x.testBit i = false :=
      Nat.testBit_lt_two_pow (lt_of_lt_of_le h (Nat.pow_le_pow_right (by norm_num) hik.le))
    have h2 : Nat.testBit 1 (i - k) = false := by
      apply Nat.testBit_lt_two_pow
      calc (1 : Nat) < 2 ^ 1 := by norm_num
        _ ≤ 2 ^ (i - k) := Nat.pow_le_pow_right (by norm_num) (by omega)
    simp [h1, h2, Nat.testBit_two_pow_of_ne (Nat.ne_of_lt hik), if_neg (by omega : ¬ i < k)]

theorem xor_two_pow_of_ge {k x : Nat} (h1 : 2 ^ k ≤ x) (h2 : x < 2 ^ k + 2 ^ k) :
    x ^^^ 2 ^ k = x - 2 ^ k := by
  have hy : x - 2 ^ k < 2 ^ k := by omega
  have hcan := xor_two_pow_of_lt hy
  have hx : x = (x - 2 ^ k) ^^^ 2 ^ k := by rw [hcan]; omega
  calc x ^^^ 2 ^ k = ((x - 2 ^ k) ^^^ 2 ^ k) ^^^ 2 ^ k := by rw [← hx]
    _ = x - 2 ^ k := Nat.xor_cancel_right _ _

theorem xor_mask_of_lt : ∀ (k : Nat), ∀ x < 2 ^ k, x ^^^ (2 ^ k - 1) = 2 ^ k - 1 - x := by
  intro k
  induction k with
  | zero => intro x hx; interval_cases x; decide
  | succ k ih =>
    intro x hx
    have hp : 2 ^ (k + 1) = 2 * 2 ^ k := by ring
    have h2 : x / 2 < 2 ^ k := by omega
    have hdiv : (x ^^^ (2 ^ (k + 1) - 1)) / 2 = (x / 2) ^^^ (2 ^ k - 1) := by
      rw [Nat.xor_div_two]
      congr 1
      omega
    have hmod : (x ^^^ (2 ^ (k + 1) - 1)) % 2 = (x + (2 ^ (k + 1) - 1)) % 2 :=
      Nat.xor_mod_two_eq
    have hih := ih (x / 2) h2
    have hsplit := Nat.div_add_mod (x ^^^ (2 ^ (k + 1) - 1)) 2
    have hx2 := Nat.div_add_mod x 2
    have hm2 : x % 2 < 2 := Nat.mod_lt _ (by norm_num)
    have hpos : 0 < 2 ^ k := Nat.pos_pow_of_pos k (by norm_num)
    omega

theorem and_two_pow_of_lt {k x : Nat} (h : x < 2 ^ k) : x &&& 2 ^ k = 0 := by
  rw [Nat.and_two_pow, Nat.testBit_lt_two_pow h]
  simp

theorem and_two_pow_of_ge {k x : Nat} (h1 : 2 ^ k ≤ x) (h2 : x < 2 ^ k + 2 ^ k) :
    x &&& 2 ^ k = 2 ^ k := by
  have hd : x / 2 ^ k = 1 := Nat.div_eq_of_lt_le (by omega) (by omega)
  rw [Nat.and_two_pow, Nat.testBit_to_div_mod, hd]
  norm_num

theorem two_pow_pos (k : Nat) : 0 < 2 ^ k := Nat.pos_pow_of_pos k (by norm_num)

/-! ## Ordering transform (`arraymap::ordering_default`, src/arraymap.h:71-147)

Bit-pattern level embedding: a value of a `w`-bit key type is its unsigned
bit pattern `b < 2 ^ w`.  The signed-integer branches compute
`value ^ (1 << (w-1))` (sign-bit flip); at the bit-pattern level this is
`b ^^^ 2 ^ (w - 1)` for each of the widths 8/16/32/64.  The float/double
branches flip the sign bit and then, when the resulting top bit is clear
(`!(*pf & 0x8000...)`) xor with the low mask `0x7FFF...` = `2 ^ (w-1) - 1`;
the source writes this conditional xor as a multiplication of the mask by
`!(*pf & 0x80...)` resp. `!!(*pf & 0x80...)`. -/

/-- `ordering_default::apply` for the four signed-integer instantiations
(widths `w` = 8, 16, 32, 64): xor with `1 << (w-1)`. -/
def applyIntW (w b : Nat) : Nat := b ^^^ 2 ^ (w - 1)

/-- `ordering_default::restore` for the signed-integer instantiations:
xor with `1 << (w-1)` again. -/
def restoreIntW (w b : Nat) : Nat := b ^^^ 2 ^ (w - 1)

/-- `ordering_default::apply` for `float` (`w = 32`) and `double` (`w = 64`):
`*pf ^= 0x80...0; *pf ^= 0x7F...F * !(*pf & 0x80...0)`. -/
def applyFloatW (w b : Nat) : Nat :=
  if (b ^^^ 2 ^ (w - 1)) &&& 2 ^ (w - 1) = 0
  then (b ^^^ 2 ^ (w - 1)) ^^^ (2 ^ (w - 1) - 1)
  else b ^^^ 2 ^ (w - 1)

/-- `ordering_default::restore` for `float`/`double`:
`*pf ^= 0x80...0; *pf ^= 0x7F...F * !!(*pf & 0x80...0)`. -/
def restoreFloatW (w b : Nat) : Nat :=
  if (b ^^^ 2 ^ (w - 1)) &&& 2 ^ (w - 1) = 0
  then b ^^^ 2 ^ (w - 1)
  else (b ^^^ 2 ^ (w - 1)) ^^^ (2 ^ (w - 1) - 1)

/-- Two's-complement reading of a `w`-bit pattern (the native value of a
signed integer key). -/
def toIntW (w b : Nat) : Int :=
  if b < 2 ^ (w - 1) then (b : Int) else (b : Int) - 2 ^ w

/-- Native comparison of two signed-integer key patterns. -/
def intLtW (w a b : Nat) : Prop := toIntW w a < toIntW w b

/-- Modelled from IEEE-754: order surrogate of a non-NaN `w`-bit float
pattern.  For non-NaN operands the native `<` of the key type coincides with
comparison of this sign-magnitude integer (both zero patterns map to `0`). -/
def floatValW (w b : Nat) : Int :=
  if b < 2 ^ (w - 1) then (b : Int) else -(((b - 2 ^ (w - 1) : Nat)) : Int)

/-- Modelled from IEEE-754: a `w`-bit pattern with `m` mantissa bits is a NaN
iff its exponent field is all ones and its mantissa is nonzero. -/
def isNaNW (w m b : Nat) : Prop :=
  b / 2 ^ m % 2 ^ (w - 1 - m) = 2 ^ (w - 1 - m) - 1 ∧ b % 2 ^ m ≠ 0

instance (w m b : Nat) : Decidable (isNaNW w m b) := by
  unfold isNaNW; infer_instance

/-- Modelled from IEEE-754: the native `<` of the float key type on bit
patterns: false if either operand is NaN, otherwise comparison of values. -/
def fltLtW (w m a b : Nat) : Prop :=
  ¬ isNaNW w m a ∧ ¬ isNaNW w m b ∧ floatValW w a < floatValW w b

instance (w m a b : Nat) : Decidable (fltLtW w m a b) := by
  unfold fltLtW; infer_instance

/-! Closed forms of the transforms. -/

theorem applyIntW_eq {w b : Nat} (hw : 0 < w) (hb : b < 2 ^ w) :
    applyIntW w b = if b < 2 ^ (w - 1) then b + 2 ^ (w - 1) else b - 2 ^ (w - 1) := by
  unfold applyIntW
  have hsp := two_pow_split hw
  split
  · exact xor_two_pow_of_lt (by assumption)
  · exact xor_two_pow_of_ge (by omega) (by omega)

theorem applyFloatW_eq {w b : Nat} (hw : 0 < w) (hb : b < 2 ^ w) :
    applyFloatW w b = if b < 2 ^ (w - 1) then b + 2 ^ (w - 1) else 2 ^ w - 1 - b := by
  unfold applyFloatW
  have hsp := two_pow_split hw
  rcases Nat.lt_or_ge b (2 ^ (w - 1)) with h | h
  · have h1 : b ^^^ 2 ^ (w - 1) = b + 2 ^ (w - 1) := xor_two_pow_of_lt h
    have h3 : (b ^^^ 2 ^ (w - 1)) &&& 2 ^ (w - 1) = 2 ^ (w - 1) := by
      rw [h1]; exact and_two_pow_of_ge (by omega) (by omega)
    rw [if_neg (by rw [h3]; exact Nat.ne_of_gt (two_pow_pos _)), h1, if_pos h]
  · have h1 : b ^^^ 2 ^ (w - 1) = b - 2 ^ (w - 1) := xor_two_pow_of_ge h (by omega)
    have h3 : (b ^^^ 2 ^ (w - 1)) &&& 2 ^ (w - 1) = 0 := by
      rw [h1]; exact and_two_pow_of_lt (by omega)
    rw [if_pos h3, h1, if_neg (by omega : ¬ b < 2 ^ (w - 1)),
      xor_mask_of_lt (w - 1) _ (by omega)]
    omega

theorem restoreFloatW_eq {w b : Nat} (hw : 0 < w) (hb : b < 2 ^ w) :
    restoreFloatW w b = if b < 2 ^ (w - 1) then 2 ^ w - 1 - b else b - 2 ^ (w - 1) := by
  unfold restoreFloatW
  have hsp := two_pow_split hw
  rcases Nat.lt_or_ge b (2 ^ (w - 1)) with h | h
  · have h1 : b ^^^ 2 ^ (w - 1) = b + 2 ^ (w - 1) := xor_two_pow_of_lt h
    have h3 : (b ^^^ 2 ^ (w - 1)) &&& 2 ^ (w - 1) = 2 ^ (w - 1) := by
      rw [h1]; exact and_two_pow_of_ge (by omega) (by omega)
    rw [if_neg (by rw [h3]; exact Nat.ne_of_gt (two_pow_pos _)), h1, if_pos h]
    have hmask : 2 ^ (w - 1) - 1 < 2 ^ (w - 1) := by
      have := two_pow_pos (w - 1); omega
    have hcomm : b + 2 ^ (w - 1) = 2 ^ (w - 1) ^^^ b := by
      rw [Nat.xor_comm, xor_two_pow_of_lt h]
    rw [hcomm, Nat.xor_assoc, Nat.xor_comm (2 ^ (w - 1)),
      xor_two_pow_of_lt (Nat.xor_lt_two_pow h hmask), xor_mask_of_lt (w - 1) _ h]
    omega
  · have h1 : b ^^^ 2 ^ (w - 1) = b - 2 ^ (w - 1) := xor_two_pow_of_ge h (by omega)
    have h3 : (b ^^^ 2 ^ (w - 1)) &&& 2 ^ (w - 1) = 0 := by
      rw [h1]; exact and_two_pow_of_lt (by omega)
    rw [if_pos h3, h1, if_neg (by omega : ¬ b < 2 ^ (w - 1))]

/-! ## Bytes of a radix key

The radix key is stored little-endian in memory (`memcpy` into `key_bytes`);
"byte-wise lexicographic comparison, most-significant byte first" therefore
reads the bytes from the most significant down, i.e. compares the big-endian
byte string of the value. -/

/-- The `n` bytes of `x`, most significant first. -/
def toBytesBE : Nat → Nat → List Nat
  | 0, _ => []
  | n + 1, x => x / 256 ^ n :: toBytesBE n (x % 256 ^ n)

/-- memcmp-style strict lexicographic `<` on unsigned byte strings. -/
def lexLtBytes : List Nat → List Nat → Bool
  | [], [] => false
  | [], _ :: _ => true
  | _ :: _, [] => false
  | a :: as, b :: bs => if a < b then true else if a = b then lexLtBytes as bs else false

/-- Unsigned byte-wise lexicographic comparison (most significant byte
first) of two `w`-bit radix keys. -/
def bytesLtW (w x y : Nat) : Prop := lexLtBytes (toBytesBE (w / 8) x) (toBytesBE (w / 8) y)

instance (w x y : Nat) : Decidable (bytesLtW w x y) := by
  unfold bytesLtW; infer_instance

theorem lexLtBytes_toBytesBE_iff :
    ∀ n, ∀ x < 256 ^ n, ∀ y < 256 ^ n,
      (lexLtBytes (toBytesBE n x) (toBytesBE n y) = true ↔ x < y) := by
  intro n
  induction n with
  | zero =>
    intro x hx y hy
    simp at hx hy
    subst hx; subst hy
    simp [toBytesBE, lexLtBytes]
  | succ n ih =>
    intro x hx y hy
    have hp : 256 ^ (n + 1) = 256 ^ n * 256 := by ring
    have hxm : x % 256 ^ n < 256 ^ n := Nat.mod_lt _ (by positivity)
    have hym : y % 256 ^ n < 256 ^ n := Nat.mod_lt _ (by positivity)
    have hxd := Nat.div_add_mod x (256 ^ n)
    have hyd := Nat.div_add_mod y (256 ^ n)
    simp only [toBytesBE, lexLtBytes]
    rcases lt_trichotomy (x / 256 ^ n) (y / 256 ^ n) with hlt | heq | hgt
    · rw [if_pos hlt]
      have h1 : 256 ^ n * (x / 256 ^ n) + 256 ^ n ≤ 256 ^ n * (y / 256 ^ n) := by
        calc 256 ^ n * (x / 256 ^ n) + 256 ^ n = 256 ^ n * (x / 256 ^ n + 1) := by ring
          _ ≤ 256 ^ n * (y / 256 ^ n) := Nat.mul_le_mul_left _ hlt
      refine ⟨fun _ => ?_, fun _ => rfl⟩
      omega
    · rw [← heq] at hyd
      rw [if_neg (by omega), if_pos heq, ih _ hxm _ hym]
      omega
    · rw [if_neg (by omega), if_neg (by omega)]
      have h1 : 256 ^ n * (y / 256 ^ n) + 256 ^ n ≤ 256 ^ n * (x / 256 ^ n) := by
        calc 256 ^ n * (y / 256 ^ n) + 256 ^ n = 256 ^ n * (y / 256 ^ n + 1) := by ring
          _ ≤ 256 ^ n * (x / 256 ^ n) := Nat.mul_le_mul_left _ hgt
      refine ⟨fun hff => absurd hff Bool.false_ne_true, fun hxy => absurd hxy (by omega)⟩

theorem applyIntW_lt_two_pow {w b : Nat} (hw : 0 < w) (hb : b < 2 ^ w) :
    applyIntW w b < 2 ^ w := by
  rw [applyIntW_eq hw hb]
  have hsp := two_pow_split hw
  split <;> omega

theorem applyFloatW_lt_two_pow {w b : Nat} (hw : 0 < w) (hb : b < 2 ^ w) :
    applyFloatW w b < 2 ^ w := by
  rw [applyFloatW_eq hw hb]
  have hsp := two_pow_split hw
  have := two_pow_pos (w - 1)
  split <;> omega

/-! Order preservation, width-generic core lemmas. -/

theorem applyIntW_lt_iff {w a b : Nat} (hw : 0 < w) (ha : a < 2 ^ w) (hb : b < 2 ^ w) :
    (applyIntW w a < applyIntW w b ↔ intLtW w a b) := by
  rw [applyIntW_eq hw ha, applyIntW_eq hw hb]
  unfold intLtW toIntW
  have hsp := two_pow_split hw
  have hz : ((2 : Int) ^ w) = ((2 ^ w : Nat) : Int) := by push_cast; ring
  rcases Nat.lt_or_ge a (2 ^ (w - 1)) with h1 | h1 <;>
    rcases Nat.lt_or_ge b (2 ^ (w - 1)) with h2 | h2 <;>
      simp only [if_pos, if_neg, not_lt, h1, h2] <;> omega

theorem applyFloatW_lt_iff {w a b : Nat} (hw : 0 < w) (ha : a < 2 ^ w) (hb : b < 2 ^ w) :
    (applyFloatW w a < applyFloatW w b ↔
      (floatValW w a < floatValW w b ∨ (a = 2 ^ (w - 1) ∧ b = 0))) := by
  rw [applyFloatW_eq hw ha, applyFloatW_eq hw hb]
  unfold floatValW
  have hsp := two_pow_split hw
  have hpos := two_pow_pos (w - 1)
  rcases Nat.lt_or_ge a (2 ^ (w - 1)) with h1 | h1 <;>
    rcases Nat.lt_or_ge b (2 ^ (w - 1)) with h2 | h2 <;>
      simp only [if_pos, if_neg, not_lt, h1, h2] <;> omega

/-- **C2, counterexample.**  The claim asserts that for float keys under
`ordering_default`, `apply(a)` byte-compares below `apply(b)` iff `a < b`
natively.  At `a = -0.0` (pattern `0x80000000`) and `b = +0.0` (pattern
`0x00000000`) the radix key of `a` is byte-wise less than that of `b`
(`0x7FFFFFFF < 0x80000000`), but natively `-0.0 < +0.0` is false. -/
theorem claim2_counterexample :
    bytesLtW 32 (applyFloatW 32 0x80000000) (applyFloatW 32 0x00000000) ∧
      ¬ fltLtW 32 23 0x80000000 0x00000000 := by
  constructor
  · show lexLtBytes _ _ = true
    decide
  · decide

/-- **C2 (amended).**  For all representable keys `a`, `b`: for the signed
integer key types (widths 8/16/32/64) `apply(a)` compares less than
`apply(b)` under unsigned byte-wise lexicographic comparison
(most-significant byte first) iff `a < b` natively.  For the float key
types (`float` = 32/23, `double` = 64/52), restricted to non-NaN keys, the
byte-wise comparison of the radix keys holds iff `a < b` natively **or**
`a = -0.0` and `b = +0.0` (the transform separates the two zero patterns,
ordering `-0.0` strictly below `+0.0`). -/
theorem claim2_amended :
    (∀ w ∈ ([8, 16, 32, 64] : List Nat), ∀ a < 2 ^ w, ∀ b < 2 ^ w,
      (bytesLtW w (applyIntW w a) (applyIntW w b) ↔ intLtW w a b)) ∧
    (∀ p ∈ ([(32, 23), (64, 52)] : List (Nat × Nat)), ∀ a < 2 ^ p.1, ∀ b < 2 ^ p.1,
      ¬ isNaNW p.1 p.2 a → ¬ isNaNW p.1 p.2 b →
      (bytesLtW p.1 (applyFloatW p.1 a) (applyFloatW p.1 b) ↔
        (fltLtW p.1 p.2 a b ∨ (a = 2 ^ (p.1 - 1) ∧ b = 0)))) := by
  constructor
  · intro w hw a ha b hb
    have hcases : w = 8 ∨ w = 16 ∨ w = 32 ∨ w = 64 := by
      simpa using hw
    have hwpos : 0 < w := by rcases hcases with rfl | rfl | rfl | rfl <;> norm_num
    have hbytes : 256 ^ (w / 8) = 2 ^ w := by
      rcases hcases with rfl | rfl | rfl | rfl <;> norm_num
    unfold bytesLtW
    rw [show (lexLtBytes (toBytesBE (w / 8) (applyIntW w a))
        (toBytesBE (w / 8) (applyIntW w b)) = true ↔ applyIntW w a < applyIntW w b) from
      lexLtBytes_toBytesBE_iff _ _ (by rw [hbytes]; exact applyIntW_lt_two_pow hwpos ha)
        _ (by rw [hbytes]; exact applyIntW_lt_two_pow hwpos hb)]
    exact applyIntW_lt_iff hwpos ha hb
  · intro p hp a ha b hb hna hnb
    have hcases : p = (32, 23) ∨ p = (64, 52) := by simpa using hp
    have hwpos : 0 < p.1 := by rcases hcases with rfl | rfl <;> norm_num
    have hbytes : 256 ^ (p.1 / 8) = 2 ^ p.1 := by
      rcases hcases with rfl | rfl <;> norm_num
    unfold bytesLtW
    rw [show (lexLtBytes (toBytesBE (p.1 / 8) (applyFloatW p.1 a))
        (toBytesBE (p.1 / 8) (applyFloatW p.1 b)) = true ↔
          applyFloatW p.1 a < applyFloatW p.1 b) from
      lexLtBytes_toBytesBE_iff _ _ (by rw [hbytes]; exact applyFloatW_lt_two_pow hwpos ha)
        _ (by rw [hbytes]; exact applyFloatW_lt_two_pow hwpos hb)]
    rw [applyFloatW_lt_iff hwpos ha hb]
    unfold fltLtW
    tauto

theorem claim2_amended_witness :
    ((8 : Nat) ∈ ([8, 16, 32, 64] : List Nat) ∧ (0x7B : Nat) < 2 ^ 8 ∧ (0x85 : Nat) < 2 ^ 8 ∧
      (bytesLtW 8 (applyIntW 8 0x7B) (applyIntW 8 0x85) ↔ intLtW 8 0x7B 0x85)) ∧
    (((32 : Nat), (23 : Nat)) ∈ ([(32, 23), (64, 52)] : List (Nat × Nat)) ∧
      ¬ isNaNW 32 23 0x3F800000 ∧ ¬ isNaNW 32 23 0x40000000 ∧
      (bytesLtW 32 (applyFloatW 32 0x3F800000) (applyFloatW 32 0x40000000) ↔
        (fltLtW 32 23 0x3F800000 0x40000000 ∨ (0x3F800000 = 2 ^ (32 - 1) ∧ 0x40000000 = 0)))) :=
  ⟨⟨by decide, by decide, by decide,
      claim2_amended.1 8 (by decide) 0x7B (by decide) 0x85 (by decide)⟩,
   ⟨by decide, by decide, by decide,
      claim2_amended.2 (32, 23) (by decide) 0x3F800000 (by decide) 0x40000000 (by decide)
        (by decide) (by decide)⟩⟩

/-- **C3 (confirmed).**  For every key `k` of a supported key type,
`restore(apply(k)) == k` bit-for-bit: the signed-integer branches cancel the
sign-bit xor, and the float branches invert the conditional mask-xor using
the transformed value's top bit. -/
theorem claim3_restore_apply_roundtrip :
    (∀ w ∈ ([8, 16, 32, 64] : List Nat), ∀ b < 2 ^ w,
      restoreIntW w (applyIntW w b) = b) ∧
    (∀ w ∈ ([32, 64] : List Nat), ∀ b < 2 ^ w,
      restoreFloatW w (applyFloatW w b) = b) := by
  constructor
  · intro w _ b _
    unfold restoreIntW applyIntW
    exact Nat.xor_cancel_right _ _
  · intro w hw b hb
    have hwpos : 0 < w := by
      have : w = 32 ∨ w = 64 := by simpa using hw
      rcases this with rfl | rfl <;> norm_num
    have hsp := two_pow_split hwpos
    have hpos := two_pow_pos (w - 1)
    have happ := applyFloatW_eq hwpos hb
    rcases Nat.lt_or_ge b (2 ^ (w - 1)) with h | h
    · rw [happ, if_pos h, restoreFloatW_eq hwpos (by omega)]
      rw [if_neg (by omega : ¬ b + 2 ^ (w - 1) < 2 ^ (w - 1))]
      omega
    · rw [happ, if_neg (by omega : ¬ b < 2 ^ (w - 1)), restoreFloatW_eq hwpos (by omega)]
      rw [if_pos (by omega : 2 ^ w - 1 - b < 2 ^ (w - 1))]
      omega

theorem claim3_witness :
    ((8 : Nat) ∈ ([8, 16, 32, 64] : List Nat) ∧ (0x85 : Nat) < 2 ^ 8 ∧
      restoreIntW 8 (applyIntW 8 0x85) = 0x85) ∧
    ((32 : Nat) ∈ ([32, 64] : List Nat) ∧ (0x80000000 : Nat) < 2 ^ 32 ∧
      restoreFloatW 32 (applyFloatW 32 0x80000000) = 0x80000000) :=
  ⟨⟨by decide, by decide, claim3_restore_apply_roundtrip.1 8 (by decide) 0x85 (by decide)⟩,
   ⟨by decide, by decide,
      claim3_restore_apply_roundtrip.2 32 (by decide) 0x80000000 (by decide)⟩⟩

/-! ## The radix trie (`arraymap::arraymap`, src/arraymap.h:149-1032)

A node slot (`ptr_t`) is a word that is compared against the shared sentinel
`empty_node`; a non-sentinel slot holds a pointer to a value (at tetrade
depth 0) or to a 16-slot child array (at depth > 0).  `Trie.empty` stands
for a slot equal to `*empty_node`.  `MAX_DEPTH = sizeof(key_type) * 2`; `S`
denotes `sizeof(key_type)` throughout, so trie walks use `2*S` tetrades.
Radix keys are the `Nat` value of the key's bit pattern; tetrade `Nr` of the
key bytes (`tetradeValue`, little-endian memory) is nibble `Nr` of that
value. -/

inductive Trie (V : Type) where
  | empty : Trie V
  | leaf : V → Trie V
  | node : List (Trie V) → Trie V

/-- `slot == *empty_node`. -/
def isEmptyT {V : Type} : Trie V → Bool
  | .empty => true
  | _ => false

/-- `current_Node->next + i`, the `i`-th child slot of a slot.  Stepping
through the sentinel yields the sentinel again (its 16 slots self-point);
depth discipline keeps leaves from being dereferenced as arrays. -/
def childAt {V : Type} : Trie V → Nat → Trie V
  | .node c, i => c.getD i .empty
  | _, _ => .empty

/-- Nibble `nr` of the radix key value `k`:
`tetradeValue((unsigned char*)&key, Nr)` (src/arraymap.h:1027-1031). -/
def tetKey (k nr : Nat) : Nat := k / 16 ^ nr % 16

/-- `element_fast_find` (src/arraymap.h:971-980): follow child slots for
tetrades `MAX_DEPTH-1 .. 0` (most significant nibble first) without
allocating; `n` is the number of tetrades still to consume. -/
def fastFind {V : Type} (t : Trie V) (k : Nat) : Nat → Trie V
  | 0 => t
  | n + 1 => fastFind (childAt t (tetKey k n)) k n

/-- The child array of a slot, materialising `node_add_empty_node()`
(16 sentinel slots, src/arraymap.h:939-948) when the slot is the sentinel. -/
def childrenOf {V : Type} : Trie V → List (Trie V)
  | .node c => c
  | _ => List.replicate 16 .empty

/-- `element_fast_add` (src/arraymap.h:996-1010): materialise the path of
the radix key, then allocate/construct the value in the depth-0 slot. -/
def fastAdd {V : Type} (t : Trie V) (k : Nat) (v : V) : Nat → Trie V
  | 0 => .leaf v
  | n + 1 =>
      .node ((childrenOf t).set (tetKey k n) (fastAdd (childAt t (tetKey k n)) k v n))

/-- `is_node_empty` (src/arraymap.h:965-970): all 16 slots equal the sentinel. -/
def isNodeEmpty {V : Type} (c : List (Trie V)) : Bool := c.all isEmptyT

/-- Trie effect of `iterator_base::erase_elem` (src/arraymap.h:377-401) from
a valid iterator at radix key `k`: destroy the depth-0 slot, mark it
sentinel, then walk the retained per-level stack upward, freeing every node
whose 16 children became sentinel and stopping at the first survivor. -/
def eraseT {V : Type} (t : Trie V) (k : Nat) : Nat → Trie V
  | 0 => .empty
  | n + 1 =>
      if isNodeEmpty ((childrenOf t).set (tetKey k n) (eraseT (childAt t (tetKey k n)) k n))
      then .empty
      else .node ((childrenOf t).set (tetKey k n) (eraseT (childAt t (tetKey k n)) k n))

/-- Reading a depth-0 slot: the stored value, if any. -/
def slotVal {V : Type} : Trie V → Option V
  | .leaf v => some v
  | _ => none

/-! ### Container facade on radix keys

All public operations first map the key through `Ordering::apply`; the
functions below model their effect on the trie and the element count, taking
the already-transformed radix key `rk`. -/

/-- Container state: `root` slot and `element_count`. -/
structure AMap (V : Type) where
  root : Trie V
  element_count : Nat

/-- `arraymap()` (src/arraymap.h:189-200): sentinel root, zero elements. -/
def emptyMap (V : Type) : AMap V := ⟨.empty, 0⟩

/-- `find`-style lookup of the value stored for radix key `rk`. -/
def findValR {V : Type} (S : Nat) (m : AMap V) (rk : Nat) : Option V :=
  slotVal (fastFind m.root rk (2 * S))

/-- `insert(const value_type&)` / `insert(value_type&&)` / `emplace`
(src/arraymap.h:878-918): insert only if `element_fast_find` returns the
sentinel; report whether an insertion happened. -/
def insertR {V : Type} (S : Nat) (m : AMap V) (rk : Nat) (v : V) : AMap V × Bool :=
  if isEmptyT (fastFind m.root rk (2 * S))
  then (⟨fastAdd m.root rk v (2 * S), m.element_count + 1⟩, true)
  else (m, false)

/-- `try_emplace` (src/arraymap.h:919-932): same fast-find guard, value
constructed from the forwarded arguments. -/
def tryEmplaceR {V : Type} (S : Nat) (m : AMap V) (rk : Nat) (v : V) : AMap V × Bool :=
  if isEmptyT (fastFind m.root rk (2 * S))
  then (⟨fastAdd m.root rk v (2 * S), m.element_count + 1⟩, true)
  else (m, false)

/-- `operator[]` (src/arraymap.h:761-772): default-construct and count a new
element when absent; return the mapped value. -/
def indexR {V : Type} [Inhabited V] (S : Nat) (m : AMap V) (rk : Nat) : AMap V × V :=
  if isEmptyT (fastFind m.root rk (2 * S))
  then (⟨fastAdd m.root rk default (2 * S), m.element_count + 1⟩, default)
  else (m, (findValR S m rk).getD default)

/-- `at` (src/arraymap.h:773-781): a const lookup; `none` models the thrown
`std::out_of_range("arraymap::at")`.  The container is returned unchanged (a
const method). -/
def atR {V : Type} (S : Nat) (m : AMap V) (rk : Nat) : Option V × AMap V :=
  if isEmptyT (fastFind m.root rk (2 * S))
  then (none, m)
  else ((findValR S m rk), m)

/-- `contains` (src/arraymap.h:933-937). -/
def containsR {V : Type} (S : Nat) (m : AMap V) (rk : Nat) : Bool :=
  ! isEmptyT (fastFind m.root rk (2 * S))

/-- `erase(const key_type&)` (src/arraymap.h:848-859): the iterator built
with `findNext=false` differs from `end()` exactly when the key's depth-0
slot is non-sentinel; in that case `erase_elem` runs and the count drops. -/
def eraseKeyR {V : Type} (S : Nat) (m : AMap V) (rk : Nat) : AMap V × Nat :=
  if isEmptyT (fastFind m.root rk (2 * S))
  then (m, 0)
  else (⟨eraseT m.root rk (2 * S), m.element_count - 1⟩, 1)

/-- Trie effect of `erase(iterator)` (src/arraymap.h:860-865) at a valid
iterator denoting radix key `rk`: `erase_elem` plus the count decrement. -/
def eraseIterR {V : Type} (S : Nat) (m : AMap V) (rk : Nat) : AMap V :=
  ⟨eraseT m.root rk (2 * S), m.element_count - 1⟩

/-- `clear` (src/arraymap.h:786-791): full teardown, sentinel root, zero
count. -/
def clearR {V : Type} (_ : AMap V) : AMap V := ⟨.empty, 0⟩

/-! ### Structural invariants -/

/-- Depth-correct slot: at tetrade depth 0 a slot is the sentinel or a leaf;
above, the sentinel or a 16-slot array of depth-correct slots. -/
def wfB {V : Type} : Nat → Trie V → Bool
  | 0, .empty => true
  | 0, .leaf _ => true
  | 0, .node _ => false
  | _ + 1, .empty => true
  | _ + 1, .leaf _ => false
  | n + 1, .node c => c.length == 16 && c.all (wfB n)

/-- No reachable internal node is fully sentinel (the pruning invariant). -/
def prunedB {V : Type} : Nat → Trie V → Bool
  | 0, _ => true
  | _ + 1, .empty => true
  | _ + 1, .leaf _ => true
  | n + 1, .node c => (! isNodeEmpty c) && c.all (prunedB n)

/-- Leaf slots reachable from a slot at the given depth. -/
def countLeaves {V : Type} : Nat → Trie V → Nat
  | 0, .leaf _ => 1
  | 0, _ => 0
  | _ + 1, .empty => 0
  | _ + 1, .leaf _ => 0
  | n + 1, .node c => (c.map (countLeaves n)).sum

/-- The container invariant of claim C5. -/
def INV {V : Type} (S : Nat) (m : AMap V) : Prop :=
  wfB (2 * S) m.root = true ∧ prunedB (2 * S) m.root = true ∧
    m.element_count = countLeaves (2 * S) m.root

/-! ### List helper lemmas -/

theorem getD_set_self {α : Type} : ∀ (l : List α) (i : Nat) (x d : α),
    i < l.length → (l.set i x).getD i d = x := by
  intro l
  induction l with
  | nil => intro i x d h; simp at h
  | cons a l ih =>
    intro i x d h
    cases i with
    | zero => simp [List.set, List.getD]
    | succ i =>
      simp only [List.set, List.getD_cons_succ]
      exact ih i x d (by simpa using h)

theorem getD_set_ne {α : Type} : ∀ (l : List α) (i j : Nat) (x d : α),
    i ≠ j → (l.set i x).getD j d = l.getD j d := by
  intro l
  induction l with
  | nil => intro i j x d _; simp [List.set]
  | cons a l ih =>
    intro i j x d h
    cases i with
    | zero =>
      cases j with
      | zero => exact absurd rfl h
      | succ j => simp [List.set, List.getD_cons_succ]
    | succ i =>
      cases j with
      | zero => simp [List.set, List.getD]
      | succ j =>
        simp only [List.set, List.getD_cons_succ]
        exact ih i j x d (by omega)

theorem getD_replicate {α : Type} : ∀ (n i : Nat) (x d : α),
    (List.replicate n x).getD i d = if i < n then x else d := by
  intro n
  induction n with
  | zero => intro i x d; simp [List.replicate]
  | succ n ih =>
    intro i x d
    cases i with
    | zero => simp [List.replicate]
    | succ i =>
      simp only [List.replicate, List.getD_cons_succ, ih]
      by_cases h : i < n
      · rw [if_pos h, if_pos (by omega)]
      · rw [if_neg h, if_neg (by omega)]

theorem getD_mem {α : Type} : ∀ (l : List α) (i : Nat) (d : α),
    i < l.length → l.getD i d ∈ l := by
  intro l
  induction l with
  | nil => intro i d h; simp at h
  | cons a l ih =>
    intro i d h
    cases i with
    | zero => simp [List.getD]
    | succ i =>
      simp only [List.getD_cons_succ]
      exact List.mem_cons_of_mem _ (ih i d (by simpa using h))

theorem sum_map_set {α : Type} (f : α → Nat) : ∀ (l : List α) (i : Nat) (x d : α),
    i < l.length → ((l.set i x).map f).sum + f (l.getD i d) = (l.map f).sum + f x := by
  intro l
  induction l with
  | nil => intro i x d h; simp at h
  | cons a l ih =>
    intro i x d h
    cases i with
    | zero => simp [List.set, List.getD]; omega
    | succ i =>
      simp only [List.set, List.getD_cons_succ, List.map, List.sum_cons]
      have := ih i x d (by simpa using h)
      omega

theorem getD_le_sum_map {α : Type} (f : α → Nat) : ∀ (l : List α) (i : Nat) (d : α),
    i < l.length → f (l.getD i d) ≤ (l.map f).sum := by
  intro l
  induction l with
  | nil => intro i d h; simp at h
  | cons a l ih =>
    intro i d h
    cases i with
    | zero => simp [List.getD]
    | succ i =>
      simp only [List.getD_cons_succ, List.map, List.sum_cons]
      have := ih i d (by simpa using h)
      omega

/-! ### Trie lemmas -/

section TrieLemmas

variable {V : Type}

theorem tetKey_lt (k nr : Nat) : tetKey k nr < 16 := Nat.mod_lt _ (by norm_num)

theorem eq_empty_of_isEmptyT {t : Trie V} (h : isEmptyT t = true) : t = .empty := by
  cases t <;> simp [isEmptyT] at h ⊢

theorem isEmptyT_eq_false {t : Trie V} (h : t ≠ .empty) : isEmptyT t = false := by
  cases t <;> simp [isEmptyT] <;> exact h rfl

theorem childAt_eq_getD (t : Trie V) (i : Nat) :
    childAt t i = (childrenOf t).getD i .empty := by
  cases t with
  | empty =>
    show Trie.empty = (List.replicate 16 Trie.empty).getD i Trie.empty
    rw [getD_replicate]
    split <;> rfl
  | leaf v =>
    show Trie.empty = (List.replicate 16 Trie.empty).getD i Trie.empty
    rw [getD_replicate]
    split <;> rfl
  | node c => rfl

theorem wfB_empty (n : Nat) : wfB (V := V) n .empty = true := by cases n <;> rfl

theorem prunedB_empty (n : Nat) : prunedB (V := V) n .empty = true := by cases n <;> rfl

theorem countLeaves_empty (n : Nat) : countLeaves (V := V) n .empty = 0 := by cases n <;> rfl

theorem fastFind_empty (k : Nat) : ∀ n : Nat, fastFind (V := V) .empty k n = .empty := by
  intro n
  induction n with
  | zero => rfl
  | succ n ih => simpa [fastFind, childAt] using ih

theorem length_childrenOf {n : Nat} {t : Trie V} (h : wfB (n + 1) t = true) :
    (childrenOf t).length = 16 := by
  cases t with
  | empty => simp [childrenOf]
  | leaf v => simp [wfB] at h
  | node c =>
    simp only [wfB, Bool.and_eq_true, beq_iff_eq] at h
    exact h.1

theorem wfB_mem_childrenOf {n : Nat} {t : Trie V} (h : wfB (n + 1) t = true)
    {s : Trie V} (hs : s ∈ childrenOf t) : wfB n s = true := by
  cases t with
  | empty =>
    rw [List.eq_of_mem_replicate hs]
    exact wfB_empty n
  | leaf v => simp [wfB] at h
  | node c =>
    simp only [wfB, Bool.and_eq_true, beq_iff_eq, List.all_eq_true] at h
    exact h.2 _ hs

theorem wfB_childAt {n : Nat} {t : Trie V} (h : wfB (n + 1) t = true) (i : Nat) :
    wfB n (childAt t i) = true := by
  rw [childAt_eq_getD]
  by_cases hi : i < (childrenOf t).length
  · exact wfB_mem_childrenOf h (getD_mem _ _ _ hi)
  · rw [List.getD_eq_default _ _ (by omega)]
    exact wfB_empty n

theorem prunedB_mem_childrenOf {n : Nat} {t : Trie V} (h : prunedB (n + 1) t = true)
    {s : Trie V} (hs : s ∈ childrenOf t) : prunedB n s = true := by
  cases t with
  | empty =>
    rw [List.eq_of_mem_replicate hs]
    exact prunedB_empty n
  | leaf v =>
    rw [List.eq_of_mem_replicate hs]
    exact prunedB_empty n
  | node c =>
    simp only [prunedB, Bool.and_eq_true, List.all_eq_true] at h
    exact h.2 _ hs

theorem prunedB_childAt {n : Nat} {t : Trie V} (h : prunedB (n + 1) t = true) (i : Nat) :
    prunedB n (childAt t i) = true := by
  rw [childAt_eq_getD]
  by_cases hi : i < (childrenOf t).length
  · exact prunedB_mem_childrenOf h (getD_mem _ _ _ hi)
  · rw [List.getD_eq_default _ _ (by omega)]
    exact prunedB_empty n

theorem countLeaves_children {n : Nat} {t : Trie V} (h : wfB (n + 1) t = true) :
    countLeaves (n + 1) t = ((childrenOf t).map (countLeaves n)).sum := by
  cases t with
  | empty =>
    rw [countLeaves_empty]
    symm
    apply List.sum_eq_zero
    intro x hx
    rcases List.mem_map.mp hx with ⟨s, hs, rfl⟩
    rw [List.eq_of_mem_replicate hs, countLeaves_empty]
  | leaf v => simp [wfB] at h
  | node c => rfl

theorem getD_of_isNodeEmpty {c : List (Trie V)} (h : isNodeEmpty c = true) (j : Nat) :
    c.getD j .empty = .empty := by
  by_cases hj : j < c.length
  · exact eq_empty_of_isEmptyT ((List.all_eq_true.mp h) _ (getD_mem _ _ _ hj))
  · exact List.getD_eq_default _ _ (by omega)

/-- Splitting `k mod 16^(n+1)` into tetrade `n` and the low part. -/
theorem tetKey_split (k n : Nat) :
    k % 16 ^ (n + 1) = 16 ^ n * tetKey k n + k % 16 ^ n := by
  unfold tetKey
  rw [pow_succ, Nat.mod_mul]
  omega

theorem fastFind_fastAdd_self (k : Nat) (v : V) :
    ∀ (n : Nat) (t : Trie V), wfB n t = true →
      fastFind (fastAdd t k v n) k n = .leaf v := by
  intro n
  induction n with
  | zero => intro t _; rfl
  | succ n ih =>
    intro t hwf
    have hstep : fastFind (fastAdd t k v (n + 1)) k (n + 1)
        = fastFind (((childrenOf t).set (tetKey k n)
            (fastAdd (childAt t (tetKey k n)) k v n)).getD (tetKey k n) .empty) k n := rfl
    rw [hstep,
      getD_set_self _ _ _ _ (by rw [length_childrenOf hwf]; exact tetKey_lt k n)]
    exact ih _ (wfB_childAt hwf _)

theorem fastFind_fastAdd_ne (k k' : Nat) (v : V) :
    ∀ (n : Nat) (t : Trie V), wfB n t = true → k % 16 ^ n ≠ k' % 16 ^ n →
      fastFind (fastAdd t k v n) k' n = fastFind t k' n := by
  intro n
  induction n with
  | zero => intro t _ hne; exact absurd (by omega) hne
  | succ n ih =>
    intro t hwf hne
    have hsplit := tetKey_split k n
    have hsplit' := tetKey_split k' n
    have hstep : fastFind (fastAdd t k v (n + 1)) k' (n + 1)
        = fastFind (((childrenOf t).set (tetKey k n)
            (fastAdd (childAt t (tetKey k n)) k v n)).getD (tetKey k' n) .empty) k' n := rfl
    have hstep' : fastFind t k' (n + 1) = fastFind (childAt t (tetKey k' n)) k' n := rfl
    rw [hstep, hstep']
    by_cases hi : tetKey k n = tetKey k' n
    · have hlow : k % 16 ^ n ≠ k' % 16 ^ n := fun hc => hne (by rw [hsplit, hsplit', hi, hc])
      rw [← hi,
        getD_set_self _ _ _ _ (by rw [length_childrenOf hwf]; exact tetKey_lt k n),
        ih _ (wfB_childAt hwf _) hlow, hi]
    · rw [getD_set_ne _ _ _ _ _ hi, ← childAt_eq_getD]

theorem fastFind_eraseT_self (k : Nat) :
    ∀ (n : Nat) (t : Trie V), wfB n t = true →
      fastFind (eraseT t k n) k n = .empty := by
  intro n
  induction n with
  | zero => intro t _; rfl
  | succ n ih =>
    intro t hwf
    simp only [eraseT]
    split
    · exact fastFind_empty k (n + 1)
    · have hstep : fastFind (Trie.node ((childrenOf t).set (tetKey k n)
          (eraseT (childAt t (tetKey k n)) k n))) k (n + 1)
          = fastFind (((childrenOf t).set (tetKey k n)
              (eraseT (childAt t (tetKey k n)) k n)).getD (tetKey k n) .empty) k n := rfl
      rw [hstep,
        getD_set_self _ _ _ _ (by rw [length_childrenOf hwf]; exact tetKey_lt k n)]
      exact ih _ (wfB_childAt hwf _)

theorem fastFind_eraseT_ne (k k' : Nat) :
    ∀ (n : Nat) (t : Trie V), wfB n t = true → k % 16 ^ n ≠ k' % 16 ^ n →
      fastFind (eraseT t k n) k' n = fastFind t k' n := by
  intro n
  induction n with
  | zero => intro t _ hne; exact absurd (by omega) hne
  | succ n ih =>
    intro t hwf hne
    have hsplit := tetKey_split k n
    have hsplit' := tetKey_split k' n
    have hstep' : fastFind t k' (n + 1) = fastFind (childAt t (tetKey k' n)) k' n := rfl
    simp only [eraseT]
    split
    · next hemp =>
      rw [fastFind_empty, hstep']
      by_cases hi : tetKey k n = tetKey k' n
      · have hlow : k % 16 ^ n ≠ k' % 16 ^ n := fun hc => hne (by rw [hsplit, hsplit', hi, hc])
        have h1 : eraseT (childAt t (tetKey k n)) k n = .empty :=
          (getD_set_self (childrenOf t) (tetKey k n) _ .empty
            (by rw [length_childrenOf hwf]; exact tetKey_lt k n)).symm.trans
            (getD_of_isNodeEmpty hemp _)
        have h2 := ih _ (wfB_childAt hwf (tetKey k n)) hlow
        rw [h1, fastFind_empty] at h2
        rw [← hi, ← h2]
      · have h1 : childAt t (tetKey k' n) = .empty := by
          rw [childAt_eq_getD,
            ← getD_set_ne (childrenOf t) (tetKey k n) (tetKey k' n)
              (eraseT (childAt t (tetKey k n)) k n) .empty hi,
            getD_of_isNodeEmpty hemp]
        rw [h1, fastFind_empty]
    · next hemp =>
      have hstep : fastFind (Trie.node ((childrenOf t).set (tetKey k n)
          (eraseT (childAt t (tetKey k n)) k n))) k' (n + 1)
          = fastFind (((childrenOf t).set (tetKey k n)
              (eraseT (childAt t (tetKey k n)) k n)).getD (tetKey k' n) .empty) k' n := rfl
      rw [hstep, hstep']
      by_cases hi : tetKey k n = tetKey k' n
      · have hlow : k % 16 ^ n ≠ k' % 16 ^ n := fun hc => hne (by rw [hsplit, hsplit', hi, hc])
        rw [← hi,
          getD_set_self _ _ _ _ (by rw [length_childrenOf hwf]; exact tetKey_lt k n),
          ih _ (wfB_childAt hwf _) hlow, hi]
      · rw [getD_set_ne _ _ _ _ _ hi, ← childAt_eq_getD]

end TrieLemmas

/-! ### Preservation of the structural invariants -/

section Preservation

variable {V : Type}

theorem isEmptyT_fastAdd (t : Trie V) (k : Nat) (v : V) (n : Nat) :
    isEmptyT (fastAdd t k v n) = false := by cases n <;> rfl

theorem wfB_fastAdd (k : Nat) (v : V) :
    ∀ (n : Nat) (t : Trie V), wfB n t = true → wfB n (fastAdd t k v n) = true := by
  intro n
  induction n with
  | zero => intro t _; rfl
  | succ n ih =>
    intro t hwf
    show wfB (n + 1) (.node _) = true
    simp only [wfB, Bool.and_eq_true, beq_iff_eq, List.all_eq_true]
    refine ⟨by rw [List.length_set, length_childrenOf hwf], ?_⟩
    intro s hs
    rcases List.mem_or_eq_of_mem_set hs with h | h
    · exact wfB_mem_childrenOf hwf h
    · subst h
      exact ih _ (wfB_childAt hwf _)

theorem wfB_eraseT (k : Nat) :
    ∀ (n : Nat) (t : Trie V), wfB n t = true → wfB n (eraseT t k n) = true := by
  intro n
  induction n with
  | zero => intro t _; rfl
  | succ n ih =>
    intro t hwf
    simp only [eraseT]
    split
    · exact wfB_empty _
    · simp only [wfB, Bool.and_eq_true, beq_iff_eq, List.all_eq_true]
      refine ⟨by rw [List.length_set, length_childrenOf hwf], ?_⟩
      intro s hs
      rcases List.mem_or_eq_of_mem_set hs with h | h
      · exact wfB_mem_childrenOf hwf h
      · subst h
        exact ih _ (wfB_childAt hwf _)

theorem prunedB_fastAdd (k : Nat) (v : V) :
    ∀ (n : Nat) (t : Trie V), wfB n t = true → prunedB n t = true →
      prunedB n (fastAdd t k v n) = true := by
  intro n
  induction n with
  | zero => intro t _ _; rfl
  | succ n ih =>
    intro t hwf hpr
    show prunedB (n + 1) (.node _) = true
    simp only [prunedB, Bool.and_eq_true, List.all_eq_true]
    constructor
    · cases hbe : isNodeEmpty ((childrenOf t).set (tetKey k n)
        (fastAdd (childAt t (tetKey k n)) k v n)) with
      | false => rfl
      | true =>
        exfalso
        have hget : ((childrenOf t).set (tetKey k n)
            (fastAdd (childAt t (tetKey k n)) k v n)).getD (tetKey k n) .empty
            = fastAdd (childAt t (tetKey k n)) k v n :=
          getD_set_self _ _ _ _
            (by rw [length_childrenOf hwf]; exact tetKey_lt k n)
        have hemp := (hget.symm.trans (getD_of_isNodeEmpty hbe _))
        have h2 := isEmptyT_fastAdd (childAt t (tetKey k n)) k v n
        rw [hemp] at h2
        exact absurd h2 (by simp [isEmptyT])
    · intro s hs
      rcases List.mem_or_eq_of_mem_set hs with h | h
      · exact prunedB_mem_childrenOf hpr h
      · subst h
        exact ih _ (wfB_childAt hwf _) (prunedB_childAt hpr _)

theorem prunedB_eraseT (k : Nat) :
    ∀ (n : Nat) (t : Trie V), wfB n t = true → prunedB n t = true →
      prunedB n (eraseT t k n) = true := by
  intro n
  induction n with
  | zero => intro t _ _; rfl
  | succ n ih =>
    intro t hwf hpr
    simp only [eraseT]
    split
    · exact prunedB_empty _
    · next hbe =>
      simp only [prunedB, Bool.and_eq_true, List.all_eq_true]
      constructor
      · rw [show isNodeEmpty ((childrenOf t).set (tetKey k n)
            (eraseT (childAt t (tetKey k n)) k n)) = false from by
          revert hbe
          cases isNodeEmpty ((childrenOf t).set (tetKey k n)
            (eraseT (childAt t (tetKey k n)) k n)) <;> simp]
        rfl
      · intro s hs
        rcases List.mem_or_eq_of_mem_set hs with h | h
        · exact prunedB_mem_childrenOf hpr h
        · subst h
          exact ih _ (wfB_childAt hwf _) (prunedB_childAt hpr _)

theorem countLeaves_pos (k : Nat) :
    ∀ (n : Nat) (t : Trie V), wfB n t = true → isEmptyT (fastFind t k n) = false →
      1 ≤ countLeaves n t := by
  intro n
  induction n with
  | zero =>
    intro t hwf hne
    cases t with
    | empty => simp [fastFind, isEmptyT] at hne
    | leaf v => simp [countLeaves]
    | node c => simp [wfB] at hwf
  | succ n ih =>
    intro t hwf hne
    have hchild := ih (childAt t (tetKey k n)) (wfB_childAt hwf _) hne
    have hle : countLeaves n (childAt t (tetKey k n))
        ≤ ((childrenOf t).map (countLeaves n)).sum := by
      rw [childAt_eq_getD]
      exact getD_le_sum_map _ _ _ _
        (by rw [length_childrenOf hwf]; exact tetKey_lt k n)
    rw [countLeaves_children hwf]
    omega

theorem countLeaves_fastAdd (k : Nat) (v : V) :
    ∀ (n : Nat) (t : Trie V), wfB n t = true → isEmptyT (fastFind t k n) = true →
      countLeaves n (fastAdd t k v n) = countLeaves n t + 1 := by
  intro n
  induction n with
  | zero =>
    intro t _ hemp
    have ht : t = .empty := eq_empty_of_isEmptyT hemp
    subst ht
    rfl
  | succ n ih =>
    intro t hwf hemp
    have hlen : tetKey k n < (childrenOf t).length := by
      rw [length_childrenOf hwf]; exact tetKey_lt k n
    have hsum := sum_map_set (countLeaves n) (childrenOf t) (tetKey k n)
      (fastAdd (childAt t (tetKey k n)) k v n) .empty hlen
    rw [← childAt_eq_getD] at hsum
    have hrec := ih _ (wfB_childAt hwf _) hemp
    have hLHS : countLeaves (n + 1) (fastAdd t k v (n + 1))
        = (((childrenOf t).set (tetKey k n)
            (fastAdd (childAt t (tetKey k n)) k v n)).map (countLeaves n)).sum := rfl
    rw [hLHS, countLeaves_children hwf]
    omega

theorem countLeaves_eraseT (k : Nat) :
    ∀ (n : Nat) (t : Trie V), wfB n t = true → isEmptyT (fastFind t k n) = false →
      countLeaves n (eraseT t k n) = countLeaves n t - 1 := by
  intro n
  induction n with
  | zero =>
    intro t hwf hne
    cases t with
    | empty => simp [fastFind, isEmptyT] at hne
    | leaf v => rfl
    | node c => simp [wfB] at hwf
  | succ n ih =>
    intro t hwf hne
    have hlen : tetKey k n < (childrenOf t).length := by
      rw [length_childrenOf hwf]; exact tetKey_lt k n
    have hsum := sum_map_set (countLeaves n) (childrenOf t) (tetKey k n)
      (eraseT (childAt t (tetKey k n)) k n) .empty hlen
    rw [← childAt_eq_getD] at hsum
    have hrec := ih _ (wfB_childAt hwf _) hne
    have hpos := countLeaves_pos k n (childAt t (tetKey k n)) (wfB_childAt hwf _) hne
    simp only [eraseT]
    split
    · next hempAll =>
      rw [countLeaves_empty, countLeaves_children hwf]
      have hzero : (((childrenOf t).set (tetKey k n)
          (eraseT (childAt t (tetKey k n)) k n)).map (countLeaves n)).sum = 0 := by
        apply List.sum_eq_zero
        intro x hx
        rcases List.mem_map.mp hx with ⟨s, hs, rfl⟩
        rw [eq_empty_of_isEmptyT ((List.all_eq_true.mp hempAll) _ hs), countLeaves_empty]
      omega
    · simp only [countLeaves]
      rw [countLeaves_children hwf]
      omega

theorem wfB_fastFind (k : Nat) :
    ∀ (n : Nat) (t : Trie V), wfB n t = true → wfB 0 (fastFind t k n) = true := by
  intro n
  induction n with
  | zero => intro t h; exact h
  | succ n ih => intro t h; exact ih _ (wfB_childAt h _)

theorem slot_cases {t : Trie V} (h : wfB 0 t = true) :
    t = .empty ∨ ∃ v, t = .leaf v := by
  cases t with
  | empty => exact Or.inl rfl
  | leaf v => exact Or.inr ⟨v, rfl⟩
  | node c => simp [wfB] at h

end Preservation

/-! ### Reachable container states -/

/-- Container states produced by the public mutating interface, starting from
a freshly constructed map.  `emplace` forwards to `insert` and the
initializer-list / range inserts are loops of `insert`, so they are covered
by the `ins` constructor; `erase(iterator)` and `erase(first,last)` require
a dereferenceable position, covered by `eraseIter`. -/
inductive ReachableR (V : Type) [Inhabited V] (S : Nat) : AMap V → Prop where
  | base : ReachableR V S (emptyMap V)
  | ins {m : AMap V} {rk : Nat} (v : V) :
      ReachableR V S m → rk < 16 ^ (2 * S) → ReachableR V S (insertR S m rk v).1
  | tryEmp {m : AMap V} {rk : Nat} (v : V) :
      ReachableR V S m → rk < 16 ^ (2 * S) → ReachableR V S (tryEmplaceR S m rk v).1
  | index {m : AMap V} {rk : Nat} :
      ReachableR V S m → rk < 16 ^ (2 * S) → ReachableR V S (indexR S m rk).1
  | eraseKey {m : AMap V} {rk : Nat} :
      ReachableR V S m → rk < 16 ^ (2 * S) → ReachableR V S (eraseKeyR S m rk).1
  | eraseIter {m : AMap V} {rk : Nat} :
      ReachableR V S m → rk < 16 ^ (2 * S) →
      isEmptyT (fastFind m.root rk (2 * S)) = false → ReachableR V S (eraseIterR S m rk)
  | clear {m : AMap V} : ReachableR V S m → ReachableR V S (clearR m)

theorem INV_emptyMap {V : Type} (S : Nat) : INV S (emptyMap V) :=
  ⟨wfB_empty _, prunedB_empty _, (countLeaves_empty _).symm⟩

theorem reachable_INV {V : Type} [Inhabited V] {S : Nat} {m : AMap V}
    (h : ReachableR V S m) : INV S m := by
  induction h with
  | base => exact INV_emptyMap S
  | ins v hm hrk ih =>
    rcases ih with ⟨hwf, hpr, hcnt⟩
    rename_i m rk
    by_cases hg : isEmptyT (fastFind m.root rk (2 * S)) = true
    · simp only [insertR, if_pos hg]
      refine ⟨wfB_fastAdd _ _ _ _ hwf, prunedB_fastAdd _ _ _ _ hwf hpr, ?_⟩
      show m.element_count + 1 = _
      rw [countLeaves_fastAdd _ _ _ _ hwf hg]
      omega
    · simp only [insertR, if_neg hg]
      exact ⟨hwf, hpr, hcnt⟩
  | tryEmp v hm hrk ih =>
    rcases ih with ⟨hwf, hpr, hcnt⟩
    rename_i m rk
    by_cases hg : isEmptyT (fastFind m.root rk (2 * S)) = true
    · simp only [tryEmplaceR, if_pos hg]
      refine ⟨wfB_fastAdd _ _ _ _ hwf, prunedB_fastAdd _ _ _ _ hwf hpr, ?_⟩
      show m.element_count + 1 = _
      rw [countLeaves_fastAdd _ _ _ _ hwf hg]
      omega
    · simp only [tryEmplaceR, if_neg hg]
      exact ⟨hwf, hpr, hcnt⟩
  | index hm hrk ih =>
    rcases ih with ⟨hwf, hpr, hcnt⟩
    rename_i m rk
    by_cases hg : isEmptyT (fastFind m.root rk (2 * S)) = true
    · simp only [indexR, if_pos hg]
      refine ⟨wfB_fastAdd _ _ _ _ hwf, prunedB_fastAdd _ _ _ _ hwf hpr, ?_⟩
      show m.element_count + 1 = _
      rw [countLeaves_fastAdd _ _ _ _ hwf hg]
      omega
    · simp only [indexR, if_neg hg]
      exact ⟨hwf, hpr, hcnt⟩
  | eraseKey hm hrk ih =>
    rcases ih with ⟨hwf, hpr, hcnt⟩
    rename_i m rk
    by_cases hg : isEmptyT (fastFind m.root rk (2 * S)) = true
    · simp only [eraseKeyR, if_pos hg]
      exact ⟨hwf, hpr, hcnt⟩
    · simp only [eraseKeyR, if_neg hg]
      have hgf : isEmptyT (fastFind m.root rk (2 * S)) = false := by
        revert hg; cases isEmptyT (fastFind m.root rk (2 * S)) <;> simp
      refine ⟨wfB_eraseT _ _ _ hwf, prunedB_eraseT _ _ _ hwf hpr, ?_⟩
      show m.element_count - 1 = _
      rw [countLeaves_eraseT _ _ _ hwf hgf]
      omega
  | eraseIter hm hrk hne ih =>
    rcases ih with ⟨hwf, hpr, hcnt⟩
    rename_i m rk
    refine ⟨wfB_eraseT _ _ _ hwf, prunedB_eraseT _ _ _ hwf hpr, ?_⟩
    show m.element_count - 1 = countLeaves (2 * S) (eraseT m.root rk (2 * S))
    rw [countLeaves_eraseT _ _ _ hwf hne]
    omega
  | clear hm ih => exact INV_emptyMap S

theorem eq_leaf_of_slotVal_some {V : Type} {t : Trie V} {v : V}
    (h : slotVal t = some v) : t = .leaf v := by
  cases t with
  | empty => simp [slotVal] at h
  | leaf w => simp only [slotVal, Option.some_inj] at h; rw [h]
  | node c => simp [slotVal] at h

theorem eq_empty_of_slotVal_none {V : Type} {t : Trie V}
    (hwf : wfB 0 t = true) (h : slotVal t = none) : t = .empty := by
  rcases slot_cases hwf with hh | ⟨v, hh⟩
  · exact hh
  · subst hh; simp [slotVal] at h

theorem mod_ne_of_ne {n rk rk' : Nat} (hrk : rk < 16 ^ n) (hrk' : rk' < 16 ^ n)
    (hne : rk ≠ rk') : rk % 16 ^ n ≠ rk' % 16 ^ n := by
  rw [Nat.mod_eq_of_lt hrk, Nat.mod_eq_of_lt hrk']
  exact hne

/-! ### Claims about the container facade -/

/-- **C5 (confirmed).**  After every completed public mutating operation
(`insert`, `emplace`, `try_emplace`, `operator[]`, erase by key, erase by
iterator, `clear`) starting from a reachable container state,
`element_count` equals the number of leaf slots reachable from the root, and
every internal node reachable from the root has at least one non-sentinel
child. -/
theorem claim5_structure_invariants {V : Type} [Inhabited V] (S : Nat) (m : AMap V)
    (h : ReachableR V S m) :
    m.element_count = countLeaves (2 * S) m.root ∧ prunedB (2 * S) m.root = true :=
  ⟨(reachable_INV h).2.2, (reachable_INV h).2.1⟩

theorem claim5_witness :
    ((eraseKeyR 1 (insertR 1 (insertR 1 (emptyMap Nat) 0x80 5).1 0x7B 7).1 0x80).1.element_count
        = countLeaves 2 (eraseKeyR 1 (insertR 1 (insertR 1 (emptyMap Nat) 0x80 5).1 0x7B 7).1
            0x80).1.root ∧
      prunedB 2 (eraseKeyR 1 (insertR 1 (insertR 1 (emptyMap Nat) 0x80 5).1 0x7B 7).1
          0x80).1.root = true) :=
  claim5_structure_invariants 1 _
    (ReachableR.eraseKey
      (ReachableR.ins 7 (ReachableR.ins 5 ReachableR.base (by norm_num)) (by norm_num))
      (by norm_num))

/-- **C7 (confirmed).**  `insert`, `emplace` (which forwards to `insert`) and
`try_emplace` on a key already present do not insert: the reported flag is
`false` and the returned container state is literally the input state (value,
count и all other elements untouched).  On an absent key they insert and
report `true`, adding exactly that element. -/
theorem claim7_insert_only_if_absent {V : Type} [Inhabited V] (S : Nat) (m : AMap V)
    (hr : ReachableR V S m) (rk : Nat) (hrk : rk < 16 ^ (2 * S)) (v' : V) :
    (∀ v, findValR S m rk = some v →
        insertR S m rk v' = (m, false) ∧ tryEmplaceR S m rk v' = (m, false)) ∧
    (findValR S m rk = none →
        (insertR S m rk v').2 = true ∧ (tryEmplaceR S m rk v').2 = true ∧
        findValR S (insertR S m rk v').1 rk = some v' ∧
        (insertR S m rk v').1.element_count = m.element_count + 1 ∧
        (∀ rk' < 16 ^ (2 * S), rk' ≠ rk →
          findValR S (insertR S m rk v').1 rk' = findValR S m rk')) := by
  have hwf : wfB (2 * S) m.root = true := (reachable_INV hr).1
  constructor
  · intro v hv
    have hleaf : fastFind m.root rk (2 * S) = .leaf v := eq_leaf_of_slotVal_some hv
    have hg : isEmptyT (fastFind m.root rk (2 * S)) = false := by
      rw [hleaf]; rfl
    constructor
    · simp only [insertR, hg]
      rfl
    · simp only [tryEmplaceR, hg]
      rfl
  · intro hv
    have hempty : fastFind m.root rk (2 * S) = .empty :=
      eq_empty_of_slotVal_none (wfB_fastFind _ _ _ hwf) hv
    have hg : isEmptyT (fastFind m.root rk (2 * S)) = true := by
      rw [hempty]; rfl
    refine ⟨by simp only [insertR, hg]; rfl, by simp only [tryEmplaceR, hg]; rfl, ?_, ?_, ?_⟩
    · simp only [insertR, hg, if_pos]
      show slotVal (fastFind (fastAdd m.root rk v' (2 * S)) rk (2 * S)) = some v'
      rw [fastFind_fastAdd_self _ _ _ _ hwf]
      rfl
    · simp only [insertR, hg, if_pos]
    · intro rk' hrk' hne
      simp only [insertR, hg, if_pos]
      show slotVal (fastFind (fastAdd m.root rk v' (2 * S)) rk' (2 * S)) = _
      rw [fastFind_fastAdd_ne _ _ _ _ _ hwf (mod_ne_of_ne hrk hrk' (fun hc => hne hc.symm))]
      rfl

theorem claim7_witness :
    let m := (insertR 1 (emptyMap Nat) 0x80 5).1
    (∀ v, findValR 1 m 0x80 = some v →
        insertR 1 m 0x80 9 = (m, false) ∧ tryEmplaceR 1 m 0x80 9 = (m, false)) ∧
    (findValR 1 m 0x80 = none →
        (insertR 1 m 0x80 9).2 = true ∧ (tryEmplaceR 1 m 0x80 9).2 = true ∧
        findValR 1 (insertR 1 m 0x80 9).1 0x80 = some 9 ∧
        (insertR 1 m 0x80 9).1.element_count = m.element_count + 1 ∧
        (∀ rk' < 16 ^ (2 * 1), rk' ≠ 0x80 →
          findValR 1 (insertR 1 m 0x80 9).1 rk' = findValR 1 m rk')) :=
  claim7_insert_only_if_absent 1 _
    (ReachableR.ins 5 ReachableR.base (by norm_num)) 0x80 (by norm_num) 9

/-- **C8 (confirmed).**  `erase(key)` returns 1 and removes the element when
the key is present (count drops by one, no other element is affected), and
returns 0 when the key is absent, in which case the whole container state is
returned unchanged. -/
theorem claim8_erase_by_key {V : Type} [Inhabited V] (S : Nat) (m : AMap V)
    (hr : ReachableR V S m) (rk : Nat) (hrk : rk < 16 ^ (2 * S)) :
    ((findValR S m rk).isSome →
        (eraseKeyR S m rk).2 = 1 ∧
        findValR S (eraseKeyR S m rk).1 rk = none ∧
        (eraseKeyR S m rk).1.element_count + 1 = m.element_count ∧
        (∀ rk' < 16 ^ (2 * S), rk' ≠ rk →
          findValR S (eraseKeyR S m rk).1 rk' = findValR S m rk')) ∧
    (findValR S m rk = none → eraseKeyR S m rk = (m, 0)) := by
  have hwf : wfB (2 * S) m.root = true := (reachable_INV hr).1
  have hcnt : m.element_count = countLeaves (2 * S) m.root := (reachable_INV hr).2.2
  constructor
  · intro hv
    rcases Option.isSome_iff_exists.mp hv with ⟨v, hv'⟩
    have hleaf : fastFind m.root rk (2 * S) = .leaf v := eq_leaf_of_slotVal_some hv'
    have hg : isEmptyT (fastFind m.root rk (2 * S)) = false := by rw [hleaf]; rfl
    have hpos := countLeaves_pos rk (2 * S) m.root hwf hg
    refine ⟨by simp only [eraseKeyR, hg]; rfl, ?_, ?_, ?_⟩
    · simp only [eraseKeyR, hg, Bool.false_eq_true, if_neg]
      show slotVal (fastFind (eraseT m.root rk (2 * S)) rk (2 * S)) = none
      rw [fastFind_eraseT_self _ _ _ hwf]
      rfl
    · simp only [eraseKeyR, hg, Bool.false_eq_true, if_neg]
      show m.element_count - 1 + 1 = m.element_count
      omega
    · intro rk' hrk' hne
      simp only [eraseKeyR, hg, Bool.false_eq_true, if_neg]
      show slotVal (fastFind (eraseT m.root rk (2 * S)) rk' (2 * S)) = _
      rw [fastFind_eraseT_ne _ _ _ _ hwf (mod_ne_of_ne hrk hrk' (fun hc => hne hc.symm))]
      rfl
  · intro hv
    have hempty : fastFind m.root rk (2 * S) = .empty :=
      eq_empty_of_slotVal_none (wfB_fastFind _ _ _ hwf) hv
    have hg : isEmptyT (fastFind m.root rk (2 * S)) = true := by rw [hempty]; rfl
    simp only [eraseKeyR, hg, if_pos]

theorem claim8_witness :
    let m := (insertR 1 (emptyMap Nat) 0x80 5).1
    ((findValR 1 m 0x80).isSome →
        (eraseKeyR 1 m 0x80).2 = 1 ∧
        findValR 1 (eraseKeyR 1 m 0x80).1 0x80 = none ∧
        (eraseKeyR 1 m 0x80).1.element_count + 1 = m.element_count ∧
        (∀ rk' < 16 ^ (2 * 1), rk' ≠ 0x80 →
          findValR 1 (eraseKeyR 1 m 0x80).1 rk' = findValR 1 m rk')) ∧
    (findValR 1 m 0x80 = none → eraseKeyR 1 m 0x80 = (m, 0)) :=
  claim8_erase_by_key 1 _
    (ReachableR.ins 5 ReachableR.base (by norm_num)) 0x80 (by norm_num)

/-- **C9 (confirmed).**  `at(key)` returns the stored value when the key is
present; when absent it signals the distinguished out-of-range condition
(`throw std::out_of_range`, modelled as `none`) — in both cases the
container comes back unchanged (no element created or modified). -/
theorem claim9_at {V : Type} [Inhabited V] (S : Nat) (m : AMap V)
    (hr : ReachableR V S m) (rk : Nat) :
    (∀ v, findValR S m rk = some v → atR S m rk = (some v, m)) ∧
    (findValR S m rk = none → atR S m rk = (none, m)) := by
  have hwf : wfB (2 * S) m.root = true := (reachable_INV hr).1
  constructor
  · intro v hv
    have hleaf : fastFind m.root rk (2 * S) = .leaf v := eq_leaf_of_slotVal_some hv
    have hg : isEmptyT (fastFind m.root rk (2 * S)) = false := by rw [hleaf]; rfl
    simp [atR, hg, hv]
  · intro hv
    have hempty : fastFind m.root rk (2 * S) = .empty :=
      eq_empty_of_slotVal_none (wfB_fastFind _ _ _ hwf) hv
    have hg : isEmptyT (fastFind m.root rk (2 * S)) = true := by rw [hempty]; rfl
    simp only [atR, hg, if_pos]

theorem claim9_witness :
    let m := (insertR 1 (emptyMap Nat) 0x80 5).1
    (∀ v, findValR 1 m 0x80 = some v → atR 1 m 0x80 = (some v, m)) ∧
    (findValR 1 m 0x80 = none → atR 1 m 0x80 = (none, m)) :=
  claim9_at 1 _ (ReachableR.ins 5 ReachableR.base (by norm_num)) 0x80

/-- **C4 (code bug).**  The claim (and §8 of the spec) requires that for a
floating-point key type, inserting `-0.0` and `+0.0` (in either order) into
an empty container stores ONE element, since IEEE `==` makes them equal.
The code disagrees: `ordering_default::apply` maps the two zero patterns to
the distinct radix keys `0x7FFFFFFF` and `0x80000000`, so the second insert
misses the first element and the container ends with TWO elements.  This
theorem evaluates the model at the failing input (both insertion orders). -/
theorem claim4_code_divergence :
    applyFloatW 32 0x80000000 = 0x7FFFFFFF ∧ applyFloatW 32 0x00000000 = 0x80000000 ∧
    (insertR 4 (insertR 4 (emptyMap Nat) (applyFloatW 32 0x80000000) 1).1
        (applyFloatW 32 0x00000000) 2).1.element_count = 2 ∧
    (insertR 4 (insertR 4 (emptyMap Nat) (applyFloatW 32 0x00000000) 2).1
        (applyFloatW 32 0x80000000) 1).1.element_count = 2 := by
  refine ⟨by decide, by decide, ?_, ?_⟩ <;> decide

/-! ## Iterator family (src/arraymap.h:255-760)

Iterator state: a per-level stack of slot pointers (`stack[d]` holds the
slot reached after consuming tetrades `MAX_DEPTH-1 .. d+1`), a depth cursor,
and the key bytes extended by one overflow byte
(`unsigned char key_bytes[sizeof(key_type) + 1]`, little-endian).  Slot
pointers are modelled by the slot contents (`Trie V`); dereferencing the
sentinel's slots yields the sentinel again. -/

/-- The `n` bytes of `x`, least significant first (`memcpy` of the key). -/
def toBytesLE : Nat → Nat → List Nat
  | 0, _ => []
  | n + 1, x => x % 256 :: toBytesLE n (x / 256)

/-- Value of a little-endian byte string. -/
def bval : List Nat → Nat
  | [] => 0
  | b :: bs => b + 256 * bval bs

/-- `tetradeValue(bytes, Nr)` (src/arraymap.h:1027-1031):
`(bytes[Nr >> 1] >> bitShift[Nr & 1]) & 0xF`. -/
def tetradeValue (bytes : List Nat) (nr : Nat) : Nat :=
  bytes.getD (nr / 2) 0 / 16 ^ (nr % 2) % 16

/-- `incrQuartet` (src/arraymap.h:295-304): add 1 to quartet `q` of the
byte buffer (a byte-level `+=` that may carry within the byte), recursing on
a carry into the following byte; returns how many levels the carry climbed.
`gas` bounds the recursion; since `quartetNr` grows by at least one per
call and the recursion stops beyond `MAX_DEPTH`, the initial `D + 3`
exceeds every possible chain and the `gas = 0` branch is unreachable. -/
def incrQuartetGo (D : Nat) : Nat → List Nat → Nat → List Nat × Nat
  | 0, bytes, _ => (bytes, 0)
  | gas + 1, bytes, q =>
    if q > D then (bytes, 0)
    else
      let b := (bytes.getD (q / 2) 0 + 2 ^ (q % 2 * 4)) % 256
      let bytes' := bytes.set (q / 2) b
      if b / 2 ^ (q % 2 * 4) = 0 then
        let r := incrQuartetGo D gas bytes' (q + 1 + (1 - q % 2))
        (r.1, 1 - q % 2 + 1 + r.2)
      else
        (bytes', if b / 2 ^ (q % 2 * 4) % 16 = 0 then 1 else 0)

def incrQuartet (D : Nat) (bytes : List Nat) (q : Nat) : List Nat × Nat :=
  incrQuartetGo D (D + 3) bytes q

/-- `decrQuartet` (src/arraymap.h:305-314): the base-16 borrow mirror. -/
def decrQuartetGo (D : Nat) : Nat → List Nat → Nat → List Nat × Nat
  | 0, bytes, _ => (bytes, 0)
  | gas + 1, bytes, q =>
    if q > D then (bytes, 0)
    else
      let b := (bytes.getD (q / 2) 0 + 256 - 2 ^ (q % 2 * 4)) % 256
      let bytes' := bytes.set (q / 2) b
      if b / 2 ^ (q % 2 * 4) = 255 / 2 ^ (q % 2 * 4) then
        let r := decrQuartetGo D gas bytes' (q + 1 + (1 - q % 2))
        (r.1, 1 - q % 2 + 1 + r.2)
      else
        (bytes', if b / 2 ^ (q % 2 * 4) % 16 = 15 then 1 else 0)

def decrQuartet (D : Nat) (bytes : List Nat) (q : Nat) : List Nat × Nat :=
  decrQuartetGo D (D + 3) bytes q

/-- Descend `n` tetrades from slot `t`, starting at tetrade index `hi`. -/
def descendB {V : Type} (t : Trie V) (bytes : List Nat) : Nat → Nat → Trie V
  | _, 0 => t
  | hi, n + 1 => descendB (childAt t (tetradeValue bytes hi)) bytes (hi - 1) n

/-- The iterator's `stack[j]`: the slot reached from the root after
consuming tetrades `D-1 .. j+1` (`fill_ptr_stack`, src/arraymap.h:286-294);
`stack[D-1]` is the root slot itself. -/
def stackSlot {V : Type} (t : Trie V) (bytes : List Nat) (D j : Nat) : Trie V :=
  descendB t bytes (D - 1) (D - 1 - j)

def mkStack {V : Type} (t : Trie V) (bytes : List Nat) (D : Nat) : List (Trie V) :=
  (List.range D).map (stackSlot t bytes D)

/-- Iterator state (`iterator_base`, src/arraymap.h:255-419). -/
structure IterSt (V : Type) where
  stack : List (Trie V)
  depth : Nat
  bytes : List Nat

/-- `target_valid()` (src/arraymap.h:282-285). -/
def targetValid {V : Type} (st : IterSt V) : Bool :=
  st.depth == 0 && ! isEmptyT (childAt (st.stack.getD 0 .empty) (tetradeValue st.bytes 0))

/-- One iteration of the `while (depth < MAX_DEPTH)` body of `increment`
(src/arraymap.h:315-332): descend into a surviving deeper branch, otherwise
advance the digit cursor with `incrQuartet`. -/
def incStep {V : Type} (D : Nat) (st : IterSt V) : IterSt V :=
  if st.depth ≠ 0 ∧
      isEmptyT (childAt (st.stack.getD st.depth .empty) (tetradeValue st.bytes st.depth))
        = false then
    { st with
      stack := st.stack.set (st.depth - 1)
        (childAt (st.stack.getD st.depth .empty) (tetradeValue st.bytes st.depth)),
      depth := st.depth - 1 }
  else
    { st with
      bytes := (incrQuartet D st.bytes st.depth).1,
      depth := st.depth + (incrQuartet D st.bytes st.depth).2 }

/-- The `while` loop of `increment`: run steps until the found-test
(depth 0 with a live leaf) succeeds or the depth cursor leaves the trie.
`gas` bounds the iteration count; each step either strictly descends or
strictly increases the key-plus-overflow counter, so
`(D + 2) * 16 ^ (D + 2)` iterations can never be reached. -/
def incLoopGo {V : Type} (D : Nat) : Nat → IterSt V → IterSt V
  | 0, st => st
  | gas + 1, st =>
    if st.depth < D then
      if targetValid (incStep D st) then incStep D st
      else incLoopGo D gas (incStep D st)
    else st

def incLoop {V : Type} (D : Nat) (st : IterSt V) : IterSt V :=
  incLoopGo D ((D + 2) * 16 ^ (D + 2)) st

/-- Mirror step for `decrement` (src/arraymap.h:346-376). -/
def decStep {V : Type} (D : Nat) (st : IterSt V) : IterSt V :=
  if st.depth ≠ 0 ∧
      isEmptyT (childAt (st.stack.getD st.depth .empty) (tetradeValue st.bytes st.depth))
        = false then
    { st with
      stack := st.stack.set (st.depth - 1)
        (childAt (st.stack.getD st.depth .empty) (tetradeValue st.bytes st.depth)),
      depth := st.depth - 1 }
  else
    { st with
      bytes := (decrQuartet D st.bytes st.depth).1,
      depth := st.depth + (decrQuartet D st.bytes st.depth).2 }

def decLoopGo {V : Type} (D : Nat) : Nat → IterSt V → IterSt V
  | 0, st => st
  | gas + 1, st =>
    if st.depth < D then
      if targetValid (decStep D st) then decStep D st
      else decLoopGo D gas (decStep D st)
    else st

def decLoop {V : Type} (D : Nat) (st : IterSt V) : IterSt V :=
  decLoopGo D ((D + 2) * 16 ^ (D + 2)) st

/-- The overflow byte `key_bytes[sizeof(key_type)]`. -/
def ovfByte {V : Type} (S : Nat) (st : IterSt V) : Nat := st.bytes.getD S 0

/-- Key bytes of the past-the-end position (`memset 0`, overflow byte 1). -/
def endBytes (S : Nat) : List Nat := List.replicate S 0 ++ [1]

/-- Key bytes of the before-begin position (overflow byte `0xFF`). -/
def rendBytes (S : Nat) : List Nat := List.replicate S 0 ++ [0xFF]

/-- `iterator_base::increment` (src/arraymap.h:315-345).  The source's tail
recursion after resetting a before-begin iterator (`key_bytes[S] == 0xFF`)
is unfolded once: after the reset the overflow byte is 0 and the loop can
only raise it to 1, so the second terminal branch is exact. -/
def increment {V : Type} (S : Nat) (st : IterSt V) : IterSt V :=
  let D := 2 * S
  let st1 := incLoop D st
  if st1.depth < D then st1
  else if ovfByte S st1 = 0xFF then
    let st2 : IterSt V := { st1 with bytes := List.replicate S 0 ++ [0], depth := D - 1 }
    let st3 := incLoop D st2
    if st3.depth < D then st3
    else { st3 with bytes := endBytes S }
  else { st1 with bytes := endBytes S }

/-- `iterator_base::decrement` (src/arraymap.h:346-376), the exact mirror:
a past-the-end iterator (`key_bytes[S] == 0x01`) restarts from the maximal
key, and exhaustion parks the cursor at the before-begin position. -/
def decrement {V : Type} (S : Nat) (st : IterSt V) : IterSt V :=
  let D := 2 * S
  let st1 := decLoop D st
  if st1.depth < D then st1
  else if ovfByte S st1 = 0x01 then
    let st2 : IterSt V := { st1 with bytes := List.replicate S 0xFF ++ [0], depth := D - 1 }
    let st3 := decLoop D st2
    if st3.depth < D then st3
    else { st3 with bytes := rendBytes S }
  else { st1 with bytes := rendBytes S }

/-- The keyed constructor's depth scan
`for (depth = MAX_DEPTH-1; depth > 0 && *stack[depth] != *empty_node; depth--)`
(src/arraymap.h:274): stops at the topmost level whose slot is the sentinel,
or at 0.  The argument is the starting level `MAX_DEPTH - 1`. -/
def initDepthGo {V : Type} (stack : List (Trie V)) : Nat → Nat
  | 0 => 0
  | d + 1 =>
    if isEmptyT (stack.getD (d + 1) .empty) then d + 1 else initDepthGo stack d

/-- `iterator(ptr_t* root, key_type key, bool findNext)`
(src/arraymap.h:566-581) on the already-transformed radix key: build the
descent stack, locate the deepest live level, and either return the exact
position, seek the successor (`findNext`), or park at the past-the-end
position. -/
def iterFromKey {V : Type} (S : Nat) (t : Trie V) (rk : Nat) (findNext : Bool) :
    IterSt V :=
  let D := 2 * S
  let bytes := toBytesLE S rk ++ [0]
  let stack := mkStack t bytes D
  let st : IterSt V := ⟨stack, initDepthGo stack (D - 1), bytes⟩
  if targetValid st then st
  else if findNext then increment S st
  else ⟨stack, D, endBytes S⟩

/-- `reverse_iterator(ptr_t* root, key_type key, bool findNext)`
(src/arraymap.h:616-631): the reverse `operator++` is `decrement`, and the
not-found parking position is before-begin. -/
def iterFromKeyRev {V : Type} (S : Nat) (t : Trie V) (rk : Nat) (findNext : Bool) :
    IterSt V :=
  let D := 2 * S
  let bytes := toBytesLE S rk ++ [0]
  let stack := mkStack t bytes D
  let st : IterSt V := ⟨stack, initDepthGo stack (D - 1), bytes⟩
  if targetValid st then st
  else if findNext then decrement S st
  else ⟨stack, D, rendBytes S⟩

/-- `begin()` (src/arraymap.h:792-797): seek from the all-zero key. -/
def beginIter {V : Type} (S : Nat) (t : Trie V) : IterSt V := iterFromKey S t 0 true

/-- `rbegin()` (src/arraymap.h:812-817): seek downward from the all-ones
key. -/
def rbeginIter {V : Type} (S : Nat) (t : Trie V) : IterSt V :=
  iterFromKeyRev S t (16 ^ (2 * S) - 1) true

/-- `find` (src/arraymap.h:832-835). -/
def findIter {V : Type} (S : Nat) (t : Trie V) (rk : Nat) : IterSt V :=
  iterFromKey S t rk false

/-- `lower_bound` (src/arraymap.h:836-839). -/
def lowerBoundIter {V : Type} (S : Nat) (t : Trie V) (rk : Nat) : IterSt V :=
  iterFromKey S t rk true

/-- `upper_bound` (src/arraymap.h:840-847); iterator equality is a memcmp
of the key-plus-overflow bytes. -/
def upperBoundIter {V : Type} (S : Nat) (t : Trie V) (rk : Nat) : IterSt V :=
  if (iterFromKey S t rk false).bytes = endBytes S then iterFromKey S t rk true
  else increment S (iterFromKey S t rk false)

/-- Radix key denoted by an iterator's key bytes (the dereferenced
`currentValue.first` is `Ordering::restore` of this value). -/
def keyOfBytes (S : Nat) (bytes : List Nat) : Nat := bval (bytes.take S)

/-- Forward traversal: collect radix keys until the iterator byte-compares
equal to `end()` (`for (it = begin(); it != end(); ++it)`). -/
def traceFwd {V : Type} (S : Nat) : Nat → IterSt V → List Nat
  | 0, _ => []
  | fuel + 1, st =>
    if st.bytes = endBytes S then []
    else keyOfBytes S st.bytes :: traceFwd S fuel (increment S st)

/-- Reverse traversal: collect radix keys until the iterator byte-compares
equal to `rend()`. -/
def traceRev {V : Type} (S : Nat) : Nat → IterSt V → List Nat
  | 0, _ => []
  | fuel + 1, st =>
    if st.bytes = rendBytes S then []
    else keyOfBytes S st.bytes :: traceRev S fuel (decrement S st)

/-! ### Byte-buffer lemmas -/

/-- All entries are bytes. -/
def bytesWF (bytes : List Nat) : Prop := ∀ b ∈ bytes, b < 256

theorem length_toBytesLE : ∀ (n x : Nat), (toBytesLE n x).length = n := by
  intro n
  induction n with
  | zero => intro x; rfl
  | succ n ih => intro x; simp [toBytesLE, ih]

theorem bytesWF_toBytesLE : ∀ (n x : Nat), bytesWF (toBytesLE n x) := by
  intro n
  induction n with
  | zero => intro x b hb; simp [toBytesLE] at hb
  | succ n ih =>
    intro x b hb
    simp only [toBytesLE, List.mem_cons] at hb
    rcases hb with rfl | hb
    · exact Nat.mod_lt _ (by norm_num)
    · exact ih _ _ hb

theorem bval_toBytesLE : ∀ (n x : Nat), x < 256 ^ n → bval (toBytesLE n x) = x := by
  intro n
  induction n with
  | zero => intro x hx; simp at hx; simp [toBytesLE, bval, hx]
  | succ n ih =>
    intro x hx
    have hd : x / 256 < 256 ^ n := by
      rw [Nat.div_lt_iff_lt_mul (by norm_num : 0 < 256)]
      calc x < 256 ^ (n + 1) := hx
        _ = 256 ^ n * 256 := by ring
    simp only [toBytesLE, bval, ih _ hd]
    omega

theorem bval_lt : ∀ (bytes : List Nat), bytesWF bytes → bval bytes < 256 ^ bytes.length := by
  intro bytes
  induction bytes with
  | nil => intro _; simp [bval]
  | cons b bs ih =>
    intro h
    have hb : b < 256 := h b (by simp)
    have hbs := ih (fun x hx => h x (by simp [hx]))
    simp only [bval, List.length_cons, pow_succ]
    calc b + 256 * bval bs < 256 + 256 * bval bs := by omega
      _ = 256 * (bval bs + 1) := by ring
      _ ≤ 256 * 256 ^ bs.length := by
          apply Nat.mul_le_mul_left
          omega
      _ = 256 ^ bs.length * 256 := by ring

theorem toBytesLE_bval : ∀ (bytes : List Nat), bytesWF bytes →
    toBytesLE bytes.length (bval bytes) = bytes := by
  intro bytes
  induction bytes with
  | nil => intro _; rfl
  | cons b bs ih =>
    intro h
    have hb : b < 256 := h b (by simp)
    have hbs : bytesWF bs := fun x hx => h x (by simp [hx])
    simp only [List.length_cons, toBytesLE, bval]
    rw [show (b + 256 * bval bs) % 256 = b from by omega,
      show (b + 256 * bval bs) / 256 = bval bs from by omega, ih hbs]

theorem getD_bval : ∀ (bytes : List Nat), bytesWF bytes → ∀ (i : Nat),
    bytes.getD i 0 = bval bytes / 256 ^ i % 256 := by
  intro bytes
  induction bytes with
  | nil =>
    intro _ i
    simp [bval, List.getD, Nat.zero_div]
  | cons b bs ih =>
    intro h i
    have hb : b < 256 := h b (by simp)
    have hbs : bytesWF bs := fun x hx => h x (by simp [hx])
    cases i with
    | zero => simp [bval, List.getD]; omega
    | succ i =>
      simp only [List.getD_cons_succ, bval, ih hbs i]
      congr 1
      have h1 : (b + 256 * bval bs) / 256 = bval bs := by omega
      rw [pow_succ, show 256 ^ i * 256 = 256 * 256 ^ i from by ring,
        ← Nat.div_div_eq_div_mul, h1]

theorem tetradeValue_eq_tetKey (bytes : List Nat) (h : bytesWF bytes) (nr : Nat) :
    tetradeValue bytes nr = tetKey (bval bytes) nr := by
  unfold tetradeValue tetKey
  rw [getD_bval bytes h]
  rcases Nat.mod_two_eq_zero_or_one nr with hb | hb
  · have hnr : 2 * (nr / 2) = nr := by omega
    rw [hb, pow_zero, Nat.div_one,
      show (256 : Nat) ^ (nr / 2) = 16 ^ nr from by
        rw [show (256 : Nat) = 16 ^ 2 from by norm_num, ← pow_mul, hnr]]
    exact Nat.mod_mod_of_dvd _ (by norm_num)
  · have hnr : 2 * (nr / 2) + 1 = nr := by omega
    rw [hb, pow_one]
    have hy : bval bytes / 256 ^ (nr / 2) % 256 / 16
        = bval bytes / 256 ^ (nr / 2) / 16 % 16 := by
      rw [show (256 : Nat) = 16 * 16 from by norm_num, Nat.mod_mul_right_div_self]
    rw [hy, Nat.mod_mod_of_dvd _ (dvd_refl 16), Nat.div_div_eq_div_mul]
    congr 2
    calc (256 : Nat) ^ (nr / 2) * 16 = (16 ^ 2) ^ (nr / 2) * 16 := by norm_num
      _ = 16 ^ (2 * (nr / 2)) * 16 := by rw [← pow_mul]
      _ = 16 ^ (2 * (nr / 2) + 1) := (pow_succ 16 _).symm
      _ = 16 ^ nr := by rw [hnr]

theorem toBytesLE_append_zero : ∀ (S x : Nat), x < 256 ^ S →
    toBytesLE S x ++ [0] = toBytesLE (S + 1) x := by
  intro S
  induction S with
  | zero =>
    intro x hx
    simp at hx
    subst hx
    rfl
  | succ S ih =>
    intro x hx
    have hd : x / 256 < 256 ^ S := by
      rw [Nat.div_lt_iff_lt_mul (by norm_num : 0 < 256)]
      calc x < 256 ^ (S + 1) := hx
        _ = 256 ^ S * 256 := by ring
    simp only [toBytesLE, List.cons_append, ih _ hd]

theorem toBytesLE_one_top : ∀ S : Nat, toBytesLE (S + 1) (256 ^ S) = List.replicate S 0 ++ [1] := by
  intro S
  induction S with
  | zero => rfl
  | succ S ih =>
    have h1 : (256 : Nat) ^ (S + 1) % 256 = 0 := by
      rw [pow_succ, Nat.mul_mod_left]
    have h2 : (256 : Nat) ^ (S + 1) / 256 = 256 ^ S := by
      rw [pow_succ, Nat.mul_div_cancel _ (by norm_num : (0:Nat) < 256)]
    rw [show toBytesLE (S + 1 + 1) (256 ^ (S + 1))
        = 256 ^ (S + 1) % 256 :: toBytesLE (S + 1) (256 ^ (S + 1) / 256) from rfl,
      h1, h2, ih]
    rfl

theorem pow16_two_mul (S : Nat) : (16 : Nat) ^ (2 * S) = 256 ^ S := by
  rw [show (256 : Nat) = 16 ^ 2 from by norm_num, ← pow_mul, Nat.mul_comm]

theorem endBytes_eq (S : Nat) : toBytesLE (S + 1) (16 ^ (2 * S)) = endBytes S := by
  rw [pow16_two_mul]
  exact toBytesLE_one_top S

/-- Number of trailing zero nibbles. -/
def nuN (x : Nat) : Nat :=
  if h : x % 16 = 0 ∧ x ≠ 0 then 1 + nuN (x / 16) else 0
termination_by x
decreasing_by exact Nat.div_lt_self (Nat.pos_of_ne_zero h.2) (by norm_num)

theorem nuN_pos_eq {x : Nat} (h1 : x % 16 = 0) (h2 : x ≠ 0) :
    nuN x = 1 + nuN (x / 16) := by
  rw [nuN.eq_def, dif_pos ⟨h1, h2⟩]

theorem nuN_neg_eq {x : Nat} (h : ¬ (x % 16 = 0 ∧ x ≠ 0)) : nuN x = 0 := by
  rw [nuN.eq_def, dif_neg h]

theorem nuN_eq_of (q : Nat) : ∀ (x : Nat), x % 16 ^ q = 0 → x / 16 ^ q % 16 ≠ 0 →
    nuN x = q := by
  induction q with
  | zero =>
    intro x _ h2
    rw [pow_zero, Nat.div_one] at h2
    exact nuN_neg_eq (by tauto)
  | succ q ih =>
    intro x h1 h2
    have hx0 : x ≠ 0 := by
      intro hc; subst hc; simp at h2
    have hdvd : 16 ^ (q + 1) ∣ x := Nat.dvd_of_mod_eq_zero h1
    have h16 : (16 : Nat) ∣ x := dvd_trans (dvd_pow_self 16 (by omega)) hdvd
    have hm : x % 16 = 0 := Nat.dvd_iff_mod_eq_zero.mp h16
    have hd1 : (x / 16) % 16 ^ q = 0 := by
      apply Nat.dvd_iff_mod_eq_zero.mp
      rcases hdvd with ⟨c, hc⟩
      refine ⟨c, ?_⟩
      rw [hc, pow_succ, show 16 ^ q * 16 * c = 16 * (16 ^ q * c) from by ring,
        Nat.mul_div_cancel_left _ (by norm_num : (0:Nat) < 16)]
    have hd2 : x / 16 / 16 ^ q % 16 ≠ 0 := by
      rw [Nat.div_div_eq_div_mul, show (16 : Nat) * 16 ^ q = 16 ^ (q + 1) from by
        rw [pow_succ]; ring]
      exact h2
    rw [nuN_pos_eq hm hx0, ih _ hd1 hd2]
    omega

theorem nuN_div_mod : ∀ (x : Nat), x ≠ 0 →
    x % 16 ^ nuN x = 0 ∧ x / 16 ^ nuN x % 16 ≠ 0 := by
  intro x
  induction x using Nat.strong_induction_on with
  | _ x ih =>
    intro hx
    by_cases h : x % 16 = 0
    · have hlt : x / 16 < x := Nat.div_lt_self (Nat.pos_of_ne_zero hx) (by norm_num)
      have hx16 : x = 16 * (x / 16) := by omega
      have hne : x / 16 ≠ 0 := by
        intro hc
        rw [hc] at hx16
        exact hx (by omega)
      rcases ih _ hlt hne with ⟨ih1, ih2⟩
      rw [nuN_pos_eq h hx]
      have hpow : (16 : Nat) ^ (1 + nuN (x / 16)) = 16 * 16 ^ nuN (x / 16) := by
        rw [pow_add, pow_one]
      constructor
      · rcases Nat.dvd_of_mod_eq_zero ih1 with ⟨c, hc⟩
        apply Nat.dvd_iff_mod_eq_zero.mp
        refine ⟨c, ?_⟩
        rw [hpow]
        calc x = 16 * (x / 16) := hx16
          _ = 16 * (16 ^ nuN (x / 16) * c) := by rw [← hc]
          _ = 16 * 16 ^ nuN (x / 16) * c := by ring
      · rw [hpow,
          show x / (16 * 16 ^ nuN (x / 16)) = x / 16 / 16 ^ nuN (x / 16) from by
            rw [Nat.div_div_eq_div_mul]]
        exact ih2
    · rw [nuN_neg_eq (by tauto)]
      constructor
      · simp [Nat.mod_one]
      · simpa using h

theorem nuN_ge (q : Nat) : ∀ (x : Nat), x % 16 ^ q = 0 → x ≠ 0 → q ≤ nuN x := by
  induction q with
  | zero => intro x _ _; omega
  | succ q ih =>
    intro x h1 hx
    have hdvd : 16 ^ (q + 1) ∣ x := Nat.dvd_of_mod_eq_zero h1
    have h16 : (16 : Nat) ∣ x := dvd_trans (dvd_pow_self 16 (by omega)) hdvd
    have hm : x % 16 = 0 := Nat.dvd_iff_mod_eq_zero.mp h16
    have hx16 : x = 16 * (x / 16) := by omega
    have hd1 : (x / 16) % 16 ^ q = 0 := by
      apply Nat.dvd_iff_mod_eq_zero.mp
      rcases hdvd with ⟨c, hc⟩
      refine ⟨c, ?_⟩
      rw [hc, pow_succ, show 16 ^ q * 16 * c = 16 * (16 ^ q * c) from by ring,
        Nat.mul_div_cancel_left _ (by norm_num : (0:Nat) < 16)]
    have hne : x / 16 ≠ 0 := by
      intro hc
      rw [hc] at hx16
      exact hx (by omega)
    have := ih _ hd1 hne
    rw [nuN_pos_eq hm hx]
    omega

theorem pow_nuN_le (x : Nat) (hx : x ≠ 0) : 16 ^ nuN x ≤ x :=
  Nat.le_of_dvd (Nat.pos_of_ne_zero hx) (Nat.dvd_of_mod_eq_zero (nuN_div_mod x hx).1)

/-- Number of trailing `0xF` nibbles. -/
def nuF (x : Nat) : Nat :=
  if h : x % 16 = 15 then 1 + nuF (x / 16) else 0
termination_by x
decreasing_by exact Nat.div_lt_self (by omega) (by norm_num)

theorem nuF_pos_eq {x : Nat} (h : x % 16 = 15) : nuF x = 1 + nuF (x / 16) := by
  rw [nuF.eq_def, dif_pos h]

theorem nuF_neg_eq {x : Nat} (h : ¬ x % 16 = 15) : nuF x = 0 := by
  rw [nuF.eq_def, dif_neg h]

/-- An all-`F` remainder at width `q + 1` splits into an `F` low nibble and
an all-`F` remainder of the shifted value at width `q`. -/
theorem modF_split (q x : Nat) (h : x % 16 ^ (q + 1) = 16 ^ (q + 1) - 1) :
    x % 16 = 15 ∧ x / 16 % 16 ^ q = 16 ^ q - 1 := by
  have hmm : x % (16 * 16 ^ q) = x % 16 + 16 * (x / 16 % 16 ^ q) := Nat.mod_mul
  have hpow : (16 : Nat) ^ (q + 1) = 16 * 16 ^ q := by rw [pow_succ]; ring
  have h1 : x % 16 < 16 := Nat.mod_lt _ (by norm_num)
  have h2 : x / 16 % 16 ^ q < 16 ^ q := Nat.mod_lt _ (by positivity)
  have h3 : (1 : Nat) ≤ 16 ^ q := Nat.one_le_pow _ _ (by norm_num)
  rw [hpow, hmm] at h
  constructor
  · omega
  · omega

theorem nuF_eq_of (q : Nat) : ∀ (x : Nat), x % 16 ^ q = 16 ^ q - 1 →
    x / 16 ^ q % 16 ≠ 15 → nuF x = q := by
  induction q with
  | zero =>
    intro x _ h2
    rw [pow_zero, Nat.div_one] at h2
    exact nuF_neg_eq h2
  | succ q ih =>
    intro x h1 h2
    obtain ⟨hm, hd1⟩ := modF_split q x h1
    have hd2 : x / 16 / 16 ^ q % 16 ≠ 15 := by
      rw [Nat.div_div_eq_div_mul,
        show (16 : Nat) * 16 ^ q = 16 ^ (q + 1) from by rw [pow_succ]; ring]
      exact h2
    rw [nuF_pos_eq hm, ih _ hd1 hd2]
    omega

theorem nuF_div_mod : ∀ (x : Nat),
    x % 16 ^ nuF x = 16 ^ nuF x - 1 ∧ x / 16 ^ nuF x % 16 ≠ 15 := by
  intro x
  induction x using Nat.strong_induction_on with
  | _ x ih =>
    by_cases h : x % 16 = 15
    · have hlt : x / 16 < x := Nat.div_lt_self (by omega) (by norm_num)
      rcases ih _ hlt with ⟨ih1, ih2⟩
      rw [nuF_pos_eq h]
      have hpow : (16 : Nat) ^ (1 + nuF (x / 16)) = 16 * 16 ^ nuF (x / 16) := by
        rw [pow_add, pow_one]
      constructor
      · rw [hpow, Nat.mod_mul, h, ih1]
        have h3 : (1 : Nat) ≤ 16 ^ nuF (x / 16) := Nat.one_le_pow _ _ (by norm_num)
        omega
      · rw [hpow, show x / (16 * 16 ^ nuF (x / 16)) = x / 16 / 16 ^ nuF (x / 16) from by
            rw [Nat.div_div_eq_div_mul]]
        exact ih2
    · rw [nuF_neg_eq h]
      constructor
      · simp [Nat.mod_one]
      · simpa using h

/-- An all-`F` remainder at width `q + 1` forces an all-`F` remainder at
width `q` and an `F` nibble at position `q`. -/
theorem modF_split_top (q x : Nat) (h : x % 16 ^ (q + 1) = 16 ^ (q + 1) - 1) :
    x % 16 ^ q = 16 ^ q - 1 ∧ x / 16 ^ q % 16 = 15 := by
  have hmm : x % (16 ^ q * 16) = x % 16 ^ q + 16 ^ q * (x / 16 ^ q % 16) :=
    Nat.mod_mul
  have hpow : (16 : Nat) ^ (q + 1) = 16 ^ q * 16 := pow_succ 16 q
  have h1 : x % 16 ^ q < 16 ^ q := Nat.mod_lt _ (by positivity)
  have h2 : x / 16 ^ q % 16 < 16 := Nat.mod_lt _ (by norm_num)
  have h3 : (1 : Nat) ≤ 16 ^ q := Nat.one_le_pow _ _ (by norm_num)
  have h4 : 16 ^ q * (x / 16 ^ q % 16) ≤ 16 ^ q * 15 :=
    Nat.mul_le_mul_left _ (by omega)
  have h5 : 16 ^ q * (x / 16 ^ q % 16) + 16 ^ q ≥ 16 ^ q * (x / 16 ^ q % 16 + 1) := by
    rw [Nat.mul_add, Nat.mul_one]
  rw [hpow, hmm] at h
  constructor
  · by_contra hc
    have hlt : x % 16 ^ q ≤ 16 ^ q - 2 := by omega
    have : 16 ^ q * (x / 16 ^ q % 16) ≤ 16 ^ q * 15 := h4
    omega
  · by_contra hc
    have hle : x / 16 ^ q % 16 ≤ 14 := by omega
    have : 16 ^ q * (x / 16 ^ q % 16) ≤ 16 ^ q * 14 :=
      Nat.mul_le_mul_left _ hle
    have h15 : (16 : Nat) ^ q * 14 + 16 ^ q = 16 ^ q * 15 := by ring
    omega

theorem nuF_ge (q : Nat) : ∀ (x : Nat), x % 16 ^ q = 16 ^ q - 1 → q ≤ nuF x := by
  induction q with
  | zero => intro x _; omega
  | succ q ih =>
    intro x h1
    obtain ⟨hm, hd1⟩ := modF_split q x h1
    have := ih _ hd1
    rw [nuF_pos_eq hm]
    omega

theorem bytesWF_set {bytes : List Nat} (h : bytesWF bytes) {x : Nat} (hx : x < 256)
    (i : Nat) : bytesWF (bytes.set i x) := by
  intro b hb
  rcases List.mem_or_eq_of_mem_set hb with hbm | rfl
  · exact h _ hbm
  · exact hx

theorem bval_set : ∀ (bytes : List Nat) (i x : Nat), i < bytes.length →
    bval (bytes.set i x) + bytes.getD i 0 * 256 ^ i = bval bytes + x * 256 ^ i := by
  intro bytes
  induction bytes with
  | nil => intro i x h; simp at h
  | cons a bs ih =>
    intro i x h
    cases i with
    | zero =>
      simp only [List.set, bval, List.getD_cons_zero, pow_zero]
      omega
    | succ i =>
      have ih' := ih i x (by simpa using h)
      simp only [List.set, List.getD_cons_succ, bval]
      calc a + 256 * bval (bs.set i x) + bs.getD i 0 * 256 ^ (i + 1)
          = a + 256 * (bval (bs.set i x) + bs.getD i 0 * 256 ^ i) := by ring
        _ = a + 256 * (bval bs + x * 256 ^ i) := by rw [ih']
        _ = a + 256 * bval bs + x * 256 ^ (i + 1) := by ring

theorem pow256_div2 {q : Nat} (hq : q % 2 = 0) : (256 : Nat) ^ (q / 2) = 16 ^ q := by
  rw [show (256 : Nat) = 16 ^ 2 from by norm_num, ← pow_mul]
  congr 1
  omega

theorem pow256_div2_odd {q : Nat} (hq : q % 2 = 1) :
    (256 : Nat) ^ (q / 2) = 16 ^ (q - 1) := by
  rw [show (256 : Nat) = 16 ^ 2 from by norm_num, ← pow_mul]
  congr 1
  omega

theorem pow16_add_two (q : Nat) : (16 : Nat) ^ (q + 2) = 16 ^ q * 256 := by
  rw [pow_add]
  norm_num

theorem pow16_add_one (q : Nat) : (16 : Nat) ^ (q + 1) = 16 ^ q * 16 := pow_succ 16 q

/-- Behaviour of `incrQuartet` from an in-range, nibble-aligned state: it
adds `16 ^ q` to the buffer value and reports how far the carry climbed
(the distance from `q` to the lowest nonzero nibble of the new value). -/
theorem incrQuartetGo_spec (S : Nat) :
    ∀ (gas q : Nat) (bytes : List Nat),
      bytesWF bytes → bytes.length = S + 1 → q ≤ 2 * S →
      bval bytes % 16 ^ q = 0 → bval bytes + 16 ^ q ≤ 16 ^ (2 * S) →
      2 * S + 2 - q ≤ gas →
      incrQuartetGo (2 * S) gas bytes q
        = (toBytesLE (S + 1) (bval bytes + 16 ^ q),
           nuN (bval bytes + 16 ^ q) - q) := by
  intro gas
  induction gas with
  | zero => intro q bytes _ _ hq _ _ hgas; omega
  | succ gas ih =>
    intro q bytes hwfb hlen hq halign hroom hgas
    have hqD : ¬ q > 2 * S := by omega
    have hidx : q / 2 < bytes.length := by rw [hlen]; omega
    have hb0lt : bytes.getD (q / 2) 0 < 256 := hwfb _ (getD_mem _ _ _ hidx)
    have hb0 := getD_bval bytes hwfb (q / 2)
    have hWpos : bval bytes + 16 ^ q ≠ 0 := by
      have := two_pow_pos 0
      have : (0:Nat) < 16 ^ q := by positivity
      omega
    simp only [incrQuartetGo]
    rw [if_neg hqD]
    rcases Nat.mod_two_eq_zero_or_one q with hq2 | hq2
    · -- even quartet: the low nibble of byte q/2
      have hexp : (2 : Nat) ^ (q % 2 * 4) = 1 := by rw [hq2]; norm_num
      have hQ2 : q + 1 + (1 - q % 2) = q + 2 := by omega
      have hP : (256 : Nat) ^ (q / 2) = 16 ^ q := pow256_div2 hq2
      have hb0' : bytes.getD (q / 2) 0 = bval bytes / 16 ^ q % 256 := by rw [hb0, hP]
      have hpq2 : (16 : Nat) ^ (q + 2) = 16 ^ q * 256 := pow16_add_two q
      rw [hexp, hQ2]
      by_cases hwrap : bytes.getD (q / 2) 0 = 255
      · -- the whole byte wraps: carry into byte q/2 + 1
        have hbeq : (bytes.getD (q / 2) 0 + 1) % 256 = 0 := by omega
        rw [hbeq]
        rw [if_pos (by norm_num)]
        -- value of the intermediate buffer
        have hset := bval_set bytes (q / 2) 0 hidx
        rw [hP, hwrap] at hset
        -- W viewed at granularity 16^(q+2)
        have hmodW : bval bytes % (16 ^ q * 256)
            = bval bytes % 16 ^ q + 16 ^ q * (bval bytes / 16 ^ q % 256) := Nat.mod_mul
        rw [halign, ← hb0', hwrap] at hmodW
        have hC := Nat.div_add_mod (bval bytes) (16 ^ q * 256)
        have hbv1 : bval (bytes.set (q / 2) 0)
            = 16 ^ q * 256 * (bval bytes / (16 ^ q * 256)) := by omega
        have hq2S : q + 2 ≤ 2 * S := by
          rcases Nat.lt_or_ge q (2 * S) with hlt | hge
          · omega
          · exfalso
            have hqq : q = 2 * S := by omega
            rw [hqq] at halign hroom
            have hW0 : bval bytes = 0 := by
              have := Nat.mod_eq_of_lt (show bval bytes < 16 ^ (2 * S) from by omega)
              omega
            rw [hb0', hW0] at hwrap
            simp at hwrap
        have halign1 : bval (bytes.set (q / 2) 0) % 16 ^ (q + 2) = 0 := by
          rw [hpq2, hbv1]
          exact Nat.mul_mod_right _ _
        have hroom1 : bval (bytes.set (q / 2) 0) + 16 ^ (q + 2) ≤ 16 ^ (2 * S) := by
          rw [hpq2]
          omega
        rw [ih (q + 2) _ (bytesWF_set hwfb (by norm_num) _)
          (by rw [List.length_set, hlen]) hq2S halign1 hroom1 (by omega)]
        have hval : bval (bytes.set (q / 2) 0) + 16 ^ (q + 2) = bval bytes + 16 ^ q := by
          rw [hpq2]
          omega
        rw [hval]
        have hnu : q + 2 ≤ nuN (bval bytes + 16 ^ q) := by
          apply nuN_ge _ _ _ hWpos
          have hsum : bval bytes + 16 ^ q
              = 16 ^ q * 256 * (bval bytes / (16 ^ q * 256) + 1) := by
            have hring : 16 ^ q * 256 * (bval bytes / (16 ^ q * 256) + 1)
                = 16 ^ q * 256 * (bval bytes / (16 ^ q * 256)) + 16 ^ q * 256 := by ring
            omega
          rw [hpq2, hsum]
          exact Nat.mul_mod_right _ _
        rw [Prod.ext_iff]
        exact ⟨rfl, by omega⟩
      · -- no byte wrap: b = b0 + 1
        have hbeq : (bytes.getD (q / 2) 0 + 1) % 256 = bytes.getD (q / 2) 0 + 1 := by omega
        rw [hbeq]
        rw [if_neg (by omega)]
        have hset := bval_set bytes (q / 2) (bytes.getD (q / 2) 0 + 1) hidx
        rw [hP] at hset
        have hexpand : (bytes.getD (q / 2) 0 + 1) * 16 ^ q
            = bytes.getD (q / 2) 0 * 16 ^ q + 16 ^ q := by ring
        have hbv1 : bval (bytes.set (q / 2) (bytes.getD (q / 2) 0 + 1))
            = bval bytes + 16 ^ q := by omega
        have hwf1 := bytesWF_set hwfb (show bytes.getD (q / 2) 0 + 1 < 256 from by omega)
          (q / 2)
        have hfst : bytes.set (q / 2) (bytes.getD (q / 2) 0 + 1)
            = toBytesLE (S + 1) (bval bytes + 16 ^ q) := by
          have h := toBytesLE_bval _ hwf1
          rw [List.length_set, hlen, hbv1] at h
          exact h.symm
        rw [Prod.ext_iff]
        refine ⟨hfst, ?_⟩
        by_cases hnib : (bytes.getD (q / 2) 0 + 1) / 1 % 16 = 0
        · rw [if_pos hnib]
          have hpq1 : (16 : Nat) ^ (q + 1) = 16 ^ q * 16 := pow16_add_one q
          have hmodW : bval bytes % (16 ^ q * 16)
              = bval bytes % 16 ^ q + 16 ^ q * (bval bytes / 16 ^ q % 16) := Nat.mod_mul
          have hnib16 : bval bytes / 16 ^ q % 16 = 15 := by omega
          rw [halign, hnib16] at hmodW
          have hC := Nat.div_add_mod (bval bytes) (16 ^ q * 16)
          have hsum : bval bytes + 16 ^ q
              = 16 ^ q * 16 * (bval bytes / (16 ^ q * 16) + 1) := by
            have hring : 16 ^ q * 16 * (bval bytes / (16 ^ q * 16) + 1)
                = 16 ^ q * 16 * (bval bytes / (16 ^ q * 16)) + 16 ^ q * 16 := by ring
            omega
          have hmod1 : (bval bytes + 16 ^ q) % 16 ^ (q + 1) = 0 := by
            rw [hpq1, hsum]
            exact Nat.mul_mod_right _ _
          have hdiv1 : (bval bytes + 16 ^ q) / 16 ^ (q + 1) % 16 ≠ 0 := by
            rw [hpq1, hsum, Nat.mul_div_cancel_left _ (by positivity)]
            have hCC : bval bytes / (16 ^ q * 16) = bval bytes / 16 ^ q / 16 :=
              (Nat.div_div_eq_div_mul _ _ _).symm
            rw [hCC]
            omega
          rw [nuN_eq_of (q + 1) _ hmod1 hdiv1]
          omega
        · rw [if_neg hnib]
          have hmod0 : (bval bytes + 16 ^ q) % 16 ^ q = 0 := by
            rw [Nat.add_mod_right, halign]
          have hdiv0 : (bval bytes + 16 ^ q) / 16 ^ q % 16 ≠ 0 := by
            rw [Nat.add_div_right _ (by positivity)]
            omega
          rw [nuN_eq_of q _ hmod0 hdiv0]
          omega
    · -- odd quartet: the high nibble of byte q/2
      have hexp : (2 : Nat) ^ (q % 2 * 4) = 16 := by rw [hq2]; norm_num
      have hQ1 : q + 1 + (1 - q % 2) = q + 1 := by omega
      have hPm : (256 : Nat) ^ (q / 2) = 16 ^ (q - 1) := pow256_div2_odd hq2
      have hq1 : q - 1 + 1 = q := by omega
      have hsplitq : (16 : Nat) ^ q = 16 ^ (q - 1) * 16 := by
        rw [← pow16_add_one, hq1]
      have hb0' : bytes.getD (q / 2) 0 = bval bytes / 16 ^ (q - 1) % 256 := by
        rw [hb0, hPm]
      have halign' : bval bytes % 16 ^ (q - 1) = 0 :=
        Nat.dvd_iff_mod_eq_zero.mp
          (dvd_trans (pow_dvd_pow 16 (by omega)) (Nat.dvd_of_mod_eq_zero halign))
      have hlow : bval bytes / 16 ^ (q - 1) % 16 = 0 := by
        have hmm : bval bytes % (16 ^ (q - 1) * 16)
            = bval bytes % 16 ^ (q - 1) + 16 ^ (q - 1) * (bval bytes / 16 ^ (q - 1) % 16) :=
          Nat.mod_mul
        rw [← hsplitq, halign, halign', Nat.zero_add] at hmm
        rcases Nat.mul_eq_zero.mp hmm.symm with hc | hc
        · exact absurd hc (by positivity)
        · exact hc
      rw [hexp, hQ1]
      by_cases hwrap : bytes.getD (q / 2) 0 + 16 ≥ 256
      · -- byte wraps: carry into the next byte
        have h240 : bytes.getD (q / 2) 0 = 240 := by omega
        have hbeq : (bytes.getD (q / 2) 0 + 16) % 256 = 0 := by omega
        rw [hbeq]
        rw [if_pos (by norm_num)]
        have hset := bval_set bytes (q / 2) 0 hidx
        rw [hPm, h240] at hset
        have hmodW : bval bytes % (16 ^ (q - 1) * 256)
            = bval bytes % 16 ^ (q - 1)
              + 16 ^ (q - 1) * (bval bytes / 16 ^ (q - 1) % 256) := Nat.mod_mul
        rw [halign', ← hb0', h240] at hmodW
        have hC := Nat.div_add_mod (bval bytes) (16 ^ (q - 1) * 256)
        have hbv1 : bval (bytes.set (q / 2) 0)
            = 16 ^ (q - 1) * 256 * (bval bytes / (16 ^ (q - 1) * 256)) := by omega
        have hpq1' : (16 : Nat) ^ (q + 1) = 16 ^ (q - 1) * 256 := by
          rw [show q + 1 = q - 1 + 2 from by omega, pow_add]
          norm_num
        have hq1S : q + 1 ≤ 2 * S := by omega
        have halign1 : bval (bytes.set (q / 2) 0) % 16 ^ (q + 1) = 0 := by
          rw [hpq1', hbv1]
          exact Nat.mul_mod_right _ _
        have hroom1 : bval (bytes.set (q / 2) 0) + 16 ^ (q + 1) ≤ 16 ^ (2 * S) := by
          rw [hpq1']
          omega
        rw [ih (q + 1) _ (bytesWF_set hwfb (by norm_num) _)
          (by rw [List.length_set, hlen]) hq1S halign1 hroom1 (by omega)]
        have hval : bval (bytes.set (q / 2) 0) + 16 ^ (q + 1) = bval bytes + 16 ^ q := by
          rw [hpq1']
          omega
        rw [hval]
        have hnu : q + 1 ≤ nuN (bval bytes + 16 ^ q) := by
          apply nuN_ge _ _ _ hWpos
          have hsum : bval bytes + 16 ^ q
              = 16 ^ (q - 1) * 256 * (bval bytes / (16 ^ (q - 1) * 256) + 1) := by
            have hring : 16 ^ (q - 1) * 256 * (bval bytes / (16 ^ (q - 1) * 256) + 1)
                = 16 ^ (q - 1) * 256 * (bval bytes / (16 ^ (q - 1) * 256))
                  + 16 ^ (q - 1) * 256 := by ring
            omega
          rw [hpq1', hsum]
          exact Nat.mul_mod_right _ _
        rw [Prod.ext_iff]
        exact ⟨rfl, by omega⟩
      · -- no byte wrap: b = b0 + 16
        have hbeq : (bytes.getD (q / 2) 0 + 16) % 256 = bytes.getD (q / 2) 0 + 16 := by
          omega
        rw [hbeq]
        rw [if_neg (by omega)]
        have hset := bval_set bytes (q / 2) (bytes.getD (q / 2) 0 + 16) hidx
        rw [hPm] at hset
        have hexpand : (bytes.getD (q / 2) 0 + 16) * 16 ^ (q - 1)
            = bytes.getD (q / 2) 0 * 16 ^ (q - 1) + 16 * 16 ^ (q - 1) := by ring
        have h16q : (16 : Nat) ^ q = 16 * 16 ^ (q - 1) := by rw [hsplitq]; ring
        have hbv1 : bval (bytes.set (q / 2) (bytes.getD (q / 2) 0 + 16))
            = bval bytes + 16 ^ q := by omega
        have hwf1 := bytesWF_set hwfb
          (show bytes.getD (q / 2) 0 + 16 < 256 from by omega) (q / 2)
        have hfst : bytes.set (q / 2) (bytes.getD (q / 2) 0 + 16)
            = toBytesLE (S + 1) (bval bytes + 16 ^ q) := by
          have h := toBytesLE_bval _ hwf1
          rw [List.length_set, hlen, hbv1] at h
          exact h.symm
        rw [Prod.ext_iff]
        refine ⟨hfst, ?_⟩
        have hmod0 : (bval bytes + 16 ^ q) % 16 ^ q = 0 := by
          rw [Nat.add_mod_right, halign]
        have hyy : bval bytes / 16 ^ q = bval bytes / 16 ^ (q - 1) / 16 := by
          rw [Nat.div_div_eq_div_mul, ← hsplitq]
        have hdiv0 : (bval bytes + 16 ^ q) / 16 ^ q % 16 ≠ 0 := by
          rw [Nat.add_div_right _ (by positivity), hyy]
          omega
        rw [if_neg (by rw [hyy] at *; omega), nuN_eq_of q _ hmod0 hdiv0]
        omega

theorem incrQuartet_spec {S q : Nat} {bytes : List Nat}
    (hwfb : bytesWF bytes) (hlen : bytes.length = S + 1) (hq : q ≤ 2 * S)
    (halign : bval bytes % 16 ^ q = 0)
    (hroom : bval bytes + 16 ^ q ≤ 16 ^ (2 * S)) :
    incrQuartet (2 * S) bytes q
      = (toBytesLE (S + 1) (bval bytes + 16 ^ q),
         nuN (bval bytes + 16 ^ q) - q) :=
  incrQuartetGo_spec S (2 * S + 3) q bytes hwfb hlen hq halign hroom (by omega)

/-- Behaviour of `decrQuartet` from an in-range, all-`F`-aligned state: it
subtracts `16 ^ q` from the buffer value and reports how far the borrow
climbed; if the value underflows, the whole buffer (overflow byte included)
wraps to `0xFF` bytes and the borrow spans every remaining level. -/
theorem decrQuartetGo_spec (S : Nat) :
    ∀ (gas q : Nat) (bytes : List Nat),
      bytesWF bytes → bytes.length = S + 1 → q ≤ 2 * S →
      bval bytes % 16 ^ q = 16 ^ q - 1 → bval bytes < 16 ^ (2 * S) →
      2 * S + 2 - q ≤ gas →
      (16 ^ q ≤ bval bytes →
        decrQuartetGo (2 * S) gas bytes q
          = (toBytesLE (S + 1) (bval bytes - 16 ^ q),
             nuF (bval bytes - 16 ^ q) - q)) ∧
      (bval bytes < 16 ^ q →
        decrQuartetGo (2 * S) gas bytes q
          = (toBytesLE (S + 1) (16 ^ (2 * S + 2) - 1), 2 * S + 2 - q)) := by
  intro gas
  induction gas with
  | zero => intro q bytes _ _ hq _ _ hgas; omega
  | succ gas ih =>
    intro q bytes hwfb hlen hq halign hlt hgas
    have hqD : ¬ q > 2 * S := by omega
    have hidx : q / 2 < bytes.length := by rw [hlen]; omega
    have hb0lt : bytes.getD (q / 2) 0 < 256 := hwfb _ (getD_mem _ _ _ hidx)
    have hb0 := getD_bval bytes hwfb (q / 2)
    have hpos16 : (1 : Nat) ≤ 16 ^ q := Nat.one_le_pow _ _ (by norm_num)
    simp only [decrQuartetGo]
    rw [if_neg hqD]
    rcases Nat.mod_two_eq_zero_or_one q with hq2 | hq2
    · -- even quartet: the low nibble of byte q/2
      have hexp : (2 : Nat) ^ (q % 2 * 4) = 1 := by rw [hq2]; norm_num
      have hQ2 : q + 1 + (1 - q % 2) = q + 2 := by omega
      have hP : (256 : Nat) ^ (q / 2) = 16 ^ q := pow256_div2 hq2
      have hb0' : bytes.getD (q / 2) 0 = bval bytes / 16 ^ q % 256 := by rw [hb0, hP]
      have hpq2 : (16 : Nat) ^ (q + 2) = 16 ^ q * 256 := pow16_add_two q
      rw [hexp, hQ2]
      by_cases hwrap : bytes.getD (q / 2) 0 = 0
      · -- the whole byte wraps to 0xFF: borrow from byte q/2 + 1
        have hbeq : (bytes.getD (q / 2) 0 + 256 - 1) % 256 = 255 := by omega
        rw [hbeq, if_pos (by norm_num)]
        have hset := bval_set bytes (q / 2) 255 hidx
        rw [hP, hwrap] at hset
        have hmodW : bval bytes % (16 ^ q * 256)
            = bval bytes % 16 ^ q + 16 ^ q * (bval bytes / 16 ^ q % 256) := Nat.mod_mul
        rw [halign, ← hb0', hwrap] at hmodW
        have hC := Nat.div_add_mod (bval bytes) (16 ^ q * 256)
        obtain ⟨C0, hC0⟩ : ∃ c, bval bytes / (16 ^ q * 256) = c := ⟨_, rfl⟩
        rw [hC0, hmodW] at hC
        by_cases hq2S : q + 2 ≤ 2 * S
        · have hbv1 : bval (bytes.set (q / 2) 255)
              = 16 ^ q * 256 * C0 + (16 ^ q * 256 - 1) := by omega
          have halign1 : bval (bytes.set (q / 2) 255) % 16 ^ (q + 2)
              = 16 ^ (q + 2) - 1 := by
            rw [hpq2, hbv1, Nat.mul_add_mod, Nat.mod_eq_of_lt (by
              have : (0 : Nat) < 16 ^ q * 256 := by positivity
              omega)]
          have hlt1 : bval (bytes.set (q / 2) 255) < 16 ^ (2 * S) := by
            obtain ⟨M, hM⟩ : (16 : Nat) ^ (q + 2) ∣ 16 ^ (2 * S) :=
              pow_dvd_pow 16 (by omega)
            rw [hpq2] at hM
            have hCM : C0 < M := by
              apply Nat.lt_of_mul_lt_mul_left (a := 16 ^ q * 256)
              calc 16 ^ q * 256 * C0 ≤ bval bytes := by omega
                _ < 16 ^ (2 * S) := hlt
                _ = 16 ^ q * 256 * M := hM
            have h2 : 16 ^ q * 256 * (C0 + 1) ≤ 16 ^ q * 256 * M :=
              Nat.mul_le_mul_left _ (by omega)
            have h3 : 16 ^ q * 256 * (C0 + 1) = 16 ^ q * 256 * C0 + 16 ^ q * 256 := by
              ring
            omega
          have hrec := ih (q + 2) _ (bytesWF_set hwfb (by norm_num) _)
            (by rw [List.length_set, hlen]) hq2S halign1 hlt1 (by omega)
          constructor
          · intro hge
            have hge2 : 16 ^ (q + 2) ≤ bval (bytes.set (q / 2) 255) := by
              rw [hpq2]
              omega
            rw [hrec.1 hge2]
            have hval : bval (bytes.set (q / 2) 255) - 16 ^ (q + 2)
                = bval bytes - 16 ^ q := by
              rw [hpq2]
              omega
            rw [hval]
            have hnuge : q + 2 ≤ nuF (bval bytes - 16 ^ q) := by
              apply nuF_ge
              have hC1 : 1 ≤ C0 := by
                by_contra hc
                have hc0 : C0 = 0 := by omega
                rw [hc0] at hC
                omega
              obtain ⟨C', hC'⟩ : ∃ C', C0 = C' + 1 := ⟨C0 - 1, by omega⟩
              have hring : 16 ^ q * 256 * (C' + 1)
                  = 16 ^ q * 256 * C' + 16 ^ q * 256 := by ring
              have hWeq : bval bytes - 16 ^ q
                  = 16 ^ q * 256 * C' + (16 ^ q * 256 - 1) := by
                rw [hC', hring] at hC
                omega
              rw [hpq2, hWeq, Nat.mul_add_mod, Nat.mod_eq_of_lt (by
                have : (0 : Nat) < 16 ^ q * 256 := by positivity
                omega)]
            rw [Prod.ext_iff]
            exact ⟨rfl, by omega⟩
          · intro hlt0
            have hlt2 : bval (bytes.set (q / 2) 255) < 16 ^ (q + 2) := by
              rw [hpq2]
              omega
            rw [hrec.2 hlt2]
            rw [Prod.ext_iff]
            exact ⟨rfl, by omega⟩
        · -- q = 2 * S: the borrow wraps the overflow byte and stops
          have hqq : q = 2 * S := by omega
          have hWeq : bval bytes = 16 ^ (2 * S) - 1 := by
            have hmlt := Nat.mod_eq_of_lt hlt
            rw [hqq] at halign
            rw [hmlt] at halign
            exact halign
          obtain ⟨g2, hg2⟩ : ∃ g2, gas = g2 + 1 := ⟨gas - 1, by omega⟩
          rw [hg2]
          simp only [decrQuartetGo]
          rw [if_pos (by omega)]
          have h2S1 : (1 : Nat) ≤ 16 ^ (2 * S) := Nat.one_le_pow _ _ (by norm_num)
          constructor
          · intro hge
            rw [hqq] at hge
            omega
          · intro _
            have hp22 : (16 : Nat) ^ (2 * S + 2) = 16 ^ (2 * S) * 256 :=
              pow16_add_two (2 * S)
            have hbv255 : bval (bytes.set (q / 2) 255) = 16 ^ (2 * S + 2) - 1 := by
              have hq16 : (16 : Nat) ^ q = 16 ^ (2 * S) := by rw [hqq]
              omega
            have hfst : bytes.set (q / 2) 255
                = toBytesLE (S + 1) (16 ^ (2 * S + 2) - 1) := by
              have h := toBytesLE_bval _
                (bytesWF_set hwfb (show (255 : Nat) < 256 from by norm_num) (q / 2))
              rw [List.length_set, hlen, hbv255] at h
              exact h.symm
            rw [Prod.ext_iff]
            exact ⟨hfst, by omega⟩
      · -- no byte wrap: the new byte is b0 - 1
        have hb0pos : 1 ≤ bytes.getD (q / 2) 0 := by omega
        have hbeq : (bytes.getD (q / 2) 0 + 256 - 1) % 256
            = bytes.getD (q / 2) 0 - 1 := by omega
        rw [hbeq, if_neg (by omega)]
        obtain ⟨v, hv⟩ : ∃ v, bval bytes / 16 ^ q = v := ⟨_, rfl⟩
        have hb0v : bytes.getD (q / 2) 0 = v % 256 := by rw [hb0', hv]
        have hWdiv := Nat.div_add_mod v 256
        have hCq := Nat.div_add_mod (bval bytes) (16 ^ q)
        rw [hv, halign] at hCq
        have hdivpos : 1 ≤ v := by omega
        have hge : 16 ^ q ≤ bval bytes := by
          have h1 : 16 ^ q * 1 ≤ 16 ^ q * v := Nat.mul_le_mul_left _ hdivpos
          omega
        have hset := bval_set bytes (q / 2) (bytes.getD (q / 2) 0 - 1) hidx
        rw [hP] at hset
        have hsub1 : (bytes.getD (q / 2) 0 - 1) * 16 ^ q + 16 ^ q
            = bytes.getD (q / 2) 0 * 16 ^ q := by
          obtain ⟨b', hb'⟩ : ∃ b', bytes.getD (q / 2) 0 = b' + 1 :=
            ⟨bytes.getD (q / 2) 0 - 1, by omega⟩
          rw [hb', Nat.add_sub_cancel]
          ring
        have h16le : 16 ^ q ≤ bytes.getD (q / 2) 0 * 16 ^ q := by
          have h2 := Nat.mul_le_mul_right (16 ^ q) hb0pos
          omega
        have hbv1 : bval (bytes.set (q / 2) (bytes.getD (q / 2) 0 - 1))
            = bval bytes - 16 ^ q := by omega
        have hwf1 := bytesWF_set hwfb
          (show bytes.getD (q / 2) 0 - 1 < 256 from by omega) (q / 2)
        have hfst : bytes.set (q / 2) (bytes.getD (q / 2) 0 - 1)
            = toBytesLE (S + 1) (bval bytes - 16 ^ q) := by
          have h := toBytesLE_bval _ hwf1
          rw [List.length_set, hlen, hbv1] at h
          exact h.symm
        obtain ⟨u, hu⟩ : ∃ u, v = u + 1 := ⟨v - 1, by omega⟩
        have hringu : 16 ^ q * (u + 1) = 16 ^ q * u + 16 ^ q := by ring
        have hW'eq : bval bytes - 16 ^ q = 16 ^ q * u + (16 ^ q - 1) := by
          rw [hu, hringu] at hCq
          omega
        have hW'div : (bval bytes - 16 ^ q) / 16 ^ q = u := by
          rw [hW'eq, Nat.mul_add_div (by positivity), Nat.div_eq_of_lt (by omega),
            Nat.add_zero]
        have hW'mod : (bval bytes - 16 ^ q) % 16 ^ q = 16 ^ q - 1 := by
          rw [hW'eq, Nat.mul_add_mod, Nat.mod_eq_of_lt (by omega)]
        have hunib : u % 16 = (bytes.getD (q / 2) 0 - 1) % 16 := by omega
        by_cases hnib : (bytes.getD (q / 2) 0 - 1) % 16 = 15
        · rw [if_pos (by rw [Nat.div_one]; exact hnib)]
          constructor
          · intro _
            have hnuF : nuF (bval bytes - 16 ^ q) = q + 1 := by
              apply nuF_eq_of
              · have hpq1 : (16 : Nat) ^ (q + 1) = 16 ^ q * 16 := pow16_add_one q
                have hmm2 : (bval bytes - 16 ^ q) % (16 ^ q * 16)
                    = (bval bytes - 16 ^ q) % 16 ^ q
                      + 16 ^ q * ((bval bytes - 16 ^ q) / 16 ^ q % 16) := Nat.mod_mul
                rw [hW'mod, hW'div, hunib, hnib] at hmm2
                rw [hpq1, hmm2]
                have h15 : (16 : Nat) ^ q * 15 + 16 ^ q = 16 ^ q * 16 := by ring
                omega
              · have hdd : (bval bytes - 16 ^ q) / 16 ^ (q + 1) = u / 16 := by
                  rw [pow16_add_one, ← Nat.div_div_eq_div_mul, hW'div]
                rw [hdd]
                omega
            rw [hnuF, hfst, Prod.ext_iff]
            exact ⟨rfl, by omega⟩
          · intro hcon
            exact absurd hcon (by omega)
        · rw [if_neg (by rw [Nat.div_one]; exact hnib)]
          constructor
          · intro _
            have hnuF : nuF (bval bytes - 16 ^ q) = q := by
              apply nuF_eq_of q _ hW'mod
              rw [hW'div, hunib]
              exact hnib
            rw [hnuF, hfst, Prod.ext_iff]
            exact ⟨rfl, by omega⟩
          · intro hcon
            exact absurd hcon (by omega)
    · -- odd quartet: the high nibble of byte q/2
      have hexp : (2 : Nat) ^ (q % 2 * 4) = 16 := by rw [hq2]; norm_num
      have hQ1 : q + 1 + (1 - q % 2) = q + 1 := by omega
      have hPm : (256 : Nat) ^ (q / 2) = 16 ^ (q - 1) := pow256_div2_odd hq2
      have hq1 : q - 1 + 1 = q := by omega
      have hsplitq : (16 : Nat) ^ q = 16 ^ (q - 1) * 16 := by
        rw [← pow16_add_one, hq1]
      have hb0' : bytes.getD (q / 2) 0 = bval bytes / 16 ^ (q - 1) % 256 := by
        rw [hb0, hPm]
      have hFsplit := modF_split_top (q - 1) (bval bytes) (by rw [hq1]; exact halign)
      have halign' := hFsplit.1
      have hnibF := hFsplit.2
      have hb0mod : bytes.getD (q / 2) 0 % 16 = 15 := by
        obtain ⟨w0, hw0⟩ : ∃ w0, bval bytes / 16 ^ (q - 1) = w0 := ⟨_, rfl⟩
        rw [hw0] at hnibF
        rw [hb0', hw0]
        omega
      rw [hexp, hQ1]
      by_cases hwrap : bytes.getD (q / 2) 0 < 16
      · -- b0 = 0x0F: the byte wraps to 0xFF
        have h15 : bytes.getD (q / 2) 0 = 15 := by omega
        have hbeq : (bytes.getD (q / 2) 0 + 256 - 16) % 256 = 255 := by omega
        rw [hbeq, if_pos (by norm_num)]
        have hset := bval_set bytes (q / 2) 255 hidx
        rw [hPm, h15] at hset
        have hmodW : bval bytes % (16 ^ (q - 1) * 256)
            = bval bytes % 16 ^ (q - 1)
              + 16 ^ (q - 1) * (bval bytes / 16 ^ (q - 1) % 256) := Nat.mod_mul
        rw [halign', ← hb0', h15] at hmodW
        have hC := Nat.div_add_mod (bval bytes) (16 ^ (q - 1) * 256)
        obtain ⟨C0, hC0⟩ : ∃ c, bval bytes / (16 ^ (q - 1) * 256) = c := ⟨_, rfl⟩
        rw [hC0, hmodW] at hC
        have hpos16' : (1 : Nat) ≤ 16 ^ (q - 1) := Nat.one_le_pow _ _ (by norm_num)
        have hbv1 : bval (bytes.set (q / 2) 255)
            = 16 ^ (q - 1) * 256 * C0 + (16 ^ (q - 1) * 256 - 1) := by omega
        have hpq1 : (16 : Nat) ^ (q + 1) = 16 ^ (q - 1) * 256 := by
          rw [show q + 1 = q - 1 + 2 from by omega, pow_add]
          norm_num
        have hq1S : q + 1 ≤ 2 * S := by omega
        have halign1 : bval (bytes.set (q / 2) 255) % 16 ^ (q + 1)
            = 16 ^ (q + 1) - 1 := by
          rw [hpq1, hbv1, Nat.mul_add_mod, Nat.mod_eq_of_lt (by
            have : (0 : Nat) < 16 ^ (q - 1) * 256 := by positivity
            omega)]
        have hlt1 : bval (bytes.set (q / 2) 255) < 16 ^ (2 * S) := by
          obtain ⟨M, hM⟩ : (16 : Nat) ^ (q + 1) ∣ 16 ^ (2 * S) :=
            pow_dvd_pow 16 (by omega)
          rw [hpq1] at hM
          have hCM : C0 < M := by
            apply Nat.lt_of_mul_lt_mul_left (a := 16 ^ (q - 1) * 256)
            calc 16 ^ (q - 1) * 256 * C0 ≤ bval bytes := by omega
              _ < 16 ^ (2 * S) := hlt
              _ = 16 ^ (q - 1) * 256 * M := hM
          have h2 : 16 ^ (q - 1) * 256 * (C0 + 1) ≤ 16 ^ (q - 1) * 256 * M :=
            Nat.mul_le_mul_left _ (by omega)
          have h3 : 16 ^ (q - 1) * 256 * (C0 + 1)
              = 16 ^ (q - 1) * 256 * C0 + 16 ^ (q - 1) * 256 := by ring
          omega
        have hrec := ih (q + 1) _ (bytesWF_set hwfb (by norm_num) _)
          (by rw [List.length_set, hlen]) hq1S halign1 hlt1 (by omega)
        constructor
        · intro hge
          have hge2 : 16 ^ (q + 1) ≤ bval (bytes.set (q / 2) 255) := by
            rw [hpq1, hsplitq] at *
            omega
          rw [hrec.1 hge2]
          have hval : bval (bytes.set (q / 2) 255) - 16 ^ (q + 1)
              = bval bytes - 16 ^ q := by
            rw [hpq1, hsplitq]
            omega
          rw [hval]
          have hnuge : q + 1 ≤ nuF (bval bytes - 16 ^ q) := by
            apply nuF_ge
            have hC1 : 1 ≤ C0 := by
              by_contra hc
              have hc0 : C0 = 0 := by omega
              rw [hc0] at hC
              rw [hsplitq] at hge
              omega
            obtain ⟨C', hC'⟩ : ∃ C', C0 = C' + 1 := ⟨C0 - 1, by omega⟩
            have hring : 16 ^ (q - 1) * 256 * (C' + 1)
                = 16 ^ (q - 1) * 256 * C' + 16 ^ (q - 1) * 256 := by ring
            have hWeq : bval bytes - 16 ^ q
                = 16 ^ (q - 1) * 256 * C' + (16 ^ (q - 1) * 256 - 1) := by
              rw [hC', hring] at hC
              rw [hsplitq]
              omega
            rw [hpq1, hWeq, Nat.mul_add_mod, Nat.mod_eq_of_lt (by
              have : (0 : Nat) < 16 ^ (q - 1) * 256 := by positivity
              omega)]
          rw [Prod.ext_iff]
          exact ⟨rfl, by omega⟩
        · intro hlt0
          have hlt2 : bval (bytes.set (q / 2) 255) < 16 ^ (q + 1) := by
            rw [hpq1]
            rw [hsplitq] at hlt0
            omega
          rw [hrec.2 hlt2]
          rw [Prod.ext_iff]
          exact ⟨rfl, by omega⟩
      · -- b0 ≥ 16: in-byte borrow of the high nibble
        have hb0ge : 16 ≤ bytes.getD (q / 2) 0 := by omega
        have hbeq : (bytes.getD (q / 2) 0 + 256 - 16) % 256
            = bytes.getD (q / 2) 0 - 16 := by omega
        rw [hbeq, if_neg (by omega), if_neg (by omega)]
        obtain ⟨w, hw⟩ : ∃ w, bval bytes / 16 ^ (q - 1) = w := ⟨_, rfl⟩
        have hb0w : bytes.getD (q / 2) 0 = w % 256 := by rw [hb0', hw]
        have hWdiv := Nat.div_add_mod w 256
        have hCq1 := Nat.div_add_mod (bval bytes) (16 ^ (q - 1))
        rw [hw, halign'] at hCq1
        have hpos16' : (1 : Nat) ≤ 16 ^ (q - 1) := Nat.one_le_pow _ _ (by norm_num)
        have hwge : 16 ≤ w := by omega
        have hge : 16 ^ q ≤ bval bytes := by
          have h1 : 16 ^ (q - 1) * 16 ≤ 16 ^ (q - 1) * w := Nat.mul_le_mul_left _ hwge
          rw [hsplitq]
          omega
        have hset := bval_set bytes (q / 2) (bytes.getD (q / 2) 0 - 16) hidx
        rw [hPm] at hset
        have hsub16 : (bytes.getD (q / 2) 0 - 16) * 16 ^ (q - 1) + 16 ^ q
            = bytes.getD (q / 2) 0 * 16 ^ (q - 1) := by
          obtain ⟨b', hb'⟩ : ∃ b', bytes.getD (q / 2) 0 = b' + 16 :=
            ⟨bytes.getD (q / 2) 0 - 16, by omega⟩
          rw [hb', Nat.add_sub_cancel, hsplitq]
          ring
        have h16le : 16 ^ q ≤ bytes.getD (q / 2) 0 * 16 ^ (q - 1) := by
          have h2 := Nat.mul_le_mul_right (16 ^ (q - 1)) hb0ge
          rw [hsplitq]
          omega
        have hbv1 : bval (bytes.set (q / 2) (bytes.getD (q / 2) 0 - 16))
            = bval bytes - 16 ^ q := by omega
        have hwf1 := bytesWF_set hwfb
          (show bytes.getD (q / 2) 0 - 16 < 256 from by omega) (q / 2)
        have hfst : bytes.set (q / 2) (bytes.getD (q / 2) 0 - 16)
            = toBytesLE (S + 1) (bval bytes - 16 ^ q) := by
          have h := toBytesLE_bval _ hwf1
          rw [List.length_set, hlen, hbv1] at h
          exact h.symm
        have hyy : bval bytes / 16 ^ q = bval bytes / 16 ^ (q - 1) / 16 := by
          rw [Nat.div_div_eq_div_mul, ← hsplitq]
        obtain ⟨v, hv⟩ : ∃ v, bval bytes / 16 ^ q = v := ⟨_, rfl⟩
        have hvw : v = w / 16 := by rw [← hv, hyy, hw]
        have hCq2 := Nat.div_add_mod (bval bytes) (16 ^ q)
        rw [hv, halign] at hCq2
        have hdivpos : 1 ≤ v := by omega
        obtain ⟨u, hu⟩ : ∃ u, v = u + 1 := ⟨v - 1, by omega⟩
        have hringu : 16 ^ q * (u + 1) = 16 ^ q * u + 16 ^ q := by ring
        have hW'eq : bval bytes - 16 ^ q = 16 ^ q * u + (16 ^ q - 1) := by
          rw [hu, hringu] at hCq2
          omega
        have hW'div : (bval bytes - 16 ^ q) / 16 ^ q = u := by
          rw [hW'eq, Nat.mul_add_div (by positivity), Nat.div_eq_of_lt (by omega),
            Nat.add_zero]
        have hW'mod : (bval bytes - 16 ^ q) % 16 ^ q = 16 ^ q - 1 := by
          rw [hW'eq, Nat.mul_add_mod, Nat.mod_eq_of_lt (by omega)]
        have hnuF : nuF (bval bytes - 16 ^ q) = q := by
          apply nuF_eq_of q _ hW'mod
          rw [hW'div]
          omega
        constructor
        · intro _
          rw [hnuF, hfst, Prod.ext_iff]
          exact ⟨rfl, by omega⟩
        · intro hcon
          exact absurd hcon (by omega)

theorem decrQuartet_spec {S q : Nat} {bytes : List Nat}
    (hwfb : bytesWF bytes) (hlen : bytes.length = S + 1) (hq : q ≤ 2 * S)
    (halign : bval bytes % 16 ^ q = 16 ^ q - 1)
    (hlt : bval bytes < 16 ^ (2 * S)) :
    (16 ^ q ≤ bval bytes →
      decrQuartet (2 * S) bytes q
        = (toBytesLE (S + 1) (bval bytes - 16 ^ q),
           nuF (bval bytes - 16 ^ q) - q)) ∧
    (bval bytes < 16 ^ q →
      decrQuartet (2 * S) bytes q
        = (toBytesLE (S + 1) (16 ^ (2 * S + 2) - 1), 2 * S + 2 - q)) :=
  decrQuartetGo_spec S (2 * S + 3) q bytes hwfb hlen hq halign hlt (by omega)

/-! ### Value-level descent and the stack -/

section Descent

variable {V : Type}

/-- `descendB` on the digits of the key value. -/
def descendV (t : Trie V) (W : Nat) : Nat → Nat → Trie V
  | _, 0 => t
  | hi, n + 1 => descendV (childAt t (tetKey W hi)) W (hi - 1) n

theorem descendB_eq_descendV (bytes : List Nat) (h : bytesWF bytes) :
    ∀ (n : Nat) (t : Trie V) (hi : Nat),
      descendB t bytes hi n = descendV t (bval bytes) hi n := by
  intro n
  induction n with
  | zero => intro t hi; rfl
  | succ n ih =>
    intro t hi
    show descendB (childAt t (tetradeValue bytes hi)) bytes (hi - 1) n = _
    rw [tetradeValue_eq_tetKey bytes h, ih]
    rfl

theorem descendV_snoc (W : Nat) :
    ∀ (n : Nat) (t : Trie V) (hi : Nat),
      descendV t W hi (n + 1) = childAt (descendV t W hi n) (tetKey W (hi - n)) := by
  intro n
  induction n with
  | zero => intro t hi; rfl
  | succ n ih =>
    intro t hi
    show descendV (childAt t (tetKey W hi)) W (hi - 1) (n + 1) = _
    rw [ih]
    have : hi - 1 - n = hi - (n + 1) := by omega
    rw [this]
    rfl

theorem descendV_split (W : Nat) :
    ∀ (m n : Nat) (t : Trie V) (hi : Nat),
      descendV t W hi (m + n) = descendV (descendV t W hi m) W (hi - m) n := by
  intro m
  induction m with
  | zero => intro n t hi; rw [Nat.zero_add]; rfl
  | succ m ih =>
    intro n t hi
    rw [show m + 1 + n = (m + n) + 1 from by omega]
    show descendV (childAt t (tetKey W hi)) W (hi - 1) (m + n) = _
    rw [ih]
    have : hi - 1 - m = hi - (m + 1) := by omega
    rw [this]
    rfl

theorem fastFind_eq_descendV (W : Nat) :
    ∀ (n : Nat) (t : Trie V), fastFind t W n = descendV t W (n - 1) n := by
  intro n
  induction n with
  | zero => intro t; rfl
  | succ n ih =>
    intro t
    show fastFind (childAt t (tetKey W n)) W n = descendV t W n (n + 1)
    rw [ih]
    rfl

theorem tetKey_congr_of_div {W W' j : Nat} (h : W / 16 ^ j = W' / 16 ^ j) :
    ∀ i, j ≤ i → tetKey W i = tetKey W' i := by
  intro i hij
  unfold tetKey
  rw [show (16 : Nat) ^ i = 16 ^ j * 16 ^ (i - j) from by
      rw [← pow_add]; congr 1; omega,
    ← Nat.div_div_eq_div_mul, ← Nat.div_div_eq_div_mul, h]

theorem descendV_congr {W W' : Nat} :
    ∀ (n : Nat) (t : Trie V) (hi : Nat),
      (∀ i, hi + 1 ≤ i + n → tetKey W i = tetKey W' i) →
      descendV t W hi n = descendV t W' hi n := by
  intro n
  induction n with
  | zero => intro t hi _; rfl
  | succ n ih =>
    intro t hi h
    show descendV (childAt t (tetKey W hi)) W (hi - 1) n = _
    rw [h hi (by omega)]
    exact ih _ _ (fun i hi' => h i (by omega))

/-- Descent decomposition: a full lookup of `K` goes through the level-`j`
slot of any key agreeing with `K` on the digits above `j`. -/
theorem fastFind_through (t : Trie V) (D j K : Nat) (hj : j ≤ D) :
    fastFind t K D = fastFind (descendV t K (D - 1) (D - j)) K j := by
  rw [fastFind_eq_descendV, fastFind_eq_descendV,
    show D = (D - j) + j from by omega, descendV_split]
  congr 1
  · congr 1
    omega
  · omega

end Descent

section StackLemmas

variable {V : Type}

theorem length_mkStack (t : Trie V) (bytes : List Nat) (D : Nat) :
    (mkStack t bytes D).length = D := by
  simp [mkStack]

theorem getD_mkStack (t : Trie V) (bytes : List Nat) (D j : Nat) (h : j < D) :
    (mkStack t bytes D).getD j .empty = stackSlot t bytes D j := by
  unfold mkStack
  rw [List.getD_eq_getElem?_getD, List.getElem?_map]
  rw [List.getElem?_range h]
  rfl

theorem eq_mkStack_of_getD (t : Trie V) (bytes : List Nat) (D : Nat)
    (stack : List (Trie V)) (hlen : stack.length = D)
    (h : ∀ j, j < D → stack.getD j .empty = stackSlot t bytes D j) :
    stack = mkStack t bytes D := by
  apply List.ext_getElem
  · rw [hlen, length_mkStack]
  · intro j h1 h2
    have hj : j < D := by rwa [hlen] at h1
    have e1 : stack[j] = stack.getD j .empty := by
      rw [List.getD_eq_getElem?_getD, List.getElem?_eq_getElem h1]
      rfl
    have e2 : (mkStack t bytes D)[j] = (mkStack t bytes D).getD j .empty := by
      rw [List.getD_eq_getElem?_getD, List.getElem?_eq_getElem h2]
      rfl
    rw [e1, e2, h j hj, getD_mkStack _ _ _ _ hj]

end StackLemmas

/-! ### Minimal / maximal present key search (specification side) -/

section Scan

variable {V : Type}

/-- Whether the container holds an element at radix key `K`. -/
def presentB (S : Nat) (t : Trie V) (K : Nat) : Bool :=
  ! isEmptyT (fastFind t K (2 * S))

/-- First `K ≥ lo` (scanning `n` candidates) satisfying `p`. -/
def scanMin (p : Nat → Bool) : Nat → Nat → Option Nat
  | _, 0 => none
  | lo, n + 1 => if p lo then some lo else scanMin p (lo + 1) n

/-- Last `K ≤ hi` (scanning `n` candidates downward) satisfying `p`. -/
def scanMax (p : Nat → Bool) : Nat → Nat → Option Nat
  | _, 0 => none
  | hi, n + 1 => if p hi then some hi else scanMax p (hi - 1) n

/-- The smallest present radix key `≥ lo` (the specification of the
successor seek). -/
def firstGe (S : Nat) (t : Trie V) (lo : Nat) : Option Nat :=
  scanMin (presentB S t) lo (16 ^ (2 * S) - lo)

/-- The greatest present radix key `≤ hi` (the specification of the
predecessor seek). -/
def lastLe (S : Nat) (t : Trie V) (hi : Nat) : Option Nat :=
  scanMax (presentB S t) hi (hi + 1)

theorem firstGe_of_present {S : Nat} {t : Trie V} {lo : Nat}
    (h : presentB S t lo = true) (hlt : lo < 16 ^ (2 * S)) :
    firstGe S t lo = some lo := by
  unfold firstGe
  rw [show 16 ^ (2 * S) - lo = (16 ^ (2 * S) - lo - 1) + 1 from by omega]
  unfold scanMin
  rw [if_pos h]

theorem firstGe_none {S : Nat} (t : Trie V) {lo : Nat} (h : 16 ^ (2 * S) ≤ lo) :
    firstGe S t lo = none := by
  unfold firstGe
  rw [show 16 ^ (2 * S) - lo = 0 from by omega]
  rfl

theorem firstGe_gap {S : Nat} {t : Trie V} :
    ∀ (k lo : Nat), (∀ j, lo ≤ j → j < lo + k → presentB S t j = false) →
      lo + k ≤ 16 ^ (2 * S) → firstGe S t lo = firstGe S t (lo + k) := by
  intro k
  induction k with
  | zero => intro lo _ _; rfl
  | succ k ih =>
    intro lo hgap hle
    have hlo : presentB S t lo = false := hgap lo (le_refl _) (by omega)
    have step : firstGe S t lo = firstGe S t (lo + 1) := by
      unfold firstGe
      rw [show 16 ^ (2 * S) - lo = (16 ^ (2 * S) - (lo + 1)) + 1 from by omega]
      show (if presentB S t lo = true then some lo
        else scanMin (presentB S t) (lo + 1) (16 ^ (2 * S) - (lo + 1))) = _
      rw [if_neg (by rw [hlo]; simp)]
    rw [step, ih (lo + 1) (fun j h1 h2 => hgap j (by omega) (by omega)) (by omega)]
    congr 1
    omega

theorem lastLe_of_present {S : Nat} {t : Trie V} {hi : Nat}
    (h : presentB S t hi = true) : lastLe S t hi = some hi := by
  unfold lastLe scanMax
  rw [if_pos h]

theorem lastLe_gap {S : Nat} {t : Trie V} :
    ∀ (k hi : Nat), (∀ j, hi - k < j → j ≤ hi → presentB S t j = false) →
      k ≤ hi → lastLe S t hi = lastLe S t (hi - k) := by
  intro k
  induction k with
  | zero => intro hi _ _; rfl
  | succ k ih =>
    intro hi hgap hk
    have hhi : presentB S t hi = false := hgap hi (by omega) (le_refl _)
    have step : lastLe S t hi = lastLe S t (hi - 1) := by
      unfold lastLe
      rw [show hi + 1 = (hi - 1 + 1) + 1 from by omega]
      show (if presentB S t hi = true then some hi
        else scanMax (presentB S t) (hi - 1) (hi - 1 + 1)) = _
      rw [if_neg (by rw [hhi]; simp)]
    rw [step, ih (hi - 1) (fun j h1 h2 => hgap j (by omega) (by omega)) (by omega)]
    congr 1
    omega

theorem lastLe_zero_absent {S : Nat} {t : Trie V}
    (h : presentB S t 0 = false) : lastLe S t 0 = none := by
  show (if presentB S t 0 = true then some 0
    else scanMax (presentB S t) (0 - 1) 0) = none
  rw [if_neg (by rw [h]; simp)]
  rfl

end Scan

/-! ### The iterator state denoting a located element -/

/-- The iterator state that denotes the element with radix key `rk`:
depth 0, canonical key bytes, and a fully consistent descent stack. -/
def foundIter {V : Type} (S : Nat) (t : Trie V) (rk : Nat) : IterSt V :=
  ⟨mkStack t (toBytesLE (S + 1) rk) (2 * S), 0, toBytesLE (S + 1) rk⟩

section TrieBasic

variable {V : Type}

theorem isEmptyT_eq_empty {t : Trie V} (h : isEmptyT t = true) : t = .empty := by
  cases t with
  | empty => rfl
  | leaf v => simp [isEmptyT] at h
  | node c => simp [isEmptyT] at h

/-- An empty level-`j` slot rules out every key sharing the digits above
level `j`. -/
theorem fastFind_slot_empty {t : Trie V} {D j K : Nat} (hj : j ≤ D)
    (h : isEmptyT (descendV t K (D - 1) (D - j)) = true) :
    ∀ K', K' / 16 ^ j = K / 16 ^ j → isEmptyT (fastFind t K' D) = true := by
  intro K' hK
  rw [fastFind_through t D j K' hj]
  have hcongr : descendV t K' (D - 1) (D - j) = descendV t K (D - 1) (D - j) := by
    apply descendV_congr
    intro i hi
    exact tetKey_congr_of_div hK i (by omega)
  rw [hcongr, isEmptyT_eq_empty h, fastFind_empty]
  rfl

end TrieBasic

section AlignArith

/-- Two `n`-aligned values at distance `≥ 1` are at distance `≥ n`. -/
theorem aligned_room {a b n : Nat} (ha : a % n = 0) (hb : b % n = 0)
    (hab : a < b) (hn : 0 < n) : a + n ≤ b := by
  have hd : n ∣ b - a :=
    Nat.dvd_sub' (Nat.dvd_of_mod_eq_zero hb) (Nat.dvd_of_mod_eq_zero ha)
  have := Nat.le_of_dvd (by omega) hd
  omega

/-- A carry of `16 ^ d` into a value whose trailing-zero-nibble count is
`ν ≥ d` does not change the digits above `ν`. -/
theorem div_sub_pow_eq {x d v : Nat} (hd : d ≤ v) (hv : x % 16 ^ v = 0)
    (hnib : x / 16 ^ v % 16 ≠ 0) (hle : 16 ^ d ≤ x) :
    (x - 16 ^ d) / 16 ^ (v + 1) = x / 16 ^ (v + 1) := by
  obtain ⟨m, hm1, hm15, hxeq⟩ :
      ∃ m, 1 ≤ m ∧ m < 16 ∧ x = 16 ^ (v + 1) * (x / 16 ^ (v + 1)) + 16 ^ v * m := by
    refine ⟨x / 16 ^ v % 16, by omega, Nat.mod_lt _ (by norm_num), ?_⟩
    have h1 : 16 ^ v * (x / 16 ^ v) + x % 16 ^ v = x := Nat.div_add_mod x (16 ^ v)
    have h2 : 16 * (x / 16 ^ v / 16) + x / 16 ^ v % 16 = x / 16 ^ v :=
      Nat.div_add_mod _ 16
    have h3 : x / 16 ^ v / 16 = x / 16 ^ (v + 1) := by
      rw [Nat.div_div_eq_div_mul, ← pow_succ]
    rw [← h3]
    calc x = 16 ^ v * (x / 16 ^ v) := by omega
      _ = 16 ^ v * (16 * (x / 16 ^ v / 16) + x / 16 ^ v % 16) := by rw [h2]
      _ = 16 ^ (v + 1) * (x / 16 ^ v / 16) + 16 ^ v * (x / 16 ^ v % 16) := by
          rw [pow_succ]; ring
  have hdv : 16 ^ d ≤ 16 ^ v := Nat.pow_le_pow_right (by norm_num) hd
  have hQ : (16 : Nat) ^ (v + 1) = 16 ^ v * 16 := pow_succ 16 v
  have hPm : 16 ^ v ≤ 16 ^ v * m := Nat.le_mul_of_pos_right _ (by omega)
  have hPm15 : 16 ^ v * m ≤ 16 ^ v * 15 := Nat.mul_le_mul_left _ (by omega)
  have hP1 : 1 ≤ 16 ^ v := Nat.one_le_pow _ _ (by norm_num)
  have hle' : 16 ^ d ≤ 16 ^ v * m := le_trans hdv hPm
  have heq : x - 16 ^ d
      = (16 ^ v * m - 16 ^ d) + 16 ^ (v + 1) * (x / 16 ^ (v + 1)) := by
    nth_rewrite 1 [hxeq]
    rw [Nat.add_comm (16 ^ (v + 1) * (x / 16 ^ (v + 1))) (16 ^ v * m),
      Nat.sub_add_comm hle']
  have hupper : 16 ^ v * m - 16 ^ d < 16 ^ (v + 1) := by
    rw [hQ]
    calc 16 ^ v * m - 16 ^ d ≤ 16 ^ v * m := Nat.sub_le _ _
      _ ≤ 16 ^ v * 15 := hPm15
      _ < 16 ^ v * 16 := mul_lt_mul_of_pos_left (by norm_num) (by positivity)
  rw [heq, Nat.add_mul_div_left _ _ (by positivity),
    Nat.div_eq_of_lt hupper, Nat.zero_add]

end AlignArith

instance (w a b : Nat) : Decidable (intLtW w a b) := by
  unfold intLtW; infer_instance

section LoopBridge

variable {V : Type}

theorem align_mono {a i j : Nat} (h : a % 16 ^ i = 0) (hij : j ≤ i) :
    a % 16 ^ j = 0 :=
  Nat.mod_eq_zero_of_dvd (dvd_trans (pow_dvd_pow 16 hij) (Nat.dvd_of_mod_eq_zero h))

theorem div_pow_congr {a b i k : Nat} (h : a / 16 ^ i = b / 16 ^ i) (hik : i ≤ k) :
    a / 16 ^ k = b / 16 ^ k := by
  rw [show (16 : Nat) ^ k = 16 ^ i * 16 ^ (k - i) from by
      rw [← pow_add]; congr 1; omega,
    ← Nat.div_div_eq_div_mul, ← Nat.div_div_eq_div_mul, h]

theorem stackSlot_eq_descendV (t : Trie V) (bytes : List Nat) (hwf : bytesWF bytes)
    (D j : Nat) : stackSlot t bytes D j = descendV t (bval bytes) (D - 1) (D - 1 - j) := by
  unfold stackSlot
  rw [descendB_eq_descendV bytes hwf]

theorem childAt_stackSlot (t : Trie V) (bytes : List Nat) (hwf : bytesWF bytes)
    (D d : Nat) (hd : d < D) :
    childAt (stackSlot t bytes D d) (tetKey (bval bytes) d)
      = descendV t (bval bytes) (D - 1) (D - d) := by
  rw [stackSlot_eq_descendV t bytes hwf,
    show D - d = (D - 1 - d) + 1 from by omega, descendV_snoc,
    show D - 1 - (D - 1 - d) = d from by omega]

/-- Canonical key buffers agreeing on the digits above level `j` produce the
same level-`j` stack slot. -/
theorem stackSlot_congr (t : Trie V) (bytes bytes' : List Nat)
    (hwf : bytesWF bytes) (hwf' : bytesWF bytes') (D j : Nat) (hj : j < D)
    (h : bval bytes / 16 ^ (j + 1) = bval bytes' / 16 ^ (j + 1)) :
    stackSlot t bytes D j = stackSlot t bytes' D j := by
  rw [stackSlot_eq_descendV t bytes hwf, stackSlot_eq_descendV t bytes' hwf']
  apply descendV_congr
  intro i hi
  exact tetKey_congr_of_div h i (by omega)

theorem targetValid_of_depth_ne {s : IterSt V} (h : s.depth ≠ 0) :
    targetValid s = false := by
  unfold targetValid
  simp [h]

theorem targetValid_depth0 (S : Nat) (t : Trie V) (st : IterSt V) (W : Nat)
    (hS : 0 < S) (hd : st.depth = 0) (hb : st.bytes = toBytesLE (S + 1) W)
    (hW : W < 16 ^ (2 * S))
    (hs : st.stack.getD 0 .empty = stackSlot t st.bytes (2 * S) 0) :
    targetValid st = presentB S t W := by
  have hwf : bytesWF st.bytes := hb ▸ bytesWF_toBytesLE _ _
  have hW2 : W < 256 ^ (S + 1) := by
    calc W < 16 ^ (2 * S) := hW
      _ = 256 ^ S := by rw [show (256 : Nat) = 16 ^ 2 from by norm_num, ← pow_mul]
      _ ≤ 256 ^ (S + 1) := Nat.pow_le_pow_right (by norm_num) (by omega)
  have hbv : bval st.bytes = W := by rw [hb]; exact bval_toBytesLE _ _ hW2
  unfold targetValid
  rw [hd, hs, tetradeValue_eq_tetKey st.bytes hwf 0,
    childAt_stackSlot t st.bytes hwf (2 * S) 0 (by omega), hbv,
    Nat.sub_zero, ← fastFind_eq_descendV]
  unfold presentB
  simp

theorem incLoopGo_succ (D gas : Nat) (st : IterSt V) :
    incLoopGo D (gas + 1) st
      = if st.depth < D then
          (if targetValid (incStep D st) then incStep D st
           else incLoopGo D gas (incStep D st))
        else st := rfl

theorem decLoopGo_succ (D gas : Nat) (st : IterSt V) :
    decLoopGo D (gas + 1) st
      = if st.depth < D then
          (if targetValid (decStep D st) then decStep D st
           else decLoopGo D gas (decStep D st))
        else st := rfl

end LoopBridge

/-- Correctness of the `increment` seek loop: started from a consistent
pre-step state whose key value `W` is not itself an unvisited hit, the loop
stops at the first present key `≥ W` (as computed by `firstGe`), or runs off
the top of the trie with the past-the-end key bytes. -/
theorem incLoopGo_spec {V : Type} (S : Nat) (hS : 0 < S) (t : Trie V) :
    ∀ (gas : Nat) (stk : List (Trie V)) (dp : Nat) (bys : List Nat) (W : Nat),
      bys = toBytesLE (S + 1) W →
      W ≤ 16 ^ (2 * S) →
      dp ≤ 2 * S →
      W % 16 ^ dp = 0 →
      (W = 16 ^ (2 * S) ↔ dp = 2 * S) →
      (dp = 0 → presentB S t W = false) →
      stk.length = 2 * S →
      (∀ j, dp ≤ j → j < 2 * S → stk.getD j .empty = stackSlot t bys (2 * S) j) →
      stk.getD (2 * S - 1) .empty = t →
      (16 ^ (2 * S) - W) * (2 * S + 1) + dp + 1 ≤ gas →
      ((∀ K, firstGe S t W = some K →
          incLoopGo (2 * S) gas ⟨stk, dp, bys⟩ = foundIter S t K) ∧
       (firstGe S t W = none →
         (incLoopGo (2 * S) gas ⟨stk, dp, bys⟩).depth = 2 * S ∧
         (incLoopGo (2 * S) gas ⟨stk, dp, bys⟩).bytes = endBytes S ∧
         (incLoopGo (2 * S) gas ⟨stk, dp, bys⟩).stack.length = 2 * S ∧
         (incLoopGo (2 * S) gas ⟨stk, dp, bys⟩).stack.getD (2 * S - 1) .empty = t)) := by
  intro gas
  induction gas with
  | zero =>
    intro stk dp bys W hb hWle hdle halign hiff hskip hlen hSI htop hgas
    exact absurd hgas (by omega)
  | succ gas ih =>
    intro stk dp bys W hb hWle hdle halign hiff hskip hlen hSI htop hgas
    by_cases hdlt : dp < 2 * S
    case neg =>
      have hd2 : dp = 2 * S := by omega
      have hW2S : W = 16 ^ (2 * S) := hiff.mpr hd2
      have hres : incLoopGo (2 * S) (gas + 1) (⟨stk, dp, bys⟩ : IterSt V)
          = ⟨stk, dp, bys⟩ := by
        rw [incLoopGo_succ, if_neg (by exact hdlt)]
      have hnone : firstGe S t W = none := firstGe_none t (by omega)
      constructor
      · intro K hK
        rw [hnone] at hK
        exact absurd hK (by simp)
      · intro _
        rw [hres]
        exact ⟨hd2, by rw [hb, hW2S]; exact endBytes_eq S, hlen, htop⟩
    case pos =>
      have hWlt : W < 16 ^ (2 * S) :=
        lt_of_le_of_ne hWle (fun h => absurd (hiff.mp h) (by omega))
      have hwfb : bytesWF bys := hb ▸ bytesWF_toBytesLE _ _
      have hlenb : bys.length = S + 1 := by rw [hb]; exact length_toBytesLE _ _
      have hW256 : W < 256 ^ (S + 1) :=
        lt_of_lt_of_le (pow16_two_mul S ▸ hWlt)
          (Nat.pow_le_pow_right (by norm_num) (by omega))
      have hbv : bval bys = W := by rw [hb]; exact bval_toBytesLE _ _ hW256
      have hts : stk.getD dp .empty = stackSlot t bys (2 * S) dp :=
        hSI dp (le_refl _) hdlt
      have htetra : tetradeValue bys dp = tetKey W dp := by
        rw [tetradeValue_eq_tetKey bys hwfb, hbv]
      have hchild : childAt (stk.getD dp .empty) (tetradeValue bys dp)
          = descendV t W (2 * S - 1) (2 * S - dp) := by
        have h1 := childAt_stackSlot t bys hwfb (2 * S) dp hdlt
        rw [hbv] at h1
        rw [hts, htetra, h1]
      by_cases hC : dp ≠ 0 ∧
          isEmptyT (childAt (stk.getD dp .empty) (tetradeValue bys dp)) = false
      · -- descend into the live child
        obtain ⟨hd0, hne⟩ := hC
        have hstep : incStep (2 * S) (⟨stk, dp, bys⟩ : IterSt V)
            = ⟨stk.set (dp - 1) (childAt (stk.getD dp .empty) (tetradeValue bys dp)),
               dp - 1, bys⟩ := by
          unfold incStep
          rw [if_pos ⟨hd0, hne⟩]
        have hSI' : ∀ j, dp - 1 ≤ j → j < 2 * S →
            (stk.set (dp - 1) (childAt (stk.getD dp .empty) (tetradeValue bys dp))).getD
              j .empty = stackSlot t bys (2 * S) j := by
          intro j hj1 hj2
          by_cases hjeq : j = dp - 1
          · subst hjeq
            rw [getD_set_self _ _ _ _ (by rw [hlen]; omega), hchild,
              stackSlot_eq_descendV t bys hwfb, hbv]
            congr 1
            omega
          · rw [getD_set_ne _ _ _ _ _ (fun h => hjeq h.symm)]
            exact hSI j (by omega) hj2
        have htop' : (stk.set (dp - 1)
            (childAt (stk.getD dp .empty) (tetradeValue bys dp))).getD
              (2 * S - 1) .empty = t := by
          rw [getD_set_ne _ _ _ _ _ (by omega)]
          exact htop
        by_cases hTV : targetValid (incStep (2 * S) (⟨stk, dp, bys⟩ : IterSt V)) = true
        · -- the descent step landed on a live element: `W` is present
          rw [hstep] at hTV
          have hd1 : dp = 1 := by
            by_contra hne1
            rw [targetValid_of_depth_ne
              (s := ⟨stk.set (dp - 1) (childAt (stk.getD dp .empty)
                (tetradeValue bys dp)), dp - 1, bys⟩) (by show dp - 1 ≠ 0; omega)] at hTV
            exact absurd hTV (by simp)
          have hpres : presentB S t W = true := by
            have h2 := targetValid_depth0 S t
              ⟨stk.set (dp - 1) (childAt (stk.getD dp .empty) (tetradeValue bys dp)),
               dp - 1, bys⟩ W hS (by show dp - 1 = 0; omega) hb hWlt
              (by
                show (stk.set (dp - 1) (childAt (stk.getD dp .empty)
                  (tetradeValue bys dp))).getD 0 .empty = stackSlot t bys (2 * S) 0
                exact hSI' 0 (by omega) (by omega))
            rw [h2] at hTV
            exact hTV
          have hsome : firstGe S t W = some W := firstGe_of_present hpres hWlt
          constructor
          · intro K hK
            rw [hsome] at hK
            injection hK with hK
            subst hK
            rw [incLoopGo_succ, if_pos hdlt, if_pos (by rw [hstep]; exact hTV), hstep]
            have hstk : stk.set (dp - 1)
                (childAt (stk.getD dp .empty) (tetradeValue bys dp))
                = mkStack t bys (2 * S) := by
              apply eq_mkStack_of_getD t bys (2 * S) _ (by rw [List.length_set]; exact hlen)
              intro j hj
              exact hSI' j (by omega) hj
            unfold foundIter
            rw [hstk, ← hb, hd1]
          · intro h
            rw [hsome] at h
            exact absurd h (by simp)
        · -- keep looping after the descent
          rw [incLoopGo_succ, if_pos hdlt, if_neg hTV, hstep]
          have hskip' : dp - 1 = 0 → presentB S t W = false := by
            intro h0
            rw [hstep] at hTV
            have h2 := targetValid_depth0 S t
              ⟨stk.set (dp - 1) (childAt (stk.getD dp .empty) (tetradeValue bys dp)),
               dp - 1, bys⟩ W hS (by show dp - 1 = 0; omega) hb hWlt
              (by
                show (stk.set (dp - 1) (childAt (stk.getD dp .empty)
                  (tetradeValue bys dp))).getD 0 .empty = stackSlot t bys (2 * S) 0
                exact hSI' 0 (by omega) (by omega))
            rw [h2] at hTV
            cases hpb : presentB S t W with
            | false => rfl
            | true => exact absurd hpb hTV
          exact ih _ (dp - 1) bys W hb hWle (by omega)
            (align_mono halign (by omega))
            (⟨fun h => absurd (hiff.mp h) (by omega), fun h => absurd h (by omega)⟩)
            hskip'
            (by rw [List.length_set]; exact hlen)
            hSI' htop' (by omega)
      · -- no live child below: advance the key with `incrQuartet`
        have hstep : incStep (2 * S) (⟨stk, dp, bys⟩ : IterSt V)
            = ⟨stk, dp + (incrQuartet (2 * S) bys dp).2,
               (incrQuartet (2 * S) bys dp).1⟩ := by
          unfold incStep
          rw [if_neg hC]
        have hroom : W + 16 ^ dp ≤ 16 ^ (2 * S) :=
          aligned_room halign
            (Nat.mod_eq_zero_of_dvd (pow_dvd_pow 16 (le_of_lt hdlt))) hWlt
            (by positivity)
        have hQ : incrQuartet (2 * S) bys dp
            = (toBytesLE (S + 1) (W + 16 ^ dp), nuN (W + 16 ^ dp) - dp) := by
          have h1 := @incrQuartet_spec S dp bys hwfb hlenb
            (by omega) (by rw [hbv]; exact halign) (by rw [hbv]; exact hroom)
          rw [hbv] at h1
          exact h1
        have hW'ne : W + 16 ^ dp ≠ 0 := by positivity
        have hal' : (W + 16 ^ dp) % 16 ^ dp = 0 := by
          simp [Nat.add_mod, halign, Nat.mod_self]
        have hnu_ge : dp ≤ nuN (W + 16 ^ dp) := nuN_ge dp _ hal' hW'ne
        have hnu := nuN_div_mod (W + 16 ^ dp) hW'ne
        have hnu_le : nuN (W + 16 ^ dp) ≤ 2 * S := by
          have h1 : 16 ^ nuN (W + 16 ^ dp) ≤ W + 16 ^ dp := pow_nuN_le _ hW'ne
          exact (Nat.pow_le_pow_iff_right (by norm_num)).mp (le_trans h1 hroom)
        have hiff' : W + 16 ^ dp = 16 ^ (2 * S) ↔ nuN (W + 16 ^ dp) = 2 * S := by
          constructor
          · intro h
            rw [h]
            exact nuN_eq_of (2 * S) _ (by simp [Nat.mod_self])
              (by rw [Nat.div_self (by positivity)]; norm_num)
          · intro h
            have h1 := hnu.1
            rw [h] at h1
            have h2 := Nat.le_of_dvd (by omega) (Nat.dvd_of_mod_eq_zero h1)
            omega
        have hgap : ∀ j, W ≤ j → j < W + 16 ^ dp → presentB S t j = false := by
          intro j hj1 hj2
          by_cases hdp0 : dp = 0
          · have h160 : (16 : Nat) ^ dp = 1 := by rw [hdp0, pow_zero]
            have hjW : j = W := by omega
            rw [hjW]
            exact hskip hdp0
          · have hCE : isEmptyT (childAt (stk.getD dp .empty)
                (tetradeValue bys dp)) = true := by
              cases hE : isEmptyT (childAt (stk.getD dp .empty) (tetradeValue bys dp)) with
              | true => rfl
              | false => exact absurd ⟨hdp0, hE⟩ hC
            have hslot : isEmptyT (descendV t W (2 * S - 1) (2 * S - dp)) = true := by
              rw [← hchild]
              exact hCE
            have hq1 := Nat.div_add_mod W (16 ^ dp)
            rw [halign] at hq1
            have hjd : j / 16 ^ dp = W / 16 ^ dp := by
              apply Nat.div_eq_of_lt_le
              · calc W / 16 ^ dp * 16 ^ dp = 16 ^ dp * (W / 16 ^ dp) := Nat.mul_comm _ _
                  _ = W := by omega
                  _ ≤ j := hj1
              · calc j < W + 16 ^ dp := hj2
                  _ = W / 16 ^ dp * 16 ^ dp + 16 ^ dp := by
                      rw [Nat.mul_comm]; omega
                  _ = (W / 16 ^ dp + 1) * 16 ^ dp := by ring
            unfold presentB
            rw [fastFind_slot_empty (le_of_lt hdlt) hslot j hjd]
            rfl
        have hshift : firstGe S t W = firstGe S t (W + 16 ^ dp) :=
          firstGe_gap (16 ^ dp) W (fun j h1 h2 => hgap j h1 h2) hroom
        have hW'256 : W + 16 ^ dp < 256 ^ (S + 1) :=
          lt_of_le_of_lt (pow16_two_mul S ▸ hroom)
            (Nat.pow_lt_pow_right (by norm_num) (by omega))
        have hdivW : W / 16 ^ (nuN (W + 16 ^ dp) + 1)
            = (W + 16 ^ dp) / 16 ^ (nuN (W + 16 ^ dp) + 1) := by
          have h1 := div_sub_pow_eq (x := W + 16 ^ dp) (d := dp)
            (v := nuN (W + 16 ^ dp)) hnu_ge hnu.1 hnu.2 (by omega)
          rw [Nat.add_sub_cancel] at h1
          exact h1
        have hSI' : ∀ j, nuN (W + 16 ^ dp) ≤ j → j < 2 * S →
            stk.getD j .empty
              = stackSlot t (toBytesLE (S + 1) (W + 16 ^ dp)) (2 * S) j := by
          intro j hj1 hj2
          rw [hSI j (by omega) hj2, hb]
          apply stackSlot_congr t _ _ (bytesWF_toBytesLE _ _) (bytesWF_toBytesLE _ _)
            _ _ hj2
          rw [bval_toBytesLE _ _ hW256, bval_toBytesLE _ _ hW'256]
          exact div_pow_congr hdivW (by omega)
        have hsub : 16 ^ (2 * S) - W = (16 ^ (2 * S) - (W + 16 ^ dp)) + 16 ^ dp := by
          omega
        have hmul : (16 ^ (2 * S) - W) * (2 * S + 1)
            = (16 ^ (2 * S) - (W + 16 ^ dp)) * (2 * S + 1) + 16 ^ dp * (2 * S + 1) := by
          rw [hsub, Nat.add_mul]
        have h16dp : 2 * S + 1 ≤ 16 ^ dp * (2 * S + 1) :=
          Nat.le_mul_of_pos_left _ (by positivity)
        have hgas' : (16 ^ (2 * S) - (W + 16 ^ dp)) * (2 * S + 1)
            + nuN (W + 16 ^ dp) + 1 ≤ gas := by omega
        by_cases hTV : targetValid (incStep (2 * S) (⟨stk, dp, bys⟩ : IterSt V)) = true
        · -- the freshly incremented key is a hit
          rw [hstep, hQ] at hTV
          have hnu0 : nuN (W + 16 ^ dp) = 0 := by
            by_contra hne0
            rw [targetValid_of_depth_ne
              (s := ⟨stk, dp + (nuN (W + 16 ^ dp) - dp), toBytesLE (S + 1) (W + 16 ^ dp)⟩)
              (by show dp + (nuN (W + 16 ^ dp) - dp) ≠ 0; omega)] at hTV
            exact absurd hTV (by simp)
          have hW'lt : W + 16 ^ dp < 16 ^ (2 * S) := by
            rcases lt_or_eq_of_le hroom with h | h
            · exact h
            · exact absurd (hiff'.mp h) (by omega)
          have hpres' : presentB S t (W + 16 ^ dp) = true := by
            have h2 := targetValid_depth0 S t
              ⟨stk, dp + (nuN (W + 16 ^ dp) - dp), toBytesLE (S + 1) (W + 16 ^ dp)⟩
              (W + 16 ^ dp) hS (by show dp + (nuN (W + 16 ^ dp) - dp) = 0; omega) rfl hW'lt
              (by
                show stk.getD 0 .empty
                  = stackSlot t (toBytesLE (S + 1) (W + 16 ^ dp)) (2 * S) 0
                exact hSI' 0 (by omega) (by omega))
            rw [h2] at hTV
            exact hTV
          have hsome : firstGe S t W = some (W + 16 ^ dp) := by
            rw [hshift]
            exact firstGe_of_present hpres' hW'lt
          constructor
          · intro K hK
            rw [hsome] at hK
            injection hK with hK
            subst hK
            rw [incLoopGo_succ, if_pos hdlt, if_pos (by rw [hstep, hQ]; exact hTV),
              hstep, hQ]
            have hstk : stk = mkStack t (toBytesLE (S + 1) (W + 16 ^ dp)) (2 * S) := by
              apply eq_mkStack_of_getD t _ (2 * S) _ hlen
              intro j hj
              exact hSI' j (by omega) hj
            unfold foundIter
            rw [← hstk, hnu0]
            have hdp0 : dp = 0 := by omega
            rw [hdp0]
            rfl
          · intro h
            rw [hsome] at h
            exact absurd h (by simp)
        · -- keep looping after the increment
          rw [incLoopGo_succ, if_pos hdlt, if_neg hTV, hstep, hQ]
          have hdnu : dp + (nuN (W + 16 ^ dp) - dp) = nuN (W + 16 ^ dp) := by omega
          rw [hdnu, hshift]
          have hskip' : nuN (W + 16 ^ dp) = 0 → presentB S t (W + 16 ^ dp) = false := by
            intro h0
            rw [hstep, hQ] at hTV
            have hW'lt : W + 16 ^ dp < 16 ^ (2 * S) := by
              rcases lt_or_eq_of_le hroom with h | h
              · exact h
              · exact absurd (hiff'.mp h) (by omega)
            have h2 := targetValid_depth0 S t
              ⟨stk, dp + (nuN (W + 16 ^ dp) - dp), toBytesLE (S + 1) (W + 16 ^ dp)⟩
              (W + 16 ^ dp) hS (by show dp + (nuN (W + 16 ^ dp) - dp) = 0; omega) rfl hW'lt
              (by
                show stk.getD 0 .empty
                  = stackSlot t (toBytesLE (S + 1) (W + 16 ^ dp)) (2 * S) 0
                exact hSI' 0 (by omega) (by omega))
            rw [h2] at hTV
            cases hpb : presentB S t (W + 16 ^ dp) with
            | false => rfl
            | true => exact absurd hpb hTV
          exact ih stk (nuN (W + 16 ^ dp)) (toBytesLE (S + 1) (W + 16 ^ dp))
            (W + 16 ^ dp) rfl hroom hnu_le hnu.1 hiff' hskip' hlen hSI' htop hgas'

section IncrementSpec

variable {V : Type}

theorem stackSlot_top (t : Trie V) (bytes : List Nat) (D : Nat) :
    stackSlot t bytes D (D - 1) = t := by
  unfold stackSlot
  rw [Nat.sub_self]
  rfl

theorem endBytes_getD (S : Nat) : (endBytes S).getD S 0 = 1 := by
  unfold endBytes
  rw [List.getD_append_right _ _ _ _ (by simp), List.length_replicate, Nat.sub_self]
  rfl

theorem incLoop_eq (D : Nat) (st : IterSt V) :
    incLoop D st = incLoopGo D ((D + 2) * 16 ^ (D + 2)) st := rfl

/-- The loop measure always fits in the gas budget of `incLoop`, with one
unit of slack for peeling a first iteration. -/
theorem measure_le (S W d : Nat) (hd : d ≤ 2 * S) :
    (16 ^ (2 * S) - W) * (2 * S + 1) + d + 1 + 1 ≤ (2 * S + 2) * 16 ^ (2 * S + 2) := by
  have h1 : (16 ^ (2 * S) - W) * (2 * S + 1) ≤ 16 ^ (2 * S) * (2 * S + 1) :=
    Nat.mul_le_mul_right _ (Nat.sub_le _ _)
  have h2 : (16 : Nat) ^ (2 * S) * (2 * S + 1) ≤ 16 ^ (2 * S + 2) * (2 * S + 1) :=
    Nat.mul_le_mul_right _ (Nat.pow_le_pow_right (by norm_num) (by omega))
  have h3 : 2 * S + 3 ≤ 16 ^ (2 * S + 2) := by
    have h4 : 2 * S + 3 < 2 ^ (2 * S + 3) := Nat.lt_two_pow _
    have h5 : (2 : Nat) ^ (2 * S + 3) ≤ 2 ^ (4 * (2 * S + 2)) :=
      Nat.pow_le_pow_right (by norm_num) (by omega)
    have h6 : (2 : Nat) ^ (4 * (2 * S + 2)) = 16 ^ (2 * S + 2) := by
      rw [show (16 : Nat) = 2 ^ 4 from by norm_num, ← pow_mul]
    omega
  have h7 : (2 * S + 2) * 16 ^ (2 * S + 2)
      = 16 ^ (2 * S + 2) * (2 * S + 1) + 16 ^ (2 * S + 2) := by ring
  omega

theorem increment_of_found (S : Nat) (st res : IterSt V)
    (h1 : incLoop (2 * S) st = res) (h2 : res.depth < 2 * S) :
    increment S st = res := by
  unfold increment
  dsimp only
  rw [h1, if_pos h2]

theorem increment_of_exhaust (S : Nat) (st : IterSt V)
    (hd : (incLoop (2 * S) st).depth = 2 * S)
    (hbys : (incLoop (2 * S) st).bytes = endBytes S) :
    increment S st = { incLoop (2 * S) st with bytes := endBytes S } := by
  unfold increment
  dsimp only
  rw [if_neg (by rw [hd]; exact lt_irrefl _),
    if_neg (by unfold ovfByte; rw [hbys, endBytes_getD]; norm_num)]

/-- `increment` from a consistent pre-step state: the next present key
`≥ W` if any, the past-the-end position otherwise. -/
theorem increment_spec (S : Nat) (hS : 0 < S) (t : Trie V)
    (stk : List (Trie V)) (dp : Nat) (bys : List Nat) (W : Nat)
    (hb : bys = toBytesLE (S + 1) W)
    (hWle : W ≤ 16 ^ (2 * S))
    (hdle : dp ≤ 2 * S)
    (halign : W % 16 ^ dp = 0)
    (hiff : W = 16 ^ (2 * S) ↔ dp = 2 * S)
    (hskip : dp = 0 → presentB S t W = false)
    (hlen : stk.length = 2 * S)
    (hSI : ∀ j, dp ≤ j → j < 2 * S → stk.getD j .empty = stackSlot t bys (2 * S) j)
    (htop : stk.getD (2 * S - 1) .empty = t) :
    (∀ K, firstGe S t W = some K →
        increment S (⟨stk, dp, bys⟩ : IterSt V) = foundIter S t K) ∧
    (firstGe S t W = none →
      (increment S (⟨stk, dp, bys⟩ : IterSt V)).bytes = endBytes S ∧
      (increment S (⟨stk, dp, bys⟩ : IterSt V)).depth = 2 * S ∧
      (increment S (⟨stk, dp, bys⟩ : IterSt V)).stack.length = 2 * S ∧
      (increment S (⟨stk, dp, bys⟩ : IterSt V)).stack.getD (2 * S - 1) .empty = t) := by
  have hspec := incLoopGo_spec S hS t ((2 * S + 2) * 16 ^ (2 * S + 2)) stk dp bys W
    hb hWle hdle halign hiff hskip hlen hSI htop
    (by have := measure_le S W dp hdle; omega)
  constructor
  · intro K hK
    have hfound := hspec.1 K hK
    apply increment_of_found S _ _ (by rw [incLoop_eq]; exact hfound)
    show (foundIter S t K).depth < 2 * S
    show 0 < 2 * S
    omega
  · intro hN
    obtain ⟨hd, hby, hln, htp⟩ := hspec.2 hN
    have hres := increment_of_exhaust S (⟨stk, dp, bys⟩ : IterSt V)
      (by rw [incLoop_eq]; exact hd) (by rw [incLoop_eq]; exact hby)
    rw [hres]
    refine ⟨rfl, ?_, ?_, ?_⟩
    · show (incLoop (2 * S) (⟨stk, dp, bys⟩ : IterSt V)).depth = 2 * S
      rw [incLoop_eq]; exact hd
    · show (incLoop (2 * S) (⟨stk, dp, bys⟩ : IterSt V)).stack.length = 2 * S
      rw [incLoop_eq]; exact hln
    · show (incLoop (2 * S) (⟨stk, dp, bys⟩ : IterSt V)).stack.getD (2 * S - 1) .empty = t
      rw [incLoop_eq]; exact htp

/-- `operator++` from the element with radix key `K`: seek the next present
key strictly above `K`. -/
theorem increment_foundIter (S : Nat) (hS : 0 < S) (t : Trie V) (K : Nat)
    (hK : K < 16 ^ (2 * S)) :
    (∀ K', firstGe S t (K + 1) = some K' →
        increment S (foundIter S t K) = foundIter S t K') ∧
    (firstGe S t (K + 1) = none →
      (increment S (foundIter S t K)).bytes = endBytes S ∧
      (increment S (foundIter S t K)).depth = 2 * S ∧
      (increment S (foundIter S t K)).stack.length = 2 * S ∧
      (increment S (foundIter S t K)).stack.getD (2 * S - 1) .empty = t) := by
  have hK256 : K < 256 ^ (S + 1) :=
    lt_of_lt_of_le (pow16_two_mul S ▸ hK)
      (Nat.pow_le_pow_right (by norm_num) (by omega))
  have hbv : bval (toBytesLE (S + 1) K) = K := bval_toBytesLE _ _ hK256
  have hne1 : K + 1 ≠ 0 := by omega
  have hnu := nuN_div_mod (K + 1) hne1
  have hroom : K + 16 ^ 0 ≤ 16 ^ (2 * S) := by
    rw [pow_zero]; omega
  have hQ : incrQuartet (2 * S) (toBytesLE (S + 1) K) 0
      = (toBytesLE (S + 1) (K + 1), nuN (K + 1)) := by
    have h1 := @incrQuartet_spec S 0 (toBytesLE (S + 1) K)
      (bytesWF_toBytesLE _ _) (length_toBytesLE _ _) (by omega)
      (by rw [hbv, pow_zero, Nat.mod_one]) (by rw [hbv]; exact hroom)
    rw [hbv] at h1
    rw [h1, pow_zero, Nat.sub_zero]
  have hstep : incStep (2 * S) (foundIter S t K)
      = ⟨mkStack t (toBytesLE (S + 1) K) (2 * S), nuN (K + 1), toBytesLE (S + 1) (K + 1)⟩ := by
    unfold incStep
    rw [if_neg (by
      intro hcon
      exact hcon.1 rfl)]
    show (⟨mkStack t (toBytesLE (S + 1) K) (2 * S),
      0 + (incrQuartet (2 * S) (toBytesLE (S + 1) K) 0).2,
      (incrQuartet (2 * S) (toBytesLE (S + 1) K) 0).1⟩ : IterSt V) = _
    rw [hQ]
    show (⟨mkStack t (toBytesLE (S + 1) K) (2 * S), 0 + nuN (K + 1),
      toBytesLE (S + 1) (K + 1)⟩ : IterSt V) = _
    rw [Nat.zero_add]
  have hnu_le : nuN (K + 1) ≤ 2 * S := by
    have h1 : 16 ^ nuN (K + 1) ≤ K + 1 := pow_nuN_le _ hne1
    have h2 : K + 1 ≤ 16 ^ (2 * S) := by omega
    exact (Nat.pow_le_pow_iff_right (by norm_num)).mp (le_trans h1 h2)
  have hiff' : K + 1 = 16 ^ (2 * S) ↔ nuN (K + 1) = 2 * S := by
    constructor
    · intro h
      rw [h]
      exact nuN_eq_of (2 * S) _ (by simp [Nat.mod_self])
        (by rw [Nat.div_self (by positivity)]; norm_num)
    · intro h
      have h1 := hnu.1
      rw [h] at h1
      have h2 := Nat.le_of_dvd (by omega) (Nat.dvd_of_mod_eq_zero h1)
      omega
  have hK1256 : K + 1 < 256 ^ (S + 1) := by
    have : (16 : Nat) ^ (2 * S) < 256 ^ (S + 1) :=
      lt_of_le_of_lt (le_of_eq (pow16_two_mul S))
        (Nat.pow_lt_pow_right (by norm_num) (by omega))
    omega
  have hdivK : K / 16 ^ (nuN (K + 1) + 1) = (K + 1) / 16 ^ (nuN (K + 1) + 1) := by
    have h1 := div_sub_pow_eq (x := K + 1) (d := 0) (v := nuN (K + 1))
      (by omega) hnu.1 hnu.2 (by rw [pow_zero]; omega)
    rw [pow_zero, Nat.add_sub_cancel] at h1
    exact h1
  have hSI' : ∀ j, nuN (K + 1) ≤ j → j < 2 * S →
      (mkStack t (toBytesLE (S + 1) K) (2 * S)).getD j .empty
        = stackSlot t (toBytesLE (S + 1) (K + 1)) (2 * S) j := by
    intro j hj1 hj2
    rw [getD_mkStack t _ _ _ hj2]
    apply stackSlot_congr t _ _ (bytesWF_toBytesLE _ _) (bytesWF_toBytesLE _ _) _ _ hj2
    rw [bval_toBytesLE _ _ hK256, bval_toBytesLE _ _ hK1256]
    exact div_pow_congr hdivK (by omega)
  have htop' : (mkStack t (toBytesLE (S + 1) K) (2 * S)).getD (2 * S - 1) .empty = t := by
    rw [getD_mkStack t _ _ _ (by omega), stackSlot_top]
  have hG : (2 * S + 2) * 16 ^ (2 * S + 2)
      = ((2 * S + 2) * 16 ^ (2 * S + 2) - 1) + 1 := by
    have : 0 < (2 * S + 2) * 16 ^ (2 * S + 2) := by positivity
    omega
  by_cases hTV : targetValid (incStep (2 * S) (foundIter S t K)) = true
  · -- the successor key `K + 1` is itself present
    rw [hstep] at hTV
    have hnu0 : nuN (K + 1) = 0 := by
      by_contra hne0
      rw [targetValid_of_depth_ne
        (s := ⟨mkStack t (toBytesLE (S + 1) K) (2 * S), nuN (K + 1),
          toBytesLE (S + 1) (K + 1)⟩) (by show nuN (K + 1) ≠ 0; omega)] at hTV
      exact absurd hTV (by simp)
    have hK1lt : K + 1 < 16 ^ (2 * S) := by
      rcases lt_or_eq_of_le (show K + 1 ≤ 16 ^ (2 * S) from by omega) with h | h
      · exact h
      · exact absurd (hiff'.mp h) (by omega)
    have hpres' : presentB S t (K + 1) = true := by
      have h2 := targetValid_depth0 S t
        ⟨mkStack t (toBytesLE (S + 1) K) (2 * S), nuN (K + 1), toBytesLE (S + 1) (K + 1)⟩
        (K + 1) hS (by show nuN (K + 1) = 0; omega) rfl hK1lt
        (by
          show (mkStack t (toBytesLE (S + 1) K) (2 * S)).getD 0 .empty
            = stackSlot t (toBytesLE (S + 1) (K + 1)) (2 * S) 0
          exact hSI' 0 (by omega) (by omega))
      rw [h2] at hTV
      exact hTV
    have hsome : firstGe S t (K + 1) = some (K + 1) := firstGe_of_present hpres' hK1lt
    have hloop : incLoop (2 * S) (foundIter S t K) = foundIter S t (K + 1) := by
      rw [incLoop_eq, hG, incLoopGo_succ, if_pos (by show 0 < 2 * S; omega),
        if_pos (show targetValid (incStep (2 * S) (foundIter S t K)) = true from by
          rw [hstep]; exact hTV), hstep]
      unfold foundIter
      have hstk : mkStack t (toBytesLE (S + 1) K) (2 * S)
          = mkStack t (toBytesLE (S + 1) (K + 1)) (2 * S) := by
        apply eq_mkStack_of_getD t _ (2 * S) _ (length_mkStack _ _ _)
        intro j hj
        exact hSI' j (by omega) hj
      rw [hstk, hnu0]
    constructor
    · intro K' hK'
      rw [hsome] at hK'
      injection hK' with hK'
      subst hK'
      exact increment_of_found S _ _ hloop (by show 0 < 2 * S; omega)
    · intro h
      rw [hsome] at h
      exact absurd h (by simp)
  · -- keep seeking from `K + 1`
    have hskip' : nuN (K + 1) = 0 → presentB S t (K + 1) = false := by
      intro h0
      rw [hstep] at hTV
      have hK1lt : K + 1 < 16 ^ (2 * S) := by
        rcases lt_or_eq_of_le (show K + 1 ≤ 16 ^ (2 * S) from by omega) with h | h
        · exact h
        · exact absurd (hiff'.mp h) (by omega)
      have h2 := targetValid_depth0 S t
        ⟨mkStack t (toBytesLE (S + 1) K) (2 * S), nuN (K + 1), toBytesLE (S + 1) (K + 1)⟩
        (K + 1) hS (by show nuN (K + 1) = 0; omega) rfl hK1lt
        (by
          show (mkStack t (toBytesLE (S + 1) K) (2 * S)).getD 0 .empty
            = stackSlot t (toBytesLE (S + 1) (K + 1)) (2 * S) 0
          exact hSI' 0 (by omega) (by omega))
      rw [h2] at hTV
      cases hpb : presentB S t (K + 1) with
      | false => rfl
      | true => exact absurd hpb hTV
    have hspec := incLoopGo_spec S hS t ((2 * S + 2) * 16 ^ (2 * S + 2) - 1)
      (mkStack t (toBytesLE (S + 1) K) (2 * S)) (nuN (K + 1))
      (toBytesLE (S + 1) (K + 1)) (K + 1) rfl (by omega) hnu_le hnu.1 hiff'
      hskip' (length_mkStack _ _ _) hSI' htop'
      (by have := measure_le S (K + 1) (nuN (K + 1)) hnu_le; omega)
    have hloop : incLoop (2 * S) (foundIter S t K)
        = incLoopGo (2 * S) ((2 * S + 2) * 16 ^ (2 * S + 2) - 1)
          (⟨mkStack t (toBytesLE (S + 1) K) (2 * S), nuN (K + 1),
            toBytesLE (S + 1) (K + 1)⟩ : IterSt V) := by
      rw [incLoop_eq, hG, incLoopGo_succ, if_pos (by show 0 < 2 * S; omega),
        if_neg (by exact hTV), hstep]
      congr 1
    constructor
    · intro K' hK'
      have hfound := hspec.1 K' hK'
      apply increment_of_found S _ _ (by rw [hloop]; exact hfound)
      show (foundIter S t K').depth < 2 * S
      show 0 < 2 * S
      omega
    · intro hN
      obtain ⟨hd, hby, hln, htp⟩ := hspec.2 hN
      have hres := increment_of_exhaust S (foundIter S t K)
        (by rw [hloop]; exact hd) (by rw [hloop]; exact hby)
      rw [hres]
      refine ⟨rfl, ?_, ?_, ?_⟩
      · show (incLoop (2 * S) (foundIter S t K)).depth = 2 * S
        rw [hloop]; exact hd
      · show (incLoop (2 * S) (foundIter S t K)).stack.length = 2 * S
        rw [hloop]; exact hln
      · show (incLoop (2 * S) (foundIter S t K)).stack.getD (2 * S - 1) .empty = t
        rw [hloop]; exact htp

theorem initDepthGo_succ (stack : List (Trie V)) (d : Nat) :
    initDepthGo stack (d + 1)
      = if isEmptyT (stack.getD (d + 1) .empty) then d + 1
        else initDepthGo stack d := rfl

theorem initDepthGo_le (stack : List (Trie V)) : ∀ m, initDepthGo stack m ≤ m := by
  intro m
  induction m with
  | zero => exact le_refl _
  | succ m ih =>
    rw [initDepthGo_succ]
    by_cases h : isEmptyT (stack.getD (m + 1) .empty) = true
    · rw [if_pos h]
    · rw [if_neg h]
      omega

theorem initDepthGo_empty (stack : List (Trie V)) :
    ∀ m, 0 < initDepthGo stack m →
      isEmptyT (stack.getD (initDepthGo stack m) .empty) = true := by
  intro m
  induction m with
  | zero => intro h; exact absurd h (by simp [initDepthGo])
  | succ m ih =>
    intro hpos
    rw [initDepthGo_succ]
    by_cases h : isEmptyT (stack.getD (m + 1) .empty) = true
    · rw [if_pos h]
      exact h
    · rw [if_neg h]
      apply ih
      rw [initDepthGo_succ, if_neg h] at hpos
      exact hpos

/-- `begin()`: the element with the least present radix key, or the
past-the-end position on an empty container. -/
theorem beginIter_spec (S : Nat) (hS : 0 < S) (t : Trie V) :
    (∀ K, firstGe S t 0 = some K → beginIter S t = foundIter S t K) ∧
    (firstGe S t 0 = none → (beginIter S t).bytes = endBytes S) := by
  have hb0 : toBytesLE S 0 ++ [0] = toBytesLE (S + 1) 0 :=
    toBytesLE_append_zero S 0 (by positivity)
  have hlen0 : (mkStack t (toBytesLE S 0 ++ [0]) (2 * S)).length = 2 * S :=
    length_mkStack _ _ _
  have hSI0 : ∀ j, j < 2 * S →
      (mkStack t (toBytesLE S 0 ++ [0]) (2 * S)).getD j .empty
        = stackSlot t (toBytesLE S 0 ++ [0]) (2 * S) j :=
    fun j hj => getD_mkStack _ _ _ _ hj
  have htop0 : (mkStack t (toBytesLE S 0 ++ [0]) (2 * S)).getD (2 * S - 1) .empty
      = t := by
    rw [hSI0 _ (by omega), stackSlot_top]
  have hdle : initDepthGo (mkStack t (toBytesLE S 0 ++ [0]) (2 * S)) (2 * S - 1)
      ≤ 2 * S - 1 := initDepthGo_le _ _
  have hbeg : beginIter S t
      = (if targetValid ⟨mkStack t (toBytesLE S 0 ++ [0]) (2 * S),
            initDepthGo (mkStack t (toBytesLE S 0 ++ [0]) (2 * S)) (2 * S - 1),
            toBytesLE S 0 ++ [0]⟩ then
          (⟨mkStack t (toBytesLE S 0 ++ [0]) (2 * S),
            initDepthGo (mkStack t (toBytesLE S 0 ++ [0]) (2 * S)) (2 * S - 1),
            toBytesLE S 0 ++ [0]⟩ : IterSt V)
        else increment S ⟨mkStack t (toBytesLE S 0 ++ [0]) (2 * S),
            initDepthGo (mkStack t (toBytesLE S 0 ++ [0]) (2 * S)) (2 * S - 1),
            toBytesLE S 0 ++ [0]⟩) := by
    show iterFromKey S t 0 true = _
    unfold iterFromKey
    by_cases hTV : targetValid ⟨mkStack t (toBytesLE S 0 ++ [0]) (2 * S),
        initDepthGo (mkStack t (toBytesLE S 0 ++ [0]) (2 * S)) (2 * S - 1),
        toBytesLE S 0 ++ [0]⟩ = true
    · rw [if_pos hTV, if_pos hTV]
    · rw [if_neg hTV, if_neg hTV, if_pos rfl]
  by_cases hTV : targetValid ⟨mkStack t (toBytesLE S 0 ++ [0]) (2 * S),
      initDepthGo (mkStack t (toBytesLE S 0 ++ [0]) (2 * S)) (2 * S - 1),
      toBytesLE S 0 ++ [0]⟩ = true
  · -- radix key 0 is itself present
    have hd0 : initDepthGo (mkStack t (toBytesLE S 0 ++ [0]) (2 * S)) (2 * S - 1) = 0 := by
      by_contra hne0
      rw [targetValid_of_depth_ne (by exact hne0)] at hTV
      exact absurd hTV (by simp)
    have hpres : presentB S t 0 = true := by
      have h2 := targetValid_depth0 S t
        ⟨mkStack t (toBytesLE S 0 ++ [0]) (2 * S),
         initDepthGo (mkStack t (toBytesLE S 0 ++ [0]) (2 * S)) (2 * S - 1),
         toBytesLE S 0 ++ [0]⟩ 0 hS hd0 hb0 (by positivity)
        (by
          show (mkStack t (toBytesLE S 0 ++ [0]) (2 * S)).getD 0 .empty
            = stackSlot t (toBytesLE S 0 ++ [0]) (2 * S) 0
          exact hSI0 0 (by omega))
      rw [h2] at hTV
      exact hTV
    have hsome : firstGe S t 0 = some 0 := firstGe_of_present hpres (by positivity)
    constructor
    · intro K hK
      rw [hsome] at hK
      injection hK with hK
      subst hK
      rw [hbeg, if_pos hTV]
      unfold foundIter
      have hstk : mkStack t (toBytesLE S 0 ++ [0]) (2 * S)
          = mkStack t (toBytesLE (S + 1) 0) (2 * S) := by rw [hb0]
      rw [hd0, hstk, hb0]
    · intro h
      rw [hsome] at h
      exact absurd h (by simp)
  · -- seek the first present key from 0
    have hskip : initDepthGo (mkStack t (toBytesLE S 0 ++ [0]) (2 * S)) (2 * S - 1) = 0 →
        presentB S t 0 = false := by
      intro hd0
      have h2 := targetValid_depth0 S t
        ⟨mkStack t (toBytesLE S 0 ++ [0]) (2 * S),
         initDepthGo (mkStack t (toBytesLE S 0 ++ [0]) (2 * S)) (2 * S - 1),
         toBytesLE S 0 ++ [0]⟩ 0 hS hd0 hb0 (by positivity)
        (by
          show (mkStack t (toBytesLE S 0 ++ [0]) (2 * S)).getD 0 .empty
            = stackSlot t (toBytesLE S 0 ++ [0]) (2 * S) 0
          exact hSI0 0 (by omega))
      rw [h2] at hTV
      cases hpb : presentB S t 0 with
      | false => rfl
      | true => exact absurd hpb hTV
    have hinc := increment_spec S hS t (mkStack t (toBytesLE S 0 ++ [0]) (2 * S))
      (initDepthGo (mkStack t (toBytesLE S 0 ++ [0]) (2 * S)) (2 * S - 1))
      (toBytesLE S 0 ++ [0]) 0 hb0 (by positivity) (by omega)
      (Nat.zero_mod _)
      (⟨fun h => absurd h.symm (by positivity), fun h => absurd h (by omega)⟩)
      hskip hlen0 (fun j _ hj => hSI0 j hj) htop0
    constructor
    · intro K hK
      rw [hbeg, if_neg hTV]
      exact hinc.1 K hK
    · intro hN
      rw [hbeg, if_neg hTV]
      exact (hinc.2 hN).1

end IncrementSpec

section TraceFwd

variable {V : Type}

/-- The ascending list of present radix keys `≥ K` (specification side). -/
def keysGe (S : Nat) (t : Trie V) (K : Nat) : List Nat :=
  (List.range' K (16 ^ (2 * S) - K)).filter (presentB S t)

theorem keysGe_nil {S K : Nat} (t : Trie V) (h : 16 ^ (2 * S) ≤ K) :
    keysGe S t K = [] := by
  unfold keysGe
  rw [show 16 ^ (2 * S) - K = 0 from by omega]
  rfl

theorem keysGe_cons {S K : Nat} {t : Trie V} (h : K < 16 ^ (2 * S))
    (hp : presentB S t K = true) : keysGe S t K = K :: keysGe S t (K + 1) := by
  unfold keysGe
  rw [show 16 ^ (2 * S) - K = (16 ^ (2 * S) - (K + 1)) + 1 from by omega,
    List.range'_succ, List.filter_cons, if_pos (by rw [hp])]

theorem keysGe_skip {S K : Nat} {t : Trie V} (h : K < 16 ^ (2 * S))
    (hp : presentB S t K = false) : keysGe S t K = keysGe S t (K + 1) := by
  unfold keysGe
  rw [show 16 ^ (2 * S) - K = (16 ^ (2 * S) - (K + 1)) + 1 from by omega,
    List.range'_succ, List.filter_cons, if_neg (by rw [hp]; simp)]

theorem self_mem_keysGe {S K : Nat} {t : Trie V} (h : K < 16 ^ (2 * S))
    (hp : presentB S t K = true) : K ∈ keysGe S t K := by
  unfold keysGe
  rw [List.mem_filter]
  exact ⟨List.mem_range'_1.mpr ⟨le_refl _, by omega⟩, hp⟩

theorem keysGe_of_firstGe_none {S : Nat} {t : Trie V} :
    ∀ (n K : Nat), 16 ^ (2 * S) - K ≤ n → firstGe S t K = none →
      keysGe S t K = [] := by
  intro n
  induction n with
  | zero => intro K hK _; exact keysGe_nil t (by omega)
  | succ n ih =>
    intro K hK hfg
    by_cases h : 16 ^ (2 * S) ≤ K
    · exact keysGe_nil t h
    · have hKlt : K < 16 ^ (2 * S) := by omega
      have hp : presentB S t K = false := by
        cases hpb : presentB S t K with
        | false => rfl
        | true =>
          rw [firstGe_of_present hpb hKlt] at hfg
          exact absurd hfg (by simp)
      have hshift : firstGe S t K = firstGe S t (K + 1) :=
        firstGe_gap 1 K (fun j h1 h2 => by rw [show j = K from by omega]; exact hp)
          (by omega)
      rw [keysGe_skip hKlt hp]
      exact ih (K + 1) (by omega) (by rw [← hshift]; exact hfg)

theorem keysGe_of_firstGe_some {S : Nat} {t : Trie V} :
    ∀ (n K K' : Nat), 16 ^ (2 * S) - K ≤ n → firstGe S t K = some K' →
      presentB S t K' = true ∧ K ≤ K' ∧ K' < 16 ^ (2 * S) ∧
        keysGe S t K = K' :: keysGe S t (K' + 1) := by
  intro n
  induction n with
  | zero =>
    intro K K' hK hfg
    rw [firstGe_none t (by omega)] at hfg
    exact absurd hfg (by simp)
  | succ n ih =>
    intro K K' hK hfg
    by_cases h : 16 ^ (2 * S) ≤ K
    · rw [firstGe_none t h] at hfg
      exact absurd hfg (by simp)
    · have hKlt : K < 16 ^ (2 * S) := by omega
      by_cases hp : presentB S t K = true
      · rw [firstGe_of_present hp hKlt] at hfg
        injection hfg with hfg
        subst hfg
        exact ⟨hp, le_refl _, hKlt, keysGe_cons hKlt hp⟩
      · have hp' : presentB S t K = false := by
          cases hpb : presentB S t K with
          | false => rfl
          | true => exact absurd hpb hp
        have hshift : firstGe S t K = firstGe S t (K + 1) :=
          firstGe_gap 1 K (fun j h1 h2 => by rw [show j = K from by omega]; exact hp')
            (by omega)
        obtain ⟨h1, h2, h3, h4⟩ := ih (K + 1) K' (by omega)
          (by rw [← hshift]; exact hfg)
        exact ⟨h1, by omega, h3, by rw [keysGe_skip hKlt hp', h4]⟩

theorem traceFwd_succ (S fuel : Nat) (st : IterSt V) :
    traceFwd S (fuel + 1) st
      = if st.bytes = endBytes S then []
        else keyOfBytes S st.bytes :: traceFwd S fuel (increment S st) := rfl

theorem traceFwd_endBytes {S : Nat} (fuel : Nat) {st : IterSt V}
    (h : st.bytes = endBytes S) : traceFwd S fuel st = [] := by
  cases fuel with
  | zero => rfl
  | succ fuel => rw [traceFwd_succ, if_pos h]

theorem toBytesLE_take : ∀ (S x : Nat), (toBytesLE (S + 1) x).take S = toBytesLE S x := by
  intro S
  induction S with
  | zero => intro x; rfl
  | succ S ih =>
    intro x
    show (x % 256 :: toBytesLE (S + 1) (x / 256)).take (S + 1)
      = x % 256 :: toBytesLE S (x / 256)
    rw [List.take_succ_cons, ih]

theorem keyOfBytes_toBytesLE {S K : Nat} (h : K < 16 ^ (2 * S)) :
    keyOfBytes S (toBytesLE (S + 1) K) = K := by
  unfold keyOfBytes
  rw [toBytesLE_take]
  exact bval_toBytesLE _ _ (by rw [← pow16_two_mul]; exact h)

theorem foundIter_bytes_ne {S K : Nat} (h : K < 16 ^ (2 * S)) :
    toBytesLE (S + 1) K ≠ endBytes S := by
  intro hc
  rw [← endBytes_eq] at hc
  have h1 : bval (toBytesLE (S + 1) K) = K :=
    bval_toBytesLE _ _ (lt_of_lt_of_le (pow16_two_mul S ▸ h)
      (Nat.pow_le_pow_right (by norm_num) (by omega)))
  have h2 : bval (toBytesLE (S + 1) (16 ^ (2 * S))) = 16 ^ (2 * S) :=
    bval_toBytesLE _ _ (by
      rw [pow16_two_mul]
      exact Nat.pow_lt_pow_right (by norm_num) (by omega))
  rw [hc, h2] at h1
  omega

/-- A forward traversal started on the element with radix key `K` collects
exactly the present radix keys `≥ K`, in ascending order. -/
theorem traceFwd_foundIter {S : Nat} (hS : 0 < S) (t : Trie V) :
    ∀ (fuel K : Nat), presentB S t K = true → K < 16 ^ (2 * S) →
      (keysGe S t K).length ≤ fuel →
      traceFwd S fuel (foundIter S t K) = keysGe S t K := by
  intro fuel
  induction fuel with
  | zero =>
    intro K hp hK hlen
    have hmem := self_mem_keysGe hK hp
    have := List.length_pos.mpr (List.ne_nil_of_mem hmem)
    omega
  | succ fuel ih =>
    intro K hp hK hlen
    rw [traceFwd_succ]
    rw [if_neg (by show ¬(toBytesLE (S + 1) K = endBytes S); exact foundIter_bytes_ne hK)]
    have hkey : keyOfBytes S (foundIter S t K).bytes = K := keyOfBytes_toBytesLE hK
    rw [show keyOfBytes S (foundIter S t K).bytes = K from hkey]
    have hcons : keysGe S t K = K :: keysGe S t (K + 1) := keysGe_cons hK hp
    cases hfg : firstGe S t (K + 1) with
    | none =>
      have hend := ((increment_foundIter S hS t K hK).2 hfg).1
      rw [traceFwd_endBytes fuel hend, hcons,
        keysGe_of_firstGe_none (16 ^ (2 * S)) (K + 1) (by omega) hfg]
    | some K' =>
      have hstep := (increment_foundIter S hS t K hK).1 K' hfg
      obtain ⟨h1, h2, h3, h4⟩ :=
        keysGe_of_firstGe_some (16 ^ (2 * S)) (K + 1) K' (by omega) hfg
      have hK'eq : keysGe S t K' = keysGe S t (K + 1) := by
        rw [keysGe_cons h3 h1, ← h4]
      have hlen' : (keysGe S t K').length ≤ fuel := by
        rw [hK'eq]
        have : (keysGe S t K).length = (keysGe S t (K + 1)).length + 1 := by
          rw [hcons]; rfl
        omega
      rw [hstep, ih K' h1 h3 hlen', hK'eq, hcons]

/-- A full forward traversal from `begin()` collects exactly the present
radix keys in ascending order. -/
theorem traceFwd_begin {S : Nat} (hS : 0 < S) (t : Trie V) (fuel : Nat)
    (hlen : (keysGe S t 0).length ≤ fuel) :
    traceFwd S fuel (beginIter S t) = keysGe S t 0 := by
  cases hfg : firstGe S t 0 with
  | none =>
    have hend := (beginIter_spec S hS t).2 hfg
    rw [traceFwd_endBytes fuel hend,
      keysGe_of_firstGe_none (16 ^ (2 * S)) 0 (Nat.sub_le _ _) hfg]
  | some K =>
    have hbeg := (beginIter_spec S hS t).1 K hfg
    obtain ⟨h1, h2, h3, h4⟩ :=
      keysGe_of_firstGe_some (16 ^ (2 * S)) 0 K (Nat.sub_le _ _) hfg
    have hKeq : keysGe S t K = keysGe S t 0 := by
      rw [keysGe_cons h3 h1, ← h4]
    rw [hbeg, traceFwd_foundIter hS t fuel K h1 h3 (by rw [hKeq]; exact hlen), hKeq]

end TraceFwd

/-! ### The decrement mirror -/

section DecLoop

variable {V : Type}

theorem alignF_mono {a i j : Nat} (h : a % 16 ^ i = 16 ^ i - 1) (hij : j ≤ i) :
    a % 16 ^ j = 16 ^ j - 1 := by
  have hdvd : (16 : Nat) ^ j ∣ 16 ^ i := pow_dvd_pow 16 hij
  have h1 : a % 16 ^ j = (a % 16 ^ i) % 16 ^ j := (Nat.mod_mod_of_dvd a hdvd).symm
  rw [h1, h]
  obtain ⟨E, hE⟩ := hdvd
  have h2 : (1 : Nat) ≤ 16 ^ i := Nat.one_le_pow _ _ (by norm_num)
  have h3 : (1 : Nat) ≤ 16 ^ j := Nat.one_le_pow _ _ (by norm_num)
  obtain ⟨E', hE'⟩ : ∃ E', E = E' + 1 := by
    refine ⟨E - 1, ?_⟩
    rcases Nat.eq_zero_or_pos E with h0 | hpos
    · rw [h0, Nat.mul_zero] at hE
      omega
    · omega
  have hexp : (16 : Nat) ^ i - 1 = 16 ^ j * E' + (16 ^ j - 1) := by
    have h4 : (16 : Nat) ^ j * (E' + 1) = 16 ^ j * E' + 16 ^ j := by ring
    rw [hE, hE']
    omega
  rw [hexp, Nat.mul_add_mod, Nat.mod_eq_of_lt (by omega)]

theorem sub_pow_mod {d W : Nat} (h : 16 ^ d ≤ W) :
    (W - 16 ^ d) % 16 ^ d = W % 16 ^ d := by
  conv_rhs => rw [show W = (W - 16 ^ d) + 16 ^ d from by omega]
  rw [Nat.add_mod_right]

/-- A borrow of `16 ^ d` from a value whose trailing-`F`-nibble count is
`ν ≥ d` does not change the digits above `ν`. -/
theorem div_add_pow_eq {x d v : Nat} (hd : d ≤ v) (hv : x % 16 ^ v = 16 ^ v - 1)
    (hnib : x / 16 ^ v % 16 ≠ 15) :
    (x + 16 ^ d) / 16 ^ (v + 1) = x / 16 ^ (v + 1) := by
  obtain ⟨m, hm15, hxeq⟩ :
      ∃ m, m ≤ 14 ∧
        x = 16 ^ (v + 1) * (x / 16 ^ (v + 1)) + (16 ^ v * m + (16 ^ v - 1)) := by
    refine ⟨x / 16 ^ v % 16, ?_, ?_⟩
    · have := Nat.mod_lt (x / 16 ^ v) (show (0 : Nat) < 16 from by norm_num)
      omega
    · have h1 := Nat.div_add_mod x (16 ^ (v + 1))
      have h2 : x % 16 ^ (v + 1) = x % 16 ^ v + 16 ^ v * (x / 16 ^ v % 16) := by
        rw [pow_succ]
        exact Nat.mod_mul
      rw [hv] at h2
      omega
  have h3 : (1 : Nat) ≤ 16 ^ v := Nat.one_le_pow _ _ (by norm_num)
  have hdv : 16 ^ d ≤ 16 ^ v := Nat.pow_le_pow_right (by norm_num) hd
  have hQ : (16 : Nat) ^ (v + 1) = 16 ^ v * 16 := pow_succ 16 v
  have hm14 : 16 ^ v * m ≤ 16 ^ v * 14 := Nat.mul_le_mul_left _ hm15
  have hupper : 16 ^ v * m + (16 ^ v - 1) + 16 ^ d < 16 ^ (v + 1) := by omega
  have heq : x + 16 ^ d
      = (16 ^ v * m + (16 ^ v - 1) + 16 ^ d)
        + 16 ^ (v + 1) * (x / 16 ^ (v + 1)) := by
    nth_rewrite 1 [hxeq]
    rw [Nat.add_comm (16 ^ (v + 1) * (x / 16 ^ (v + 1)))
        (16 ^ v * m + (16 ^ v - 1)),
      Nat.add_right_comm (16 ^ v * m + (16 ^ v - 1))
        (16 ^ (v + 1) * (x / 16 ^ (v + 1))) (16 ^ d)]
  rw [heq, Nat.add_mul_div_left _ _ (by positivity), Nat.div_eq_of_lt hupper,
    Nat.zero_add]

theorem lastLe_none_of_absent {S : Nat} {t : Trie V} {W : Nat}
    (h : ∀ j, j ≤ W → presentB S t j = false) : lastLe S t W = none := by
  have h1 : lastLe S t W = lastLe S t 0 := by
    have h2 := lastLe_gap W W (fun j hj1 hj2 => h j hj2) (le_refl W)
    rw [Nat.sub_self] at h2
    exact h2
  rw [h1]
  exact lastLe_zero_absent (h 0 (by omega))

/-- Correctness of the `decrement` seek loop: started from a consistent
pre-step state whose key value `W` is not itself an unvisited hit, the loop
stops at the last present key `≤ W` (as computed by `lastLe`), or wraps the
whole key buffer to `0xFF` bytes with the depth cursor past every level. -/
theorem decLoopGo_spec {V : Type} (S : Nat) (hS : 0 < S) (t : Trie V) :
    ∀ (gas : Nat) (stk : List (Trie V)) (dp : Nat) (bys : List Nat) (W : Nat),
      bys = toBytesLE (S + 1) W →
      W < 16 ^ (2 * S) →
      dp < 2 * S →
      W % 16 ^ dp = 16 ^ dp - 1 →
      (dp = 0 → presentB S t W = false) →
      stk.length = 2 * S →
      (∀ j, dp ≤ j → j < 2 * S → stk.getD j .empty = stackSlot t bys (2 * S) j) →
      W * (2 * S + 1) + dp + 2 ≤ gas →
      ((∀ K, lastLe S t W = some K →
          decLoopGo (2 * S) gas ⟨stk, dp, bys⟩ = foundIter S t K) ∧
       (lastLe S t W = none →
         (decLoopGo (2 * S) gas ⟨stk, dp, bys⟩).depth = 2 * S + 2 ∧
         (decLoopGo (2 * S) gas ⟨stk, dp, bys⟩).bytes
           = toBytesLE (S + 1) (16 ^ (2 * S + 2) - 1))) := by
  intro gas
  induction gas with
  | zero =>
    intro stk dp bys W hb hWlt hdlt halign hskip hlen hSI hgas
    exact absurd hgas (by omega)
  | succ gas ih =>
    intro stk dp bys W hb hWlt hdlt halign hskip hlen hSI hgas
    have hwfb : bytesWF bys := hb ▸ bytesWF_toBytesLE _ _
    have hlenb : bys.length = S + 1 := by rw [hb]; exact length_toBytesLE _ _
    have hW256 : W < 256 ^ (S + 1) :=
      lt_of_lt_of_le (pow16_two_mul S ▸ hWlt)
        (Nat.pow_le_pow_right (by norm_num) (by omega))
    have hbv : bval bys = W := by rw [hb]; exact bval_toBytesLE _ _ hW256
    have hts : stk.getD dp .empty = stackSlot t bys (2 * S) dp :=
      hSI dp (le_refl _) hdlt
    have htetra : tetradeValue bys dp = tetKey W dp := by
      rw [tetradeValue_eq_tetKey bys hwfb, hbv]
    have hchild : childAt (stk.getD dp .empty) (tetradeValue bys dp)
        = descendV t W (2 * S - 1) (2 * S - dp) := by
      have h1 := childAt_stackSlot t bys hwfb (2 * S) dp hdlt
      rw [hbv] at h1
      rw [hts, htetra, h1]
    by_cases hC : dp ≠ 0 ∧
        isEmptyT (childAt (stk.getD dp .empty) (tetradeValue bys dp)) = false
    · -- descend into the live child
      obtain ⟨hd0, hne⟩ := hC
      have hstep : decStep (2 * S) (⟨stk, dp, bys⟩ : IterSt V)
          = ⟨stk.set (dp - 1) (childAt (stk.getD dp .empty) (tetradeValue bys dp)),
             dp - 1, bys⟩ := by
        unfold decStep
        rw [if_pos ⟨hd0, hne⟩]
      have hSI' : ∀ j, dp - 1 ≤ j → j < 2 * S →
          (stk.set (dp - 1) (childAt (stk.getD dp .empty) (tetradeValue bys dp))).getD
            j .empty = stackSlot t bys (2 * S) j := by
        intro j hj1 hj2
        by_cases hjeq : j = dp - 1
        · subst hjeq
          rw [getD_set_self _ _ _ _ (by rw [hlen]; omega), hchild,
            stackSlot_eq_descendV t bys hwfb, hbv]
          congr 1
          omega
        · rw [getD_set_ne _ _ _ _ _ (fun h => hjeq h.symm)]
          exact hSI j (by omega) hj2
      by_cases hTV : targetValid (decStep (2 * S) (⟨stk, dp, bys⟩ : IterSt V)) = true
      · -- the descent step landed on a live element: `W` is present
        rw [hstep] at hTV
        have hd1 : dp = 1 := by
          by_contra hne1
          rw [targetValid_of_depth_ne
            (s := ⟨stk.set (dp - 1) (childAt (stk.getD dp .empty)
              (tetradeValue bys dp)), dp - 1, bys⟩) (by show dp - 1 ≠ 0; omega)] at hTV
          exact absurd hTV (by simp)
        have hpres : presentB S t W = true := by
          have h2 := targetValid_depth0 S t
            ⟨stk.set (dp - 1) (childAt (stk.getD dp .empty) (tetradeValue bys dp)),
             dp - 1, bys⟩ W hS (by show dp - 1 = 0; omega) hb hWlt
            (by
              show (stk.set (dp - 1) (childAt (stk.getD dp .empty)
                (tetradeValue bys dp))).getD 0 .empty = stackSlot t bys (2 * S) 0
              exact hSI' 0 (by omega) (by omega))
          rw [h2] at hTV
          exact hTV
        have hsome : lastLe S t W = some W := lastLe_of_present hpres
        constructor
        · intro K hK
          rw [hsome] at hK
          injection hK with hK
          subst hK
          rw [decLoopGo_succ, if_pos hdlt, if_pos (by rw [hstep]; exact hTV), hstep]
          have hstk : stk.set (dp - 1)
              (childAt (stk.getD dp .empty) (tetradeValue bys dp))
              = mkStack t bys (2 * S) := by
            apply eq_mkStack_of_getD t bys (2 * S) _ (by rw [List.length_set]; exact hlen)
            intro j hj
            exact hSI' j (by omega) hj
          unfold foundIter
          rw [hstk, ← hb, hd1]
        · intro h
          rw [hsome] at h
          exact absurd h (by simp)
      · -- keep looping after the descent
        rw [decLoopGo_succ, if_pos hdlt, if_neg hTV, hstep]
        have hskip' : dp - 1 = 0 → presentB S t W = false := by
          intro h0
          rw [hstep] at hTV
          have h2 := targetValid_depth0 S t
            ⟨stk.set (dp - 1) (childAt (stk.getD dp .empty) (tetradeValue bys dp)),
             dp - 1, bys⟩ W hS (by show dp - 1 = 0; omega) hb hWlt
            (by
              show (stk.set (dp - 1) (childAt (stk.getD dp .empty)
                (tetradeValue bys dp))).getD 0 .empty = stackSlot t bys (2 * S) 0
              exact hSI' 0 (by omega) (by omega))
          rw [h2] at hTV
          cases hpb : presentB S t W with
          | false => rfl
          | true => exact absurd hpb hTV
        exact ih _ (dp - 1) bys W hb hWlt (by omega)
          (alignF_mono halign (by omega)) hskip'
          (by rw [List.length_set]; exact hlen)
          hSI' (by omega)
    · -- no live child below: step the key back with `decrQuartet`
      have hstep : decStep (2 * S) (⟨stk, dp, bys⟩ : IterSt V)
          = ⟨stk, dp + (decrQuartet (2 * S) bys dp).2,
             (decrQuartet (2 * S) bys dp).1⟩ := by
        unfold decStep
        rw [if_neg hC]
      have hQpair := @decrQuartet_spec S dp bys hwfb hlenb
        (by omega) (by rw [hbv]; exact halign) (by rw [hbv]; exact hWlt)
      rw [hbv] at hQpair
      -- the gap below `W` covered by this step is certainly absent
      have hgap : ∀ j, W - 16 ^ dp < j → j ≤ W → presentB S t j = false := by
        intro j hj1 hj2
        by_cases hdp0 : dp = 0
        · have h160 : (16 : Nat) ^ dp = 1 := by rw [hdp0, pow_zero]
          have hjW : j = W := by omega
          rw [hjW]
          exact hskip hdp0
        · have hCE : isEmptyT (childAt (stk.getD dp .empty)
              (tetradeValue bys dp)) = true := by
            cases hE : isEmptyT (childAt (stk.getD dp .empty) (tetradeValue bys dp)) with
            | true => rfl
            | false => exact absurd ⟨hdp0, hE⟩ hC
          have hslot : isEmptyT (descendV t W (2 * S - 1) (2 * S - dp)) = true := by
            rw [← hchild]
            exact hCE
          obtain ⟨vv, hvv⟩ : ∃ v, W / 16 ^ dp = v := ⟨_, rfl⟩
          have hCq := Nat.div_add_mod W (16 ^ dp)
          rw [hvv, halign] at hCq
          have hpos16 : (1 : Nat) ≤ 16 ^ dp := Nat.one_le_pow _ _ (by norm_num)
          have e1 : vv * 16 ^ dp = 16 ^ dp * vv := Nat.mul_comm _ _
          have e2 : (vv + 1) * 16 ^ dp = 16 ^ dp * vv + 16 ^ dp := by ring
          have hjd : j / 16 ^ dp = vv :=
            Nat.div_eq_of_lt_le (by omega) (by omega)
          have hjW : j / 16 ^ dp = W / 16 ^ dp := by rw [hjd, hvv]
          unfold presentB
          rw [fastFind_slot_empty (le_of_lt hdlt) hslot j hjW]
          rfl
      by_cases hge : 16 ^ dp ≤ W
      · -- regular step: the key drops to W - 16^dp
        have hQ := hQpair.1 hge
        have hW'mod : (W - 16 ^ dp) % 16 ^ dp = 16 ^ dp - 1 := by
          rw [sub_pow_mod hge, halign]
        have hnu_ge : dp ≤ nuF (W - 16 ^ dp) := nuF_ge dp _ hW'mod
        have hnu := nuF_div_mod (W - 16 ^ dp)
        have hpos16 : (1 : Nat) ≤ 16 ^ dp := Nat.one_le_pow _ _ (by norm_num)
        have hnu_lt : nuF (W - 16 ^ dp) < 2 * S := by
          by_contra hc
          have h2S : 2 * S ≤ nuF (W - 16 ^ dp) := by omega
          have h1 : (W - 16 ^ dp) % 16 ^ (2 * S) = 16 ^ (2 * S) - 1 :=
            alignF_mono hnu.1 h2S
          have h2 : (W - 16 ^ dp) % 16 ^ (2 * S) ≤ W - 16 ^ dp := Nat.mod_le _ _
          have h3 : (1 : Nat) ≤ 16 ^ (2 * S) := Nat.one_le_pow _ _ (by norm_num)
          omega
        have hshift : lastLe S t W = lastLe S t (W - 16 ^ dp) :=
          lastLe_gap (16 ^ dp) W (fun j h1 h2 => hgap j h1 h2) hge
        have hW'256 : W - 16 ^ dp < 256 ^ (S + 1) := by omega
        have hdivW : (W - 16 ^ dp + 16 ^ dp) / 16 ^ (nuF (W - 16 ^ dp) + 1)
            = (W - 16 ^ dp) / 16 ^ (nuF (W - 16 ^ dp) + 1) :=
          div_add_pow_eq hnu_ge hnu.1 hnu.2
        have hdivW' : W / 16 ^ (nuF (W - 16 ^ dp) + 1)
            = (W - 16 ^ dp) / 16 ^ (nuF (W - 16 ^ dp) + 1) := by
          nth_rewrite 1 [show W = W - 16 ^ dp + 16 ^ dp from by omega]
          exact hdivW
        have hSI' : ∀ j, nuF (W - 16 ^ dp) ≤ j → j < 2 * S →
            stk.getD j .empty
              = stackSlot t (toBytesLE (S + 1) (W - 16 ^ dp)) (2 * S) j := by
          intro j hj1 hj2
          rw [hSI j (by omega) hj2, hb]
          apply stackSlot_congr t _ _ (bytesWF_toBytesLE _ _) (bytesWF_toBytesLE _ _)
            _ _ hj2
          rw [bval_toBytesLE _ _ hW256, bval_toBytesLE _ _ hW'256]
          exact div_pow_congr hdivW' (by omega)
        have hWW : W * (2 * S + 1)
            = (W - 16 ^ dp) * (2 * S + 1) + 16 ^ dp * (2 * S + 1) := by
          have h1 := Nat.sub_add_cancel hge
          calc W * (2 * S + 1) = (W - 16 ^ dp + 16 ^ dp) * (2 * S + 1) := by rw [h1]
            _ = (W - 16 ^ dp) * (2 * S + 1) + 16 ^ dp * (2 * S + 1) := by ring
        have h16dp : 2 * S + 1 ≤ 16 ^ dp * (2 * S + 1) :=
          Nat.le_mul_of_pos_left _ (by positivity)
        have hgas' : (W - 16 ^ dp) * (2 * S + 1) + nuF (W - 16 ^ dp) + 2 ≤ gas := by
          omega
        by_cases hTV : targetValid (decStep (2 * S) (⟨stk, dp, bys⟩ : IterSt V)) = true
        · -- the freshly decremented key is a hit
          rw [hstep, hQ] at hTV
          have hnu0 : nuF (W - 16 ^ dp) = 0 := by
            by_contra hne0
            rw [targetValid_of_depth_ne
              (s := ⟨stk, dp + (nuF (W - 16 ^ dp) - dp), toBytesLE (S + 1) (W - 16 ^ dp)⟩)
              (by show dp + (nuF (W - 16 ^ dp) - dp) ≠ 0; omega)] at hTV
            exact absurd hTV (by simp)
          have hpres' : presentB S t (W - 16 ^ dp) = true := by
            have h2 := targetValid_depth0 S t
              ⟨stk, dp + (nuF (W - 16 ^ dp) - dp), toBytesLE (S + 1) (W - 16 ^ dp)⟩
              (W - 16 ^ dp) hS (by show dp + (nuF (W - 16 ^ dp) - dp) = 0; omega) rfl
              (by omega)
              (by
                show stk.getD 0 .empty
                  = stackSlot t (toBytesLE (S + 1) (W - 16 ^ dp)) (2 * S) 0
                exact hSI' 0 (by omega) (by omega))
            rw [h2] at hTV
            exact hTV
          have hsome : lastLe S t W = some (W - 16 ^ dp) := by
            rw [hshift]
            exact lastLe_of_present hpres'
          constructor
          · intro K hK
            rw [hsome] at hK
            injection hK with hK
            subst hK
            rw [decLoopGo_succ, if_pos hdlt, if_pos (by rw [hstep, hQ]; exact hTV),
              hstep, hQ]
            have hstk : stk = mkStack t (toBytesLE (S + 1) (W - 16 ^ dp)) (2 * S) := by
              apply eq_mkStack_of_getD t _ (2 * S) _ hlen
              intro j hj
              exact hSI' j (by omega) hj
            unfold foundIter
            rw [← hstk, hnu0]
            have hdp0 : dp = 0 := by omega
            rw [hdp0]
            rfl
          · intro h
            rw [hsome] at h
            exact absurd h (by simp)
        · -- keep looping after the decrement
          rw [decLoopGo_succ, if_pos hdlt, if_neg hTV, hstep, hQ]
          have hdnu : dp + (nuF (W - 16 ^ dp) - dp) = nuF (W - 16 ^ dp) := by omega
          rw [hdnu, hshift]
          have hskip' : nuF (W - 16 ^ dp) = 0 → presentB S t (W - 16 ^ dp) = false := by
            intro h0
            rw [hstep, hQ] at hTV
            have h2 := targetValid_depth0 S t
              ⟨stk, dp + (nuF (W - 16 ^ dp) - dp), toBytesLE (S + 1) (W - 16 ^ dp)⟩
              (W - 16 ^ dp) hS (by show dp + (nuF (W - 16 ^ dp) - dp) = 0; omega) rfl
              (by omega)
              (by
                show stk.getD 0 .empty
                  = stackSlot t (toBytesLE (S + 1) (W - 16 ^ dp)) (2 * S) 0
                exact hSI' 0 (by omega) (by omega))
            rw [h2] at hTV
            cases hpb : presentB S t (W - 16 ^ dp) with
            | false => rfl
            | true => exact absurd hpb hTV
          exact ih stk (nuF (W - 16 ^ dp)) (toBytesLE (S + 1) (W - 16 ^ dp))
            (W - 16 ^ dp) rfl (by omega) hnu_lt hnu.1 hskip' hlen hSI' hgas'
      · -- underflow: the buffer wraps to all 0xFF bytes
        have hlt0 : W < 16 ^ dp := by omega
        have hQ := hQpair.2 hlt0
        have hW16 : W = 16 ^ dp - 1 := by
          have hcopy := halign
          rw [Nat.mod_eq_of_lt hlt0] at hcopy
          exact hcopy
        have hnone : lastLe S t W = none := by
          apply lastLe_none_of_absent
          intro j hj
          by_cases hdp0 : dp = 0
          · have hW0 : W = 0 := by
              rw [hW16, hdp0, pow_zero]
              rfl
            rw [show j = W from by omega]
            exact hskip hdp0
          · have hCE : isEmptyT (childAt (stk.getD dp .empty)
                (tetradeValue bys dp)) = true := by
              cases hE : isEmptyT (childAt (stk.getD dp .empty) (tetradeValue bys dp)) with
              | true => rfl
              | false => exact absurd ⟨hdp0, hE⟩ hC
            have hslot : isEmptyT (descendV t W (2 * S - 1) (2 * S - dp)) = true := by
              rw [← hchild]
              exact hCE
            have hjW : j / 16 ^ dp = W / 16 ^ dp := by
              rw [Nat.div_eq_of_lt (by omega), Nat.div_eq_of_lt hlt0]
            unfold presentB
            rw [fastFind_slot_empty (le_of_lt hdlt) hslot j hjW]
            rfl
        have hTV : ¬ targetValid (decStep (2 * S) (⟨stk, dp, bys⟩ : IterSt V)) = true := by
          rw [hstep, hQ]
          rw [targetValid_of_depth_ne
            (s := ⟨stk, dp + (2 * S + 2 - dp), toBytesLE (S + 1) (16 ^ (2 * S + 2) - 1)⟩)
            (by show dp + (2 * S + 2 - dp) ≠ 0; omega)]
          simp
        rw [decLoopGo_succ, if_pos hdlt, if_neg hTV, hstep, hQ]
        obtain ⟨g2, hg2⟩ : ∃ g2, gas = g2 + 1 := ⟨gas - 1, by omega⟩
        rw [hg2, decLoopGo_succ, if_neg (by show ¬ dp + (2 * S + 2 - dp) < 2 * S; omega)]
        constructor
        · intro K hK
          rw [hnone] at hK
          exact absurd hK (by simp)
        · intro _
          constructor
          · show dp + (2 * S + 2 - dp) = 2 * S + 2
            omega
          · rfl

end DecLoop

section DecrementSpec

variable {V : Type}

theorem decLoop_eq (D : Nat) (st : IterSt V) :
    decLoop D st = decLoopGo D ((D + 2) * 16 ^ (D + 2)) st := rfl

/-- The seek loop exits immediately once the depth cursor has left the
trie levels. -/
theorem decLoopGo_exit (D gas : Nat) (st : IterSt V) (h : ¬ st.depth < D) :
    decLoopGo D gas st = st := by
  cases gas with
  | zero => rfl
  | succ gas => rw [decLoopGo_succ, if_neg h]

theorem decrement_of_found (S : Nat) (st res : IterSt V)
    (h1 : decLoop (2 * S) st = res) (h2 : res.depth < 2 * S) :
    decrement S st = res := by
  unfold decrement
  dsimp only
  rw [h1, if_pos h2]

/-- The overflow byte of the wrapped-around all-`FF` buffer is `0xFF`. -/
theorem allF_getD_top (S : Nat) :
    (toBytesLE (S + 1) (16 ^ (2 * S + 2) - 1)).getD S 0 = 255 := by
  have hwf := bytesWF_toBytesLE (S + 1) (16 ^ (2 * S + 2) - 1)
  have h16 : (16 : Nat) ^ (2 * S + 2) = 256 ^ S * 256 := by
    rw [pow16_add_two, pow16_two_mul]
  have hP : (0 : Nat) < 256 ^ S := by positivity
  have hlt : 16 ^ (2 * S + 2) - 1 < 256 ^ (S + 1) := by
    have h2 : (256 : Nat) ^ (S + 1) = 256 ^ S * 256 := pow_succ 256 S
    omega
  rw [getD_bval _ hwf S, bval_toBytesLE _ _ hlt, h16]
  have hdiv : (256 ^ S * 256 - 1) / 256 ^ S = 255 := by
    apply Nat.div_eq_of_lt_le
    · omega
    · omega
  rw [hdiv]

theorem decrement_of_exhaust (S : Nat) (st : IterSt V)
    (hd : (decLoop (2 * S) st).depth = 2 * S + 2)
    (hbys : (decLoop (2 * S) st).bytes = toBytesLE (S + 1) (16 ^ (2 * S + 2) - 1)) :
    decrement S st = { decLoop (2 * S) st with bytes := rendBytes S } := by
  unfold decrement
  dsimp only
  rw [if_neg (by rw [hd]; omega),
    if_neg (by unfold ovfByte; rw [hbys, allF_getD_top]; norm_num)]

/-- `decrement` from a consistent pre-step state: the last present key
`≤ W` if any, the before-begin position otherwise. -/
theorem decrement_spec (S : Nat) (hS : 0 < S) (t : Trie V)
    (stk : List (Trie V)) (dp : Nat) (bys : List Nat) (W : Nat)
    (hb : bys = toBytesLE (S + 1) W)
    (hWlt : W < 16 ^ (2 * S))
    (hdlt : dp < 2 * S)
    (halign : W % 16 ^ dp = 16 ^ dp - 1)
    (hskip : dp = 0 → presentB S t W = false)
    (hlen : stk.length = 2 * S)
    (hSI : ∀ j, dp ≤ j → j < 2 * S → stk.getD j .empty = stackSlot t bys (2 * S) j) :
    (∀ K, lastLe S t W = some K →
        decrement S (⟨stk, dp, bys⟩ : IterSt V) = foundIter S t K) ∧
    (lastLe S t W = none →
      (decrement S (⟨stk, dp, bys⟩ : IterSt V)).bytes = rendBytes S) := by
  have hgas : W * (2 * S + 1) + dp + 2 ≤ (2 * S + 2) * 16 ^ (2 * S + 2) := by
    have h1 := measure_le S 1 dp (by omega)
    have h2 : W * (2 * S + 1) ≤ (16 ^ (2 * S) - 1) * (2 * S + 1) :=
      Nat.mul_le_mul_right _ (by omega)
    omega
  have hspec := decLoopGo_spec S hS t ((2 * S + 2) * 16 ^ (2 * S + 2)) stk dp bys W
    hb hWlt hdlt halign hskip hlen hSI hgas
  constructor
  · intro K hK
    apply decrement_of_found S _ _ (by rw [decLoop_eq]; exact hspec.1 K hK)
    show (foundIter S t K).depth < 2 * S
    show 0 < 2 * S
    omega
  · intro hN
    obtain ⟨hd, hby⟩ := hspec.2 hN
    rw [decrement_of_exhaust S _ (by rw [decLoop_eq]; exact hd)
      (by rw [decLoop_eq]; exact hby)]

/-- `operator--` from the element with radix key `K`: seek the last present
key strictly below `K`, falling off the front when `K = 0`. -/
theorem decrement_foundIter (S : Nat) (hS : 0 < S) (t : Trie V) (K : Nat)
    (hK : K < 16 ^ (2 * S)) :
    (K = 0 → (decrement S (foundIter S t K)).bytes = rendBytes S) ∧
    (1 ≤ K →
      (∀ K', lastLe S t (K - 1) = some K' →
          decrement S (foundIter S t K) = foundIter S t K') ∧
      (lastLe S t (K - 1) = none →
        (decrement S (foundIter S t K)).bytes = rendBytes S)) := by
  have hK256 : K < 256 ^ (S + 1) :=
    lt_of_lt_of_le (pow16_two_mul S ▸ hK)
      (Nat.pow_le_pow_right (by norm_num) (by omega))
  have hbv : bval (toBytesLE (S + 1) K) = K := bval_toBytesLE _ _ hK256
  have hG : (2 * S + 2) * 16 ^ (2 * S + 2)
      = ((2 * S + 2) * 16 ^ (2 * S + 2) - 1) + 1 := by
    have : 0 < (2 * S + 2) * 16 ^ (2 * S + 2) := by positivity
    omega
  have hQpair := @decrQuartet_spec S 0 (toBytesLE (S + 1) K)
    (bytesWF_toBytesLE _ _) (length_toBytesLE _ _) (by omega)
    (by rw [hbv, pow_zero]; omega) (by rw [hbv]; exact hK)
  rw [hbv] at hQpair
  constructor
  · -- `K = 0`: the borrow underflows the whole buffer
    intro hK0
    subst hK0
    have hQ : decrQuartet (2 * S) (toBytesLE (S + 1) 0) 0
        = (toBytesLE (S + 1) (16 ^ (2 * S + 2) - 1), 2 * S + 2) := by
      have h1 := hQpair.2 (by rw [pow_zero]; omega)
      rw [h1, Nat.sub_zero]
    have hstep : decStep (2 * S) (foundIter S t 0)
        = ⟨mkStack t (toBytesLE (S + 1) 0) (2 * S), 2 * S + 2,
            toBytesLE (S + 1) (16 ^ (2 * S + 2) - 1)⟩ := by
      unfold decStep
      rw [if_neg (by
        intro hcon
        exact hcon.1 rfl)]
      show (⟨mkStack t (toBytesLE (S + 1) 0) (2 * S),
        0 + (decrQuartet (2 * S) (toBytesLE (S + 1) 0) 0).2,
        (decrQuartet (2 * S) (toBytesLE (S + 1) 0) 0).1⟩ : IterSt V) = _
      rw [hQ]
      show (⟨mkStack t (toBytesLE (S + 1) 0) (2 * S), 0 + (2 * S + 2),
        toBytesLE (S + 1) (16 ^ (2 * S + 2) - 1)⟩ : IterSt V) = _
      rw [Nat.zero_add]
    have hloop : decLoop (2 * S) (foundIter S t 0)
        = ⟨mkStack t (toBytesLE (S + 1) 0) (2 * S), 2 * S + 2,
            toBytesLE (S + 1) (16 ^ (2 * S + 2) - 1)⟩ := by
      rw [decLoop_eq, hG, decLoopGo_succ, if_pos (by show 0 < 2 * S; omega),
        if_neg (by
          rw [hstep, targetValid_of_depth_ne (by show 2 * S + 2 ≠ 0; omega)]
          simp), hstep]
      exact decLoopGo_exit _ _ _ (by show ¬ 2 * S + 2 < 2 * S; omega)
    rw [decrement_of_exhaust S _ (by rw [hloop]) (by rw [hloop])]
  · -- `K ≥ 1`: the step reaches `K - 1` with `nuF (K - 1)` borrows
    intro hK1
    have hnu := nuF_div_mod (K - 1)
    have hQ : decrQuartet (2 * S) (toBytesLE (S + 1) K) 0
        = (toBytesLE (S + 1) (K - 1), nuF (K - 1)) := by
      have h1 := hQpair.1 (by rw [pow_zero]; omega)
      rw [h1, pow_zero, Nat.sub_zero]
    have hstep : decStep (2 * S) (foundIter S t K)
        = ⟨mkStack t (toBytesLE (S + 1) K) (2 * S), nuF (K - 1),
            toBytesLE (S + 1) (K - 1)⟩ := by
      unfold decStep
      rw [if_neg (by
        intro hcon
        exact hcon.1 rfl)]
      show (⟨mkStack t (toBytesLE (S + 1) K) (2 * S),
        0 + (decrQuartet (2 * S) (toBytesLE (S + 1) K) 0).2,
        (decrQuartet (2 * S) (toBytesLE (S + 1) K) 0).1⟩ : IterSt V) = _
      rw [hQ]
      show (⟨mkStack t (toBytesLE (S + 1) K) (2 * S), 0 + nuF (K - 1),
        toBytesLE (S + 1) (K - 1)⟩ : IterSt V) = _
      rw [Nat.zero_add]
    have hnu_lt : nuF (K - 1) < 2 * S := by
      by_contra hge
      push_neg at hge
      have h2 := alignF_mono hnu.1 hge
      rw [Nat.mod_eq_of_lt (by omega)] at h2
      omega
    have hK1256 : K - 1 < 256 ^ (S + 1) := by omega
    have hdivK : K / 16 ^ (nuF (K - 1) + 1) = (K - 1) / 16 ^ (nuF (K - 1) + 1) := by
      have h1 := div_add_pow_eq (x := K - 1) (d := 0) (v := nuF (K - 1))
        (by omega) hnu.1 hnu.2
      rw [pow_zero, show K - 1 + 1 = K from by omega] at h1
      exact h1
    have hSI' : ∀ j, nuF (K - 1) ≤ j → j < 2 * S →
        (mkStack t (toBytesLE (S + 1) K) (2 * S)).getD j .empty
          = stackSlot t (toBytesLE (S + 1) (K - 1)) (2 * S) j := by
      intro j hj1 hj2
      rw [getD_mkStack t _ _ _ hj2]
      apply stackSlot_congr t _ _ (bytesWF_toBytesLE _ _) (bytesWF_toBytesLE _ _) _ _ hj2
      rw [bval_toBytesLE _ _ hK256, bval_toBytesLE _ _ hK1256]
      exact div_pow_congr hdivK (by omega)
    by_cases hTV : targetValid (decStep (2 * S) (foundIter S t K)) = true
    · -- the predecessor key `K - 1` is itself present
      rw [hstep] at hTV
      have hnu0 : nuF (K - 1) = 0 := by
        by_contra hne0
        rw [targetValid_of_depth_ne
          (s := ⟨mkStack t (toBytesLE (S + 1) K) (2 * S), nuF (K - 1),
            toBytesLE (S + 1) (K - 1)⟩) (by show nuF (K - 1) ≠ 0; omega)] at hTV
        exact absurd hTV (by simp)
      have hpres' : presentB S t (K - 1) = true := by
        have h2 := targetValid_depth0 S t
          ⟨mkStack t (toBytesLE (S + 1) K) (2 * S), nuF (K - 1), toBytesLE (S + 1) (K - 1)⟩
          (K - 1) hS (by show nuF (K - 1) = 0; omega) rfl (by omega)
          (by
            show (mkStack t (toBytesLE (S + 1) K) (2 * S)).getD 0 .empty
              = stackSlot t (toBytesLE (S + 1) (K - 1)) (2 * S) 0
            exact hSI' 0 (by omega) (by omega))
        rw [h2] at hTV
        exact hTV
      have hsome : lastLe S t (K - 1) = some (K - 1) := lastLe_of_present hpres'
      have hloop : decLoop (2 * S) (foundIter S t K) = foundIter S t (K - 1) := by
        rw [decLoop_eq, hG, decLoopGo_succ, if_pos (by show 0 < 2 * S; omega),
          if_pos (show targetValid (decStep (2 * S) (foundIter S t K)) = true from by
            rw [hstep]; exact hTV), hstep]
        unfold foundIter
        have hstk : mkStack t (toBytesLE (S + 1) K) (2 * S)
            = mkStack t (toBytesLE (S + 1) (K - 1)) (2 * S) := by
          apply eq_mkStack_of_getD t _ (2 * S) _ (length_mkStack _ _ _)
          intro j hj
          exact hSI' j (by omega) hj
        rw [hstk, hnu0]
      constructor
      · intro K' hK'
        rw [hsome] at hK'
        injection hK' with hK'
        subst hK'
        exact decrement_of_found S _ _ hloop (by show 0 < 2 * S; omega)
      · intro h
        rw [hsome] at h
        exact absurd h (by simp)
    · -- keep seeking downward from `K - 1`
      have hskip' : nuF (K - 1) = 0 → presentB S t (K - 1) = false := by
        intro h0
        rw [hstep] at hTV
        have h2 := targetValid_depth0 S t
          ⟨mkStack t (toBytesLE (S + 1) K) (2 * S), nuF (K - 1), toBytesLE (S + 1) (K - 1)⟩
          (K - 1) hS (by show nuF (K - 1) = 0; omega) rfl (by omega)
          (by
            show (mkStack t (toBytesLE (S + 1) K) (2 * S)).getD 0 .empty
              = stackSlot t (toBytesLE (S + 1) (K - 1)) (2 * S) 0
            exact hSI' 0 (by omega) (by omega))
        rw [h2] at hTV
        cases hpb : presentB S t (K - 1) with
        | false => rfl
        | true => exact absurd hpb hTV
      have hspec := decLoopGo_spec S hS t ((2 * S + 2) * 16 ^ (2 * S + 2) - 1)
        (mkStack t (toBytesLE (S + 1) K) (2 * S)) (nuF (K - 1))
        (toBytesLE (S + 1) (K - 1)) (K - 1) rfl (by omega) hnu_lt hnu.1
        hskip' (length_mkStack _ _ _) hSI'
        (by
          have h1 := measure_le S 1 (nuF (K - 1)) (by omega)
          have h2 : (K - 1 + 1) * (2 * S + 1) ≤ (16 ^ (2 * S) - 1) * (2 * S + 1) :=
            Nat.mul_le_mul_right _ (by omega)
          have h3 : (K - 1 + 1) * (2 * S + 1) = (K - 1) * (2 * S + 1) + (2 * S + 1) := by
            ring
          omega)
      have hloop : decLoop (2 * S) (foundIter S t K)
          = decLoopGo (2 * S) ((2 * S + 2) * 16 ^ (2 * S + 2) - 1)
            (⟨mkStack t (toBytesLE (S + 1) K) (2 * S), nuF (K - 1),
              toBytesLE (S + 1) (K - 1)⟩ : IterSt V) := by
        rw [decLoop_eq, hG, decLoopGo_succ, if_pos (by show 0 < 2 * S; omega),
          if_neg (by exact hTV), hstep]
        congr 1
      constructor
      · intro K' hK'
        have hfound := hspec.1 K' hK'
        apply decrement_of_found S _ _ (by rw [hloop]; exact hfound)
        show (foundIter S t K').depth < 2 * S
        show 0 < 2 * S
        omega
      · intro hN
        obtain ⟨hd, hby⟩ := hspec.2 hN
        rw [decrement_of_exhaust S (foundIter S t K)
          (by rw [hloop]; exact hd) (by rw [hloop]; exact hby)]

theorem toBytesLE_allF : ∀ S : Nat,
    toBytesLE (S + 1) (256 ^ S - 1) = List.replicate S 255 ++ [0] := by
  intro S
  induction S with
  | zero => rfl
  | succ S ih =>
    have h0 : (0 : Nat) < 256 ^ S := by positivity
    have hsplit : (256 : Nat) ^ (S + 1) - 1 = 256 * (256 ^ S - 1) + 255 := by
      have hp : (256 : Nat) ^ (S + 1) = 256 ^ S * 256 := pow_succ 256 S
      omega
    rw [show toBytesLE (S + 1 + 1) (256 ^ (S + 1) - 1)
        = (256 ^ (S + 1) - 1) % 256 :: toBytesLE (S + 1) ((256 ^ (S + 1) - 1) / 256)
        from rfl,
      show (256 ^ (S + 1) - 1) % 256 = 255 from by rw [hsplit]; omega,
      show (256 ^ (S + 1) - 1) / 256 = 256 ^ S - 1 from by rw [hsplit]; omega, ih]
    rfl

theorem toBytesLE_allF16 (S : Nat) :
    toBytesLE (S + 1) (16 ^ (2 * S) - 1) = List.replicate S 255 ++ [0] := by
  rw [pow16_two_mul]
  exact toBytesLE_allF S

/-- The past-the-end iterator `end_it` (`iterator(ptr_t*)`,
src/arraymap.h:582-588): only the top stack slot is initialised (to the
root); the unwritten lower slots are modelled by the sentinel, and no run
reads them before overwriting them.  Key bytes zero, overflow byte 1,
depth `MAX_DEPTH`. -/
def endIter {V : Type} (S : Nat) (t : Trie V) : IterSt V :=
  ⟨List.replicate (2 * S - 1) Trie.empty ++ [t], 2 * S, endBytes S⟩

/-- Decrementing `end()`: restart from the all-`FF` key at the top level
and seek the greatest present key; park before begin when there is none. -/
theorem decrement_endIter (S : Nat) (hS : 0 < S) (t : Trie V) :
    (∀ K, lastLe S t (16 ^ (2 * S) - 1) = some K →
        decrement S (endIter S t) = foundIter S t K) ∧
    (lastLe S t (16 ^ (2 * S) - 1) = none →
      (decrement S (endIter S t)).bytes = rendBytes S) := by
  have hst1 : decLoop (2 * S) (endIter S t) = endIter S t := by
    rw [decLoop_eq]
    exact decLoopGo_exit _ _ _ (by show ¬ 2 * S < 2 * S; omega)
  have hpos : (0 : Nat) < 16 ^ (2 * S) := by positivity
  have hspec := decLoopGo_spec S hS t ((2 * S + 2) * 16 ^ (2 * S + 2))
    ((endIter S t).stack) (2 * S - 1) (List.replicate S 255 ++ [0])
    (16 ^ (2 * S) - 1)
    (toBytesLE_allF16 S).symm (by omega) (by omega)
    (alignF_mono (i := 2 * S) (by rw [Nat.mod_eq_of_lt (by omega)]) (by omega))
    (fun h0 => absurd h0 (by omega))
    (by
      show (List.replicate (2 * S - 1) Trie.empty ++ [t]).length = 2 * S
      rw [List.length_append, List.length_replicate]
      show 2 * S - 1 + 1 = 2 * S
      omega)
    (by
      intro j hj1 hj2
      have hj : j = 2 * S - 1 := by omega
      subst hj
      show (List.replicate (2 * S - 1) Trie.empty ++ [t]).getD (2 * S - 1) .empty = _
      rw [List.getD_append_right _ _ _ _ (by simp), List.length_replicate,
        Nat.sub_self, stackSlot_top]
      rfl)
    (by
      have h1 := measure_le S 1 (2 * S - 1) (by omega)
      omega)
  unfold decrement
  dsimp only
  rw [hst1, if_neg (show ¬ (endIter S t).depth < 2 * S from by
      show ¬ 2 * S < 2 * S
      omega),
    if_pos (show ovfByte S (endIter S t) = 0x01 from endBytes_getD S)]
  have hst2 : ({ endIter S t with
        bytes := List.replicate S 0xFF ++ [0], depth := 2 * S - 1 } : IterSt V)
      = ⟨(endIter S t).stack, 2 * S - 1, List.replicate S 255 ++ [0]⟩ := rfl
  rw [hst2, decLoop_eq]
  constructor
  · intro K hK
    rw [hspec.1 K hK,
      if_pos (show (foundIter S t K).depth < 2 * S from by show 0 < 2 * S; omega)]
  · intro hN
    obtain ⟨hd, _⟩ := hspec.2 hN
    rw [if_neg (by rw [hd]; omega)]

/-- `rbegin()`: the element with the greatest present radix key, or the
before-begin position on an empty container. -/
theorem rbeginIter_spec (S : Nat) (hS : 0 < S) (t : Trie V) :
    (∀ K, lastLe S t (16 ^ (2 * S) - 1) = some K → rbeginIter S t = foundIter S t K) ∧
    (lastLe S t (16 ^ (2 * S) - 1) = none → (rbeginIter S t).bytes = rendBytes S) := by
  have hpos : (0 : Nat) < 16 ^ (2 * S) := by positivity
  have hb0 : toBytesLE S (16 ^ (2 * S) - 1) ++ [0]
      = toBytesLE (S + 1) (16 ^ (2 * S) - 1) := by
    apply toBytesLE_append_zero
    rw [← pow16_two_mul]
    omega
  have hlen0 : (mkStack t (toBytesLE S (16 ^ (2 * S) - 1) ++ [0]) (2 * S)).length
      = 2 * S := length_mkStack _ _ _
  have hSI0 : ∀ j, j < 2 * S →
      (mkStack t (toBytesLE S (16 ^ (2 * S) - 1) ++ [0]) (2 * S)).getD j .empty
        = stackSlot t (toBytesLE S (16 ^ (2 * S) - 1) ++ [0]) (2 * S) j :=
    fun j hj => getD_mkStack _ _ _ _ hj
  have hdle : initDepthGo (mkStack t (toBytesLE S (16 ^ (2 * S) - 1) ++ [0]) (2 * S))
      (2 * S - 1) ≤ 2 * S - 1 := initDepthGo_le _ _
  have hrb : rbeginIter S t
      = (if targetValid ⟨mkStack t (toBytesLE S (16 ^ (2 * S) - 1) ++ [0]) (2 * S),
            initDepthGo (mkStack t (toBytesLE S (16 ^ (2 * S) - 1) ++ [0]) (2 * S))
              (2 * S - 1),
            toBytesLE S (16 ^ (2 * S) - 1) ++ [0]⟩ then
          (⟨mkStack t (toBytesLE S (16 ^ (2 * S) - 1) ++ [0]) (2 * S),
            initDepthGo (mkStack t (toBytesLE S (16 ^ (2 * S) - 1) ++ [0]) (2 * S))
              (2 * S - 1),
            toBytesLE S (16 ^ (2 * S) - 1) ++ [0]⟩ : IterSt V)
        else decrement S ⟨mkStack t (toBytesLE S (16 ^ (2 * S) - 1) ++ [0]) (2 * S),
            initDepthGo (mkStack t (toBytesLE S (16 ^ (2 * S) - 1) ++ [0]) (2 * S))
              (2 * S - 1),
            toBytesLE S (16 ^ (2 * S) - 1) ++ [0]⟩) := by
    show iterFromKeyRev S t (16 ^ (2 * S) - 1) true = _
    unfold iterFromKeyRev
    by_cases hTV : targetValid ⟨mkStack t (toBytesLE S (16 ^ (2 * S) - 1) ++ [0]) (2 * S),
        initDepthGo (mkStack t (toBytesLE S (16 ^ (2 * S) - 1) ++ [0]) (2 * S))
          (2 * S - 1),
        toBytesLE S (16 ^ (2 * S) - 1) ++ [0]⟩ = true
    · rw [if_pos hTV, if_pos hTV]
    · rw [if_neg hTV, if_neg hTV, if_pos rfl]
  by_cases hTV : targetValid ⟨mkStack t (toBytesLE S (16 ^ (2 * S) - 1) ++ [0]) (2 * S),
      initDepthGo (mkStack t (toBytesLE S (16 ^ (2 * S) - 1) ++ [0]) (2 * S)) (2 * S - 1),
      toBytesLE S (16 ^ (2 * S) - 1) ++ [0]⟩ = true
  · -- the all-ones radix key is itself present
    have hd0 : initDepthGo (mkStack t (toBytesLE S (16 ^ (2 * S) - 1) ++ [0]) (2 * S))
        (2 * S - 1) = 0 := by
      by_contra hne0
      rw [targetValid_of_depth_ne (by exact hne0)] at hTV
      exact absurd hTV (by simp)
    have hpres : presentB S t (16 ^ (2 * S) - 1) = true := by
      have h2 := targetValid_depth0 S t
        ⟨mkStack t (toBytesLE S (16 ^ (2 * S) - 1) ++ [0]) (2 * S),
         initDepthGo (mkStack t (toBytesLE S (16 ^ (2 * S) - 1) ++ [0]) (2 * S))
           (2 * S - 1),
         toBytesLE S (16 ^ (2 * S) - 1) ++ [0]⟩ (16 ^ (2 * S) - 1) hS hd0 hb0 (by omega)
        (by
          show (mkStack t (toBytesLE S (16 ^ (2 * S) - 1) ++ [0]) (2 * S)).getD 0 .empty
            = stackSlot t (toBytesLE S (16 ^ (2 * S) - 1) ++ [0]) (2 * S) 0
          exact hSI0 0 (by omega))
      rw [h2] at hTV
      exact hTV
    have hsome : lastLe S t (16 ^ (2 * S) - 1) = some (16 ^ (2 * S) - 1) :=
      lastLe_of_present hpres
    constructor
    · intro K hK
      rw [hsome] at hK
      injection hK with hK
      subst hK
      rw [hrb, if_pos hTV]
      unfold foundIter
      have hstk : mkStack t (toBytesLE S (16 ^ (2 * S) - 1) ++ [0]) (2 * S)
          = mkStack t (toBytesLE (S + 1) (16 ^ (2 * S) - 1)) (2 * S) := by rw [hb0]
      rw [hd0, hstk, hb0]
    · intro h
      rw [hsome] at h
      exact absurd h (by simp)
  · -- seek the last present key downward from all-ones
    have hskip : initDepthGo (mkStack t (toBytesLE S (16 ^ (2 * S) - 1) ++ [0]) (2 * S))
        (2 * S - 1) = 0 → presentB S t (16 ^ (2 * S) - 1) = false := by
      intro hd0
      have h2 := targetValid_depth0 S t
        ⟨mkStack t (toBytesLE S (16 ^ (2 * S) - 1) ++ [0]) (2 * S),
         initDepthGo (mkStack t (toBytesLE S (16 ^ (2 * S) - 1) ++ [0]) (2 * S))
           (2 * S - 1),
         toBytesLE S (16 ^ (2 * S) - 1) ++ [0]⟩ (16 ^ (2 * S) - 1) hS hd0 hb0 (by omega)
        (by
          show (mkStack t (toBytesLE S (16 ^ (2 * S) - 1) ++ [0]) (2 * S)).getD 0 .empty
            = stackSlot t (toBytesLE S (16 ^ (2 * S) - 1) ++ [0]) (2 * S) 0
          exact hSI0 0 (by omega))
      rw [h2] at hTV
      cases hpb : presentB S t (16 ^ (2 * S) - 1) with
      | false => rfl
      | true => exact absurd hpb hTV
    have hdec := decrement_spec S hS t
      (mkStack t (toBytesLE S (16 ^ (2 * S) - 1) ++ [0]) (2 * S))
      (initDepthGo (mkStack t (toBytesLE S (16 ^ (2 * S) - 1) ++ [0]) (2 * S)) (2 * S - 1))
      (toBytesLE S (16 ^ (2 * S) - 1) ++ [0]) (16 ^ (2 * S) - 1) hb0 (by omega)
      (by omega)
      (alignF_mono (i := 2 * S) (by rw [Nat.mod_eq_of_lt (by omega)]) (by omega))
      hskip hlen0 (fun j _ hj => hSI0 j hj)
    constructor
    · intro K hK
      rw [hrb, if_neg hTV]
      exact hdec.1 K hK
    · intro hN
      rw [hrb, if_neg hTV]
      exact hdec.2 hN

/-- At depth 0 with canonical bytes and consistent stack, iterator validity
is exactly presence of the denoted key. -/
theorem targetValid_foundIter (S : Nat) (hS : 0 < S) (t : Trie V) (K : Nat)
    (hK : K < 16 ^ (2 * S)) :
    targetValid (foundIter S t K) = presentB S t K := by
  apply targetValid_depth0 S t _ K hS rfl rfl hK
  show (mkStack t (toBytesLE (S + 1) K) (2 * S)).getD 0 .empty
    = stackSlot t (toBytesLE (S + 1) K) (2 * S) 0
  exact getD_mkStack t _ _ _ (by omega)

end DecrementSpec

section TraceRev

variable {V : Type}

/-- The ascending list of present radix keys `< n` (specification side). -/
def keysUpto (S : Nat) (t : Trie V) (n : Nat) : List Nat :=
  (List.range n).filter (presentB S t)

theorem keysUpto_succ (S : Nat) (t : Trie V) (n : Nat) :
    keysUpto S t (n + 1)
      = keysUpto S t n ++ (if presentB S t n then [n] else []) := by
  unfold keysUpto
  rw [List.range_succ, List.filter_append, List.filter_cons, List.filter_nil]

/-- The keys between a hit of `lastLe` and its starting point are absent. -/
theorem keysUpto_of_lastLe_some {S : Nat} {t : Trie V} :
    ∀ (n W K' : Nat), W + 1 ≤ n → lastLe S t W = some K' →
      presentB S t K' = true ∧ K' ≤ W ∧ keysUpto S t (W + 1) = keysUpto S t (K' + 1) := by
  intro n
  induction n with
  | zero =>
    intro W K' hW _
    exact absurd hW (by omega)
  | succ n ih =>
    intro W K' hW hlast
    by_cases hp : presentB S t W = true
    · rw [lastLe_of_present hp] at hlast
      injection hlast with h
      subst h
      exact ⟨hp, le_refl _, rfl⟩
    · have hp' : presentB S t W = false := by
        cases hpb : presentB S t W with
        | false => rfl
        | true => exact absurd hpb hp
      rcases Nat.eq_zero_or_pos W with h0 | hpos
      · subst h0
        rw [lastLe_zero_absent hp'] at hlast
        exact absurd hlast (by simp)
      · have hshift : lastLe S t W = lastLe S t (W - 1) :=
          lastLe_gap 1 W (fun j h1 h2 => by rw [show j = W from by omega]; exact hp')
            (by omega)
        rw [hshift] at hlast
        obtain ⟨h1, h2, h3⟩ := ih (W - 1) K' (by omega) hlast
        rw [show W - 1 + 1 = W from by omega] at h3
        refine ⟨h1, by omega, ?_⟩
        rw [keysUpto_succ, if_neg (by rw [hp']; simp), List.append_nil, h3]

theorem keysUpto_of_lastLe_none {S : Nat} {t : Trie V} :
    ∀ (n W : Nat), W + 1 ≤ n → lastLe S t W = none → keysUpto S t (W + 1) = [] := by
  intro n
  induction n with
  | zero =>
    intro W hW _
    exact absurd hW (by omega)
  | succ n ih =>
    intro W hW hlast
    have hp' : presentB S t W = false := by
      cases hpb : presentB S t W with
      | false => rfl
      | true => rw [lastLe_of_present hpb] at hlast; exact absurd hlast (by simp)
    rcases Nat.eq_zero_or_pos W with h0 | hpos
    · subst h0
      rw [keysUpto_succ, if_neg (by rw [hp']; simp), List.append_nil]
      rfl
    · have hshift : lastLe S t W = lastLe S t (W - 1) :=
        lastLe_gap 1 W (fun j h1 h2 => by rw [show j = W from by omega]; exact hp')
          (by omega)
      rw [hshift] at hlast
      have h3 := ih (W - 1) (by omega) hlast
      rw [show W - 1 + 1 = W from by omega] at h3
      rw [keysUpto_succ, if_neg (by rw [hp']; simp), List.append_nil, h3]

/-- `lastLe` returns the greatest present key in range. -/
theorem lastLe_max {S : Nat} {t : Trie V} :
    ∀ (n W K : Nat), W + 1 ≤ n → lastLe S t W = some K →
      ∀ K', presentB S t K' = true → K' ≤ W → K' ≤ K := by
  intro n
  induction n with
  | zero =>
    intro W K hW _
    exact absurd hW (by omega)
  | succ n ih =>
    intro W K hW hlast K' hp' hle
    by_cases hp : presentB S t W = true
    · rw [lastLe_of_present hp] at hlast
      injection hlast with h
      subst h
      exact hle
    · have hpf : presentB S t W = false := by
        cases hpb : presentB S t W with
        | false => rfl
        | true => exact absurd hpb hp
      rcases Nat.eq_zero_or_pos W with h0 | hpos
      · subst h0
        rw [lastLe_zero_absent hpf] at hlast
        exact absurd hlast (by simp)
      · have hshift : lastLe S t W = lastLe S t (W - 1) :=
          lastLe_gap 1 W (fun j h1 h2 => by rw [show j = W from by omega]; exact hpf)
            (by omega)
        rw [hshift] at hlast
        have hle' : K' ≤ W - 1 := by
          rcases Nat.lt_or_ge K' W with h | h
          · omega
          · exfalso
            rw [show K' = W from by omega] at hp'
            rw [hpf] at hp'
            exact absurd hp' (by simp)
        exact ih (W - 1) K (by omega) hlast K' hp' hle'

/-- `lastLe` finds something whenever some key in range is present. -/
theorem lastLe_exists {S : Nat} {t : Trie V} :
    ∀ (n W K0 : Nat), W + 1 ≤ n → presentB S t K0 = true → K0 ≤ W →
      ∃ K, lastLe S t W = some K := by
  intro n
  induction n with
  | zero =>
    intro W K0 hW _ _
    exact absurd hW (by omega)
  | succ n ih =>
    intro W K0 hW hp hle
    by_cases hq : presentB S t W = true
    · exact ⟨W, lastLe_of_present hq⟩
    · have hpf : presentB S t W = false := by
        cases hpb : presentB S t W with
        | false => rfl
        | true => exact absurd hpb hq
      rcases Nat.eq_zero_or_pos W with h0 | hpos
      · exfalso
        rw [show K0 = W from by omega, hpf] at hp
        exact absurd hp (by simp)
      · have hK0W : K0 ≤ W - 1 := by
          rcases Nat.lt_or_ge K0 W with h | h
          · omega
          · exfalso
            rw [show K0 = W from by omega, hpf] at hp
            exact absurd hp (by simp)
        have hshift : lastLe S t W = lastLe S t (W - 1) :=
          lastLe_gap 1 W (fun j h1 h2 => by rw [show j = W from by omega]; exact hpf)
            (by omega)
        obtain ⟨K, hK⟩ := ih (W - 1) K0 (by omega) hp hK0W
        exact ⟨K, by rw [hshift]; exact hK⟩

theorem bval_replicate_zero_append (x : Nat) :
    ∀ S : Nat, bval (List.replicate S 0 ++ [x]) = x * 256 ^ S := by
  intro S
  induction S with
  | zero =>
    show bval [x] = x * 256 ^ 0
    show x + 256 * bval [] = x * 256 ^ 0
    show x + 256 * 0 = x * 256 ^ 0
    rw [pow_zero]
    omega
  | succ S ih =>
    show bval (0 :: (List.replicate S 0 ++ [x])) = x * 256 ^ (S + 1)
    show 0 + 256 * bval (List.replicate S 0 ++ [x]) = x * 256 ^ (S + 1)
    rw [ih, pow_succ]
    ring

theorem foundIter_bytes_ne_rend {S K : Nat} (h : K < 16 ^ (2 * S)) :
    toBytesLE (S + 1) K ≠ rendBytes S := by
  intro hc
  have h1 : bval (toBytesLE (S + 1) K) = K :=
    bval_toBytesLE _ _ (lt_of_lt_of_le (pow16_two_mul S ▸ h)
      (Nat.pow_le_pow_right (by norm_num) (by omega)))
  have h2 : bval (rendBytes S) = 255 * 256 ^ S := bval_replicate_zero_append 255 S
  rw [hc, h2] at h1
  have h3 : (256 : Nat) ^ S ≤ 255 * 256 ^ S := Nat.le_mul_of_pos_left _ (by norm_num)
  have h4 : K < 256 ^ S := by
    rw [← pow16_two_mul]
    exact h
  omega

theorem traceRev_succ (S fuel : Nat) (st : IterSt V) :
    traceRev S (fuel + 1) st
      = if st.bytes = rendBytes S then []
        else keyOfBytes S st.bytes :: traceRev S fuel (decrement S st) := rfl

theorem traceRev_rendBytes {S : Nat} (fuel : Nat) {st : IterSt V}
    (h : st.bytes = rendBytes S) : traceRev S fuel st = [] := by
  cases fuel with
  | zero => rfl
  | succ fuel => rw [traceRev_succ, if_pos h]

/-- A reverse traversal started on the element with radix key `K` collects
exactly the present radix keys `≤ K`, in descending order. -/
theorem traceRev_foundIter {S : Nat} (hS : 0 < S) (t : Trie V) :
    ∀ (fuel K : Nat), presentB S t K = true → K < 16 ^ (2 * S) →
      (keysUpto S t (K + 1)).length ≤ fuel →
      traceRev S fuel (foundIter S t K) = (keysUpto S t (K + 1)).reverse := by
  intro fuel
  induction fuel with
  | zero =>
    intro K hp hK hlen
    have hmem : K ∈ keysUpto S t (K + 1) := by
      unfold keysUpto
      rw [List.mem_filter]
      exact ⟨List.mem_range.mpr (by omega), hp⟩
    have := List.length_pos.mpr (List.ne_nil_of_mem hmem)
    omega
  | succ fuel ih =>
    intro K hp hK hlen
    rw [traceRev_succ,
      if_neg (by
        show ¬ (toBytesLE (S + 1) K = rendBytes S)
        exact foundIter_bytes_ne_rend hK),
      show keyOfBytes S (foundIter S t K).bytes = K from keyOfBytes_toBytesLE hK]
    have hsnoc : keysUpto S t (K + 1) = keysUpto S t K ++ [K] := by
      rw [keysUpto_succ, if_pos hp]
    rcases Nat.eq_zero_or_pos K with hK0 | hKpos
    · subst hK0
      have hbytes := (decrement_foundIter S hS t 0 hK).1 rfl
      rw [traceRev_rendBytes fuel hbytes, hsnoc]
      rfl
    · cases hlast : lastLe S t (K - 1) with
      | none =>
        have hbytes := ((decrement_foundIter S hS t K hK).2 hKpos).2 hlast
        rw [traceRev_rendBytes fuel hbytes, hsnoc]
        have hnil := keysUpto_of_lastLe_none K (K - 1) (by omega) hlast
        rw [show K - 1 + 1 = K from by omega] at hnil
        rw [hnil]
        rfl
      | some K' =>
        have hstep := ((decrement_foundIter S hS t K hK).2 hKpos).1 K' hlast
        obtain ⟨h1, h2, h3⟩ := keysUpto_of_lastLe_some K (K - 1) K' (by omega) hlast
        rw [show K - 1 + 1 = K from by omega] at h3
        have hK'lt : K' < 16 ^ (2 * S) := by omega
        have hlen' : (keysUpto S t (K' + 1)).length ≤ fuel := by
          rw [← h3]
          have hL : (keysUpto S t (K + 1)).length = (keysUpto S t K).length + 1 := by
            rw [hsnoc, List.length_append]
            rfl
          omega
        rw [hstep, ih K' h1 hK'lt hlen', ← h3, hsnoc, List.reverse_append]
        rfl

/-- A full reverse traversal from `rbegin()` collects exactly the present
radix keys in descending order. -/
theorem traceRev_rbegin {S : Nat} (hS : 0 < S) (t : Trie V) (fuel : Nat)
    (hlen : (keysUpto S t (16 ^ (2 * S))).length ≤ fuel) :
    traceRev S fuel (rbeginIter S t) = (keysUpto S t (16 ^ (2 * S))).reverse := by
  have hpos : (0 : Nat) < 16 ^ (2 * S) := by positivity
  cases hlast : lastLe S t (16 ^ (2 * S) - 1) with
  | none =>
    have hend := (rbeginIter_spec S hS t).2 hlast
    rw [traceRev_rendBytes fuel hend]
    have hnil := keysUpto_of_lastLe_none (16 ^ (2 * S)) (16 ^ (2 * S) - 1)
      (by omega) hlast
    rw [show 16 ^ (2 * S) - 1 + 1 = 16 ^ (2 * S) from by omega] at hnil
    rw [hnil]
    rfl
  | some K =>
    have hrb := (rbeginIter_spec S hS t).1 K hlast
    obtain ⟨h1, h2, h3⟩ := keysUpto_of_lastLe_some (16 ^ (2 * S)) (16 ^ (2 * S) - 1) K
      (by omega) hlast
    rw [show 16 ^ (2 * S) - 1 + 1 = 16 ^ (2 * S) from by omega] at h3
    have hKlt : K < 16 ^ (2 * S) := by omega
    rw [hrb, traceRev_foundIter hS t fuel K h1 hKlt (by rw [← h3]; exact hlen), ← h3]

end TraceRev

section BuildMap

variable {V : Type}

/-- A container built by a sequence of `insert` calls from empty. -/
def buildMap {V : Type} (S : Nat) (l : List (Nat × V)) : AMap V :=
  l.foldl (fun m kv => (insertR S m kv.1 kv.2).1) (emptyMap V)

theorem wfB_insertR (S : Nat) (m : AMap V) (k : Nat) (v : V)
    (h : wfB (2 * S) m.root = true) : wfB (2 * S) (insertR S m k v).1.root = true := by
  unfold insertR
  by_cases hab : isEmptyT (fastFind m.root k (2 * S)) = true
  · rw [if_pos hab]
    exact wfB_fastAdd k v (2 * S) m.root h
  · rw [if_neg hab]
    exact h

/-- Presence after one `insert`: the freshly inserted key joins the present
set, every other key's slot is untouched. -/
theorem presentB_insertR (S : Nat) (m : AMap V) (k : Nat) (v : V)
    (hwf : wfB (2 * S) m.root = true) (K : Nat)
    (hK : K < 16 ^ (2 * S)) (hk : k < 16 ^ (2 * S)) :
    presentB S (insertR S m k v).1.root K = (presentB S m.root K || decide (K = k)) := by
  unfold insertR
  by_cases hab : isEmptyT (fastFind m.root k (2 * S)) = true
  · rw [if_pos hab]
    by_cases heq : K = k
    · subst heq
      show presentB S (fastAdd m.root K v (2 * S)) K = _
      unfold presentB
      rw [fastFind_fastAdd_self K v (2 * S) m.root hwf]
      simp [isEmptyT]
    · show presentB S (fastAdd m.root k v (2 * S)) K = _
      unfold presentB
      rw [fastFind_fastAdd_ne k K v (2 * S) m.root hwf
        (mod_ne_of_ne hk hK (fun h => heq h.symm))]
      simp [heq]
  · rw [if_neg hab]
    by_cases heq : K = k
    · subst heq
      show presentB S m.root K = (presentB S m.root K || decide (K = K))
      have hp : presentB S m.root K = true := by
        unfold presentB
        cases hi : isEmptyT (fastFind m.root K (2 * S)) with
        | false => rfl
        | true => exact absurd hi hab
      rw [hp]
      simp
    · show presentB S m.root K = (presentB S m.root K || decide (K = k))
      simp [heq]

theorem presentB_foldl (S : Nat) :
    ∀ (l : List (Nat × V)) (m : AMap V), wfB (2 * S) m.root = true →
      (∀ kv ∈ l, kv.1 < 16 ^ (2 * S)) → ∀ K, K < 16 ^ (2 * S) →
      presentB S (l.foldl (fun m kv => (insertR S m kv.1 kv.2).1) m).root K
        = (presentB S m.root K || l.any (fun kv => decide (K = kv.1))) := by
  intro l
  induction l with
  | nil =>
    intro m hwf hb K hK
    simp
  | cons kv l ih =>
    intro m hwf hb K hK
    rw [List.foldl_cons, List.any_cons,
      ih _ (wfB_insertR S m kv.1 kv.2 hwf) (fun x hx => hb x (by simp [hx])) K hK,
      presentB_insertR S m kv.1 kv.2 hwf K hK (hb kv (by simp)),
      Bool.or_assoc]

theorem presentB_emptyMap (S K : Nat) : presentB S (emptyMap V).root K = false := by
  unfold presentB
  rw [show (emptyMap V).root = Trie.empty from rfl, fastFind_empty]
  rfl

/-- Presence in a built container is membership among the inserted radix
keys. -/
theorem presentB_buildMap (S : Nat) (l : List (Nat × V))
    (hb : ∀ kv ∈ l, kv.1 < 16 ^ (2 * S)) (K : Nat) (hK : K < 16 ^ (2 * S)) :
    (presentB S (buildMap S l).root K = true ↔ K ∈ l.map Prod.fst) := by
  unfold buildMap
  rw [presentB_foldl S l (emptyMap V) (wfB_empty (2 * S)) hb K hK, presentB_emptyMap,
    Bool.false_or, List.any_eq_true]
  simp only [decide_eq_true_eq, List.mem_map]
  constructor
  · rintro ⟨kv, hkv, heq⟩
    exact ⟨kv, hkv, heq.symm⟩
  · rintro ⟨kv, hkv, heq⟩
    exact ⟨kv, hkv, heq.symm⟩

theorem mem_keysGe_zero {S : Nat} (t : Trie V) (K : Nat) :
    K ∈ keysGe S t 0 ↔ (K < 16 ^ (2 * S) ∧ presentB S t K = true) := by
  unfold keysGe
  rw [List.mem_filter, List.mem_range'_1]
  constructor
  · rintro ⟨⟨h1, h2⟩, h3⟩
    exact ⟨by omega, h3⟩
  · rintro ⟨h1, h2⟩
    exact ⟨⟨by omega, by omega⟩, h2⟩

end BuildMap

section NativeOrder

theorem restoreIntW_applyIntW (w b : Nat) : restoreIntW w (applyIntW w b) = b := by
  unfold restoreIntW applyIntW
  exact Nat.xor_cancel_right _ _

theorem applyIntW_restoreIntW (w b : Nat) : applyIntW w (restoreIntW w b) = b := by
  unfold restoreIntW applyIntW
  exact Nat.xor_cancel_right _ _

theorem restoreIntW_lt_two_pow {w b : Nat} (hw : 0 < w) (hb : b < 2 ^ w) :
    restoreIntW w b < 2 ^ w := applyIntW_lt_two_pow hw hb

/-- The key/value pairs as stored: native keys transformed by `apply`. -/
def radixPairs {V : Type} (w : Nat) (l : List (Nat × V)) : List (Nat × V) :=
  l.map (fun kv => (applyIntW w kv.1, kv.2))

/-- The radix keys collected by a full forward traversal of the container
built from `l` (width `8 * S` signed-integer keys). -/
def fwdKeys {V : Type} (S : Nat) (l : List (Nat × V)) : List Nat :=
  traceFwd S (16 ^ (2 * S)) (beginIter S (buildMap S (radixPairs (8 * S) l)).root)

/-- The radix keys collected by a full reverse traversal. -/
def revKeys {V : Type} (S : Nat) (l : List (Nat × V)) : List Nat :=
  traceRev S (16 ^ (2 * S)) (rbeginIter S (buildMap S (radixPairs (8 * S) l)).root)

end NativeOrder

/-! ### Claim C6: lower_bound / upper_bound -/

/-- C6: **refuted by the code** — the claim states that `lower_bound(k)`
returns the first element with radix key `≥ apply(k)`. On a 2-byte signed
key container holding only the native key `0x9400` (radix key `0x1400`),
`lower_bound` of native `0x9375` (radix `0x1375`, natively below the stored
key) returns the past-the-end position even though an element with greater
radix key is present: the keyed constructor's depth scan stops at level 1
and the successor seek then runs on the stale low nibbles of the search
key, stepping over the stored element. -/
theorem claim6_lower_bound_divergence :
    applyIntW 16 0x9400 = 0x1400 ∧
    applyIntW 16 0x9375 = 0x1375 ∧
    intLtW 16 0x9375 0x9400 ∧
    findValR 2 (insertR 2 (emptyMap Nat) 0x1400 7).1 0x1400 = some 7 ∧
    firstGe 2 (insertR 2 (emptyMap Nat) 0x1400 7).1.root 0x1375 = some 0x1400 ∧
    (lowerBoundIter 2 (insertR 2 (emptyMap Nat) 0x1400 7).1.root 0x1375).bytes
      = endBytes 2 := by
  decide

/-! ### Claim C10: decrementing end() -/

/-- C10: on a non-empty container, `--end()` lands on a valid iterator
denoting the element with the greatest radix key (hence, through the
order-preserving transform, the greatest native key); on an empty container
it parks at the before-begin position whose overflow byte is `0xFF`. -/
theorem claim10_decrement_end {V : Type} (S : Nat) (hS : 0 < S) (m : AMap V) :
    ((∃ K0, K0 < 16 ^ (2 * S) ∧ presentB S m.root K0 = true) →
      ∃ Kmax, presentB S m.root Kmax = true ∧ Kmax < 16 ^ (2 * S) ∧
        (∀ K', K' < 16 ^ (2 * S) → presentB S m.root K' = true → K' ≤ Kmax) ∧
        decrement S (endIter S m.root) = foundIter S m.root Kmax ∧
        targetValid (decrement S (endIter S m.root)) = true ∧
        keyOfBytes S (decrement S (endIter S m.root)).bytes = Kmax) ∧
    ((∀ K, K < 16 ^ (2 * S) → presentB S m.root K = false) →
      (decrement S (endIter S m.root)).bytes = rendBytes S) := by
  have hpos : (0 : Nat) < 16 ^ (2 * S) := by positivity
  constructor
  · rintro ⟨K0, hK0lt, hK0p⟩
    obtain ⟨Kmax, hmax⟩ := lastLe_exists (16 ^ (2 * S)) (16 ^ (2 * S) - 1) K0
      (by omega) hK0p (by omega)
    obtain ⟨h1, h2, _⟩ := keysUpto_of_lastLe_some (16 ^ (2 * S)) (16 ^ (2 * S) - 1) Kmax
      (by omega) hmax
    have hKlt : Kmax < 16 ^ (2 * S) := by omega
    have hdec := (decrement_endIter S hS m.root).1 Kmax hmax
    refine ⟨Kmax, h1, hKlt, ?_, hdec, ?_, ?_⟩
    · intro K' hK'lt hK'p
      exact lastLe_max (16 ^ (2 * S)) (16 ^ (2 * S) - 1) Kmax (by omega) hmax K' hK'p
        (by omega)
    · rw [hdec, targetValid_foundIter S hS m.root Kmax hKlt]
      exact h1
    · rw [hdec]
      exact keyOfBytes_toBytesLE hKlt
  · intro habs
    apply (decrement_endIter S hS m.root).2
    apply lastLe_none_of_absent
    intro j hj
    exact habs j (by omega)

def c10map : AMap Nat := (insertR 1 (emptyMap Nat) 0x37 5).1

theorem claim10_witness :
    0 < 1 ∧
    (((∃ K0, K0 < 16 ^ (2 * 1) ∧ presentB 1 c10map.root K0 = true) →
      ∃ Kmax, presentB 1 c10map.root Kmax = true ∧ Kmax < 16 ^ (2 * 1) ∧
        (∀ K', K' < 16 ^ (2 * 1) → presentB 1 c10map.root K' = true → K' ≤ Kmax) ∧
        decrement 1 (endIter 1 c10map.root) = foundIter 1 c10map.root Kmax ∧
        targetValid (decrement 1 (endIter 1 c10map.root)) = true ∧
        keyOfBytes 1 (decrement 1 (endIter 1 c10map.root)).bytes = Kmax) ∧
    ((∀ K, K < 16 ^ (2 * 1) → presentB 1 c10map.root K = false) →
      (decrement 1 (endIter 1 c10map.root)).bytes = rendBytes 1)) :=
  ⟨by decide, claim10_decrement_end 1 (by decide) c10map⟩

/-! ### Claim C1: iteration order -/

/-- C1: building a container from distinct signed-integer keys (width
`8 * S` bit patterns, native order `intLtW`), the full forward traversal
restores exactly the inserted native keys, each once (a permutation of a
duplicate-free list), in strictly ascending native order; the full reverse
traversal yields the exact reverse of the forward one, hence the same keys
once each in strictly descending native order. -/
theorem claim1_iteration_order {V : Type} (S : Nat) (hS : 0 < S)
    (l : List (Nat × V))
    (hbound : ∀ kv ∈ l, kv.1 < 2 ^ (8 * S))
    (hnodup : (l.map Prod.fst).Nodup) :
    ((fwdKeys S l).map (restoreIntW (8 * S))).Perm (l.map Prod.fst) ∧
    ((fwdKeys S l).map (restoreIntW (8 * S))).Pairwise (intLtW (8 * S)) ∧
    revKeys S l = (fwdKeys S l).reverse ∧
    ((revKeys S l).map (restoreIntW (8 * S))).Pairwise
      (fun a b => intLtW (8 * S) b a) := by
  have hpow : (16 : Nat) ^ (2 * S) = 2 ^ (8 * S) := by
    rw [show (16 : Nat) = 2 ^ 4 from by norm_num, ← pow_mul]
    congr 1
    ring
  have hbR : ∀ kv ∈ radixPairs (8 * S) l, kv.1 < 16 ^ (2 * S) := by
    intro kv hkv
    unfold radixPairs at hkv
    rw [List.mem_map] at hkv
    obtain ⟨ab, hab, heq⟩ := hkv
    rw [← heq]
    show applyIntW (8 * S) ab.1 < 16 ^ (2 * S)
    rw [hpow]
    exact applyIntW_lt_two_pow (by omega) (hbound ab hab)
  obtain ⟨t, ht⟩ : ∃ t', (buildMap S (radixPairs (8 * S) l)).root = t' := ⟨_, rfl⟩
  have hfwd : fwdKeys S l = keysGe S t 0 := by
    show traceFwd S (16 ^ (2 * S)) (beginIter S (buildMap S (radixPairs (8 * S) l)).root)
      = keysGe S t 0
    rw [ht]
    apply traceFwd_begin hS
    unfold keysGe
    calc (List.filter (presentB S t) (List.range' 0 (16 ^ (2 * S) - 0))).length
        ≤ (List.range' 0 (16 ^ (2 * S) - 0)).length := List.length_filter_le _ _
      _ ≤ 16 ^ (2 * S) := by rw [List.length_range']; exact Nat.sub_le _ _
  have hprespec : ∀ K, K < 16 ^ (2 * S) →
      (presentB S t K = true ↔ K ∈ (radixPairs (8 * S) l).map Prod.fst) := by
    intro K hK
    rw [← ht]
    exact presentB_buildMap S _ hbR K hK
  have hmapfst : (radixPairs (8 * S) l).map Prod.fst
      = l.map (fun kv => applyIntW (8 * S) kv.1) := by
    unfold radixPairs
    rw [List.map_map]
    rfl
  have hinj : Function.Injective (applyIntW (8 * S)) := by
    intro a b hab
    have h := congrArg (restoreIntW (8 * S)) hab
    rwa [restoreIntW_applyIntW, restoreIntW_applyIntW] at h
  have hRnodup : ((radixPairs (8 * S) l).map Prod.fst).Nodup := by
    rw [hmapfst, show l.map (fun kv => applyIntW (8 * S) kv.1)
        = (l.map Prod.fst).map (applyIntW (8 * S)) from by rw [List.map_map]; rfl]
    exact hnodup.map hinj
  have hpair : (keysGe S t 0).Pairwise (· < ·) := by
    unfold keysGe
    apply List.Pairwise.filter
    rw [show List.range' 0 (16 ^ (2 * S) - 0) = List.range (16 ^ (2 * S) - 0) from
      (List.range_eq_range' _).symm]
    exact List.pairwise_lt_range _
  have hnodupF : (keysGe S t 0).Nodup := hpair.imp (fun h => Nat.ne_of_lt h)
  have hmem : ∀ K, K ∈ keysGe S t 0 ↔ K ∈ (radixPairs (8 * S) l).map Prod.fst := by
    intro K
    constructor
    · intro hK
      obtain ⟨h1, h2⟩ := (mem_keysGe_zero t K).mp hK
      exact (hprespec K h1).mp h2
    · intro hK
      have hKlt : K < 16 ^ (2 * S) := by
        rw [List.mem_map] at hK
        obtain ⟨kv, hkv, heq⟩ := hK
        rw [← heq]
        exact hbR kv hkv
      exact (mem_keysGe_zero t K).mpr ⟨hKlt, (hprespec K hKlt).mpr hK⟩
  have hperm : (keysGe S t 0).Perm ((radixPairs (8 * S) l).map Prod.fst) :=
    (List.perm_ext_iff_of_nodup hnodupF hRnodup).mpr hmem
  have hrestore : ((radixPairs (8 * S) l).map Prod.fst).map (restoreIntW (8 * S))
      = l.map Prod.fst := by
    rw [hmapfst, List.map_map]
    show l.map (fun kv => restoreIntW (8 * S) (applyIntW (8 * S) kv.1)) = _
    rw [show (fun kv : Nat × V => restoreIntW (8 * S) (applyIntW (8 * S) kv.1))
        = fun kv : Nat × V => kv.1 from funext fun kv => restoreIntW_applyIntW _ _]
  have hc1 : ((fwdKeys S l).map (restoreIntW (8 * S))).Perm (l.map Prod.fst) := by
    rw [hfwd, ← hrestore]
    exact hperm.map _
  have hbd : ∀ x ∈ keysGe S t 0, x < 16 ^ (2 * S) :=
    fun x hx => ((mem_keysGe_zero t x).mp hx).1
  have hc2 : ((fwdKeys S l).map (restoreIntW (8 * S))).Pairwise (intLtW (8 * S)) := by
    rw [hfwd, List.pairwise_map]
    apply hpair.imp_of_mem
    intro a b hma hmb hab
    have ha := hbd a hma
    have hb := hbd b hmb
    rw [hpow] at ha hb
    have hra := restoreIntW_lt_two_pow (w := 8 * S) (by omega) ha
    have hrb := restoreIntW_lt_two_pow (w := 8 * S) (by omega) hb
    apply (applyIntW_lt_iff (by omega) hra hrb).mp
    rw [applyIntW_restoreIntW, applyIntW_restoreIntW]
    exact hab
  have hc3 : revKeys S l = (fwdKeys S l).reverse := by
    have hlenU : (keysUpto S t (16 ^ (2 * S))).length ≤ 16 ^ (2 * S) := by
      unfold keysUpto
      calc (List.filter (presentB S t) (List.range (16 ^ (2 * S)))).length
          ≤ (List.range (16 ^ (2 * S))).length := List.length_filter_le _ _
        _ = 16 ^ (2 * S) := List.length_range _
    have hrev : revKeys S l = (keysUpto S t (16 ^ (2 * S))).reverse := by
      show traceRev S (16 ^ (2 * S))
          (rbeginIter S (buildMap S (radixPairs (8 * S) l)).root) = _
      rw [ht]
      exact traceRev_rbegin hS t _ hlenU
    have hUG : keysUpto S t (16 ^ (2 * S)) = keysGe S t 0 := by
      unfold keysUpto keysGe
      rw [Nat.sub_zero, List.range_eq_range']
    rw [hrev, hUG, hfwd]
  have hc4 : ((revKeys S l).map (restoreIntW (8 * S))).Pairwise
      (fun a b => intLtW (8 * S) b a) := by
    rw [hc3, List.map_reverse, List.pairwise_reverse]
    exact hc2
  exact ⟨hc1, hc2, hc3, hc4⟩

theorem claim1_witness :
    0 < 1 ∧
    (∀ kv ∈ ([(0x85, 10), (0x03, 20)] : List (Nat × Nat)), kv.1 < 2 ^ (8 * 1)) ∧
    (([(0x85, 10), (0x03, 20)] : List (Nat × Nat)).map Prod.fst).Nodup ∧
    (((fwdKeys 1 [(0x85, 10), (0x03, 20)]).map (restoreIntW (8 * 1))).Perm
        (([(0x85, 10), (0x03, 20)] : List (Nat × Nat)).map Prod.fst) ∧
      ((fwdKeys 1 [(0x85, 10), (0x03, 20)]).map (restoreIntW (8 * 1))).Pairwise
        (intLtW (8 * 1)) ∧
      revKeys 1 [(0x85, 10), (0x03, 20)] = (fwdKeys 1 [(0x85, 10), (0x03, 20)]).reverse ∧
      ((revKeys 1 [(0x85, 10), (0x03, 20)]).map (restoreIntW (8 * 1))).Pairwise
        (fun a b => intLtW (8 * 1) b a)) :=
  ⟨by decide, by decide, by decide,
    claim1_iteration_order 1 (by decide) [(0x85, 10), (0x03, 20)] (by decide) (by decide)⟩

end Arraymap

